import Mathlib

/-!
Verification of the CORE-MATH kernels and harnesses of this repository
(binary80 cbrtl / exp2l / hypotl, the binary32 exhaustive checker and the
binary80 special-value checkers) over a shallow embedding in Lean.

Floating-point values are modelled as rational numbers; an IEEE binary
format of precision p is the set of rationals of the form m * 2^e with
|m| < 2^p.  Correct rounding in each of the four IEEE modes is modelled by
the executable function `CM.fl` (unbounded exponent range; the binary80
encoder `CM.encode80` additionally applies the format's exponent range,
subnormal granularity and overflow rule).  Bit patterns are modelled as
natural numbers (`CM.B80` for the 80-bit extended format, plain ℕ for the
32-bit format), and the C kernels are transcribed statement by statement
on top of these two layers.

The Batteries rational operations are `irreducible` by default; they are
re-marked `semireducible` here so that closed instances of the embedded
kernels can be evaluated inside proofs by kernel reduction (`decide`).
-/

attribute [local semireducible] Rat.add Rat.mul Rat.inv Rat.sub

set_option maxRecDepth 4000

namespace CM

/-- 2^k on naturals, written as a shift so that both the elaborator and the
kernel can fold it for large `k`. -/
def np2 (k : ℕ) : ℕ := 1 <<< k

/-- Bisection for the base-2 logarithm: the invariant is
`2^lo ≤ n < 2^hi`, and the interval collapses once the fuel covers the
initial gap. -/
def lgGo (n : ℕ) : ℕ → ℕ → ℕ → ℕ
  | 0, lo, _hi => lo
  | f+1, lo, hi =>
    if hi ≤ lo + 1 then lo
    else
      let mid := (lo + hi) / 2
      if n >>> mid ≠ 0 then lgGo n f mid hi else lgGo n f lo mid

/-- Floor of the base-2 logarithm, correct for `1 ≤ n < 2^131072` (every
number arising from an 80-bit operand and the intermediates of the
embedded kernels is far below that bound). -/
def lg (n : ℕ) : ℕ := lgGo n 17 0 131072

/-- 2^k as a rational, for an integer (possibly negative) exponent. -/
def qp2 (k : ℤ) : ℚ := if 0 ≤ k then ((np2 k.toNat : ℕ) : ℚ) else Rat.divInt 1 (np2 (-k).toNat)

/-- Floor of a rational, computed from the reduced fraction. -/
def qfl (q : ℚ) : ℤ := q.num.ediv q.den

/-- Binade of a nonzero rational: the integer `e` with `2^e ≤ |q| < 2^(e+1)`
(junk value 0 at `q = 0`). -/
def qexp (q : ℚ) : ℤ :=
  if q = 0 then 0
  else
    let n := q.num.natAbs
    let d := q.den
    if d ≤ n then (lg (n / d) : ℤ)
    else
      let f := lg (d / n)
      if Rat.divInt (n : ℤ) (d : ℤ) = qp2 (-(f : ℤ)) then -(f : ℤ) else -(f : ℤ) - 1

/-- The four IEEE rounding modes selected by `fesetround` in the harnesses:
to nearest (even), toward zero, upward, downward. -/
inductive RMode
  | RN | RZ | RU | RD
deriving DecidableEq

/-- Rounding of a rational to an integer in a given mode (ties to even
for `RN`). -/
def rint (ρ : RMode) (q : ℚ) : ℤ :=
  match ρ with
  | .RD => qfl q
  | .RU => -(qfl (-q))
  | .RZ => if 0 ≤ q then qfl q else -(qfl (-q))
  | .RN =>
    let f := qfl q
    let r := q - (f : ℚ)
    if 2 * r < 1 then f
    else if 1 < 2 * r then f + 1
    else if f % 2 = 0 then f else f + 1

/-- Correct rounding of a rational to `p` significant bits in mode `ρ`,
with unbounded exponent range.  This is the model of one C floating-point
operation (`p = 53` for `double`, `p = 64` for `long double`) on the
assumption that neither overflow nor underflow occurs. -/
def fl (ρ : RMode) (p : ℕ) (q : ℚ) : ℚ :=
  if q = 0 then 0
  else
    let g : ℤ := qexp q - (p : ℤ) + 1
    (rint ρ (q * qp2 (-g)) : ℚ) * qp2 g

/-- Membership in the precision-`p` format (unbounded exponent):
`q = m * 2^e` with `|m| < 2^p`. -/
def Rep (p : ℕ) (q : ℚ) : Prop := ∃ m : ℤ, ∃ e : ℤ, q = (m : ℚ) * 2^e ∧ m.natAbs < 2^p

/-- Granularity: `q` is an integer multiple of `2^g`. -/
def Gr (g : ℤ) (q : ℚ) : Prop := ∃ k : ℤ, q = (k : ℚ) * 2^g

/-- A finite binary80 (`long double`) operand: 64-bit integral significand
scaled by an exponent within the format's range (subnormals included). -/
def LDRep (q : ℚ) : Prop :=
  ∃ m : ℤ, ∃ e : ℤ, q = (m : ℚ) * 2^e ∧ m.natAbs < 2^64 ∧ -16445 ≤ e ∧ e ≤ 16320

/-- A finite binary64 (`double`) operand. -/
def DRep (q : ℚ) : Prop :=
  ∃ m : ℤ, ∃ e : ℤ, q = (m : ℚ) * 2^e ∧ m.natAbs < 2^53 ∧ -1074 ≤ e ∧ e ≤ 971

/-- Integer square root by bisection (correct for `n < 2^128`). -/
def isqrtGo (n : ℕ) : ℕ → ℕ → ℕ → ℕ
  | 0, lo, _hi => lo
  | f+1, lo, hi =>
    if hi ≤ lo + 1 then lo
    else
      let mid := (lo + hi) / 2
      if mid * mid ≤ n then isqrtGo n f mid hi else isqrtGo n f lo mid

/-- `⌊√n⌋` for `n < 2^128`. -/
def isqrt (n : ℕ) : ℕ := isqrtGo n 70 0 (np2 64)

/-- Exact integer part of a rational (junk when the rational is not an
integer). -/
def qint (q : ℚ) : ℤ := q.num.ediv q.den

/-- Correctly rounded binary64 square root (`__builtin_sqrt`) in mode `ρ`,
for positive arguments in the normal range. -/
def sqrt53 (ρ : RMode) (q : ℚ) : ℚ :=
  if q ≤ 0 then 0
  else
    let e := qexp q
    let e2 := Int.ediv e 2
    let g := e2 - 52
    let N := q * qp2 (-(2*g))
    let m := isqrt (qint N).toNat
    match ρ with
    | .RD => (m : ℚ) * qp2 g
    | .RZ => (m : ℚ) * qp2 g
    | .RU => (if ((m : ℚ) * (m : ℚ) = N) then (m : ℚ) else (m + 1 : ℚ)) * qp2 g
    | .RN =>
      let mid : ℚ := (m : ℚ) + 1/2
      if N < mid * mid then (m : ℚ) * qp2 g
      else if mid * mid < N then (m + 1 : ℚ) * qp2 g
      else (if m % 2 = 0 then (m : ℚ) else (m + 1 : ℚ)) * qp2 g

/-! ## Bit-pattern layer: the 80-bit extended format -/

/-- An 80-bit extended pattern as the `b80u80_t` / `b96u96_u` unions of the
sources store it: a 64-bit significand field `m` and a 16-bit field `e`
holding the sign bit (bit 15) and the biased exponent (bits 0-14). -/
structure B80 where
  m : ℕ
  e : ℕ
deriving DecidableEq, Repr

/-- A long double value as classified by the hardware: NaN (keeping the
pattern for payload propagation), infinity with a sign, or a finite
rational. -/
inductive LD
  | nan : B80 → LD
  | inf : Bool → LD
  | fin : ℚ → LD
deriving DecidableEq

/-- Exponent field without the sign bit (`e & 0x7fff`). -/
def b80e7 (x : B80) : ℕ := x.e &&& 0x7fff

/-- Sign bit of a pattern. -/
def b80sign (x : B80) : Bool := x.e >>> 15 ≠ 0

/-- Decoding of an 80-bit pattern: exponent field 0x7fff with significand
exactly 2^63 is an infinity and with any other significand a NaN
(pseudo-infinities included, as in the hardware); otherwise the value is
`±m * 2^(max(e,1) - 16446)` (so the biased exponents 0 and 1 share one
binade: subnormals and pseudo-denormals decode as the hardware does). -/
def b80val (x : B80) : LD :=
  if b80e7 x = 0x7fff then
    (if x.m = np2 63 then .inf (b80sign x) else .nan x)
  else
    let mag : ℚ := (x.m : ℚ) * qp2 ((max (b80e7 x) 1 : ℕ) - 16446)
    .fin (if b80sign x then -mag else mag)

/-- NaN test of `hypotl.c` (`is_nan`, lines 117-123): exponent field all
ones and `m << 1` nonzero as a 64-bit word. -/
def is_nan (s : B80) : Bool :=
  decide ((s.e &&& 0x7fff) = 0x7fff) && decide ((s.m <<< 1) % np2 64 ≠ 0)

/-- Signaling-NaN test of `hypotl.c` (`is_snan`, lines 125-133): after
dropping bit 63, the significand is nonzero and its top bit (bit 62 of the
original word, the quiet bit) is clear. -/
def is_snan (s : B80) : Bool :=
  let m := (s.m <<< 1) % np2 64
  decide ((s.e &&& 0x7fff) = 0x7fff) && decide (m ≠ 0) && decide (m >>> 63 = 0)

/-- Quiet NaN at the pattern level: a NaN whose signaling bit is not set. -/
def isQNaN (s : B80) : Bool := is_nan s && ! is_snan s

/-- Quietening of a NaN as the x87 hardware does it: set bit 62 of the
significand, keeping sign and payload. -/
def quiet (x : B80) : B80 := ⟨x.m ||| np2 62, x.e⟩

/-- The pattern of +Inf. -/
def posInf80 : B80 := ⟨np2 63, 0x7fff⟩

/-- The pattern of -Inf. -/
def negInf80 : B80 := ⟨np2 63, 0xffff⟩

/-- The default quiet NaN produced for invalid operations. -/
def defQNaN : B80 := ⟨np2 63 + np2 62, 0x7fff⟩

/-- The largest finite long double `0x1.fffffffffffffffep+16383`
(`HUGE` of `hypotl.c`). -/
def hugeLD : B80 := ⟨np2 64 - 1, 0x7ffe⟩

/-- The long double `0x1p+16319` (half an ulp of `HUGE`): biased exponent
`16319 + 16383 = 0x7fbe`. -/
def p16319LD : B80 := ⟨np2 63, 0x7fbe⟩

/-- The long double `0x1p+16383`. -/
def p16383LD : B80 := ⟨np2 63, 0x7ffe⟩

/-- Sign-negation of a pattern (what the C unary minus does to the bits). -/
def negB (x : B80) : B80 := ⟨x.m, x.e ^^^ 0x8000⟩

/-- Unsupported x87 double-extended encodings (unnormals,
pseudo-infinities, pseudo-NaNs): a nonzero exponent field with the
explicit integer bit (bit 63 of the significand) clear.  An arithmetic
instruction given such an operand raises invalid and returns the QNaN
floating-point indefinite. -/
def b80unsupported (x : B80) : Bool :=
  decide (x.e &&& 0x7fff ≠ 0) && decide (x.m >>> 63 = 0)

/-- The QNaN floating-point indefinite (sign bit set, significand
`0xC000000000000000`). -/
def indefQNaN : B80 := ⟨np2 63 + np2 62, 0xffff⟩

/-- Encoding of a rational into the binary80 format with correct rounding
in mode `ρ`: subnormal granularity below `2^-16382`, and the IEEE overflow
rule (infinity when the mode rounds the magnitude away from zero, the
largest finite value otherwise). -/
def encode80 (ρ : RMode) (q : ℚ) : B80 :=
  if q = 0 then ⟨0, 0⟩
  else
    let s : ℕ := if q < 0 then 0x8000 else 0
    let ρm : RMode := if q < 0 then (match ρ with | .RU => .RD | .RD => .RU | m => m) else ρ
    let a := |q|
    let e := qexp a
    let g : ℤ := if e < -16382 then -16445 else e - 63
    let ar : ℚ := (rint ρm (a * qp2 (-g)) : ℚ) * qp2 g
    if ar = 0 then ⟨0, s⟩
    else
      let e2 := qexp ar
      if 16384 ≤ e2 then
        (match ρm with
         | .RN => ⟨np2 63, s + 0x7fff⟩
         | .RU => ⟨np2 63, s + 0x7fff⟩
         | _ => ⟨np2 64 - 1, s + 0x7ffe⟩)
      else if e2 < -16382 then ⟨(qint (ar * qp2 16445)).toNat, s⟩
      else ⟨(qint (ar * qp2 (63 - e2))).toNat, s + (e2 + 16383).toNat⟩

/-- Addition of two long doubles at the pattern level, as the x87 `fadd`
behaves: an unsupported encoding in either operand yields the QNaN
floating-point indefinite; with two NaN operands an sNaN/qNaN pair keeps
the quiet one and otherwise the NaN with the larger significand wins
(ties to the first operand), quietened; a single NaN propagates
quietened; infinities follow the IEEE rules; finite operands are added
exactly and encoded with correct rounding. -/
def ldAdd (ρ : RMode) (x y : B80) : B80 :=
  if b80unsupported x || b80unsupported y then indefQNaN
  else
    match b80val x, b80val y with
    | .nan p, .nan q =>
        if is_snan p = true ∧ is_snan q = false then quiet q
        else if is_snan p = false ∧ is_snan q = true then quiet p
        else if p.m < q.m then quiet q else quiet p
    | .nan p, _ => quiet p
    | _, .nan p => quiet p
    | .inf sx, .inf sy => if sx = sy then (if sx then negInf80 else posInf80) else defQNaN
    | .inf s, .fin _ => if s then negInf80 else posInf80
    | .fin _, .inf s => if s then negInf80 else posInf80
    | .fin a, .fin b => encode80 ρ (a + b)

/-- Multiplication of two long doubles at the pattern level (used only for
`0x1p-16445L * 0.5L` in `exp2l.c`; NaN and infinity cases follow the IEEE
rules). -/
def ldMul (ρ : RMode) (x y : B80) : B80 :=
  match b80val x, b80val y with
  | .nan p, _ => quiet p
  | _, .nan p => quiet p
  | .inf sx, .inf sy => if sx = sy then posInf80 else negInf80
  | .inf s, .fin a => if a = 0 then defQNaN else (if (decide s ≠ decide (a < 0)) then negInf80 else posInf80)
  | .fin a, .inf s => if a = 0 then defQNaN else (if (decide s ≠ decide (a < 0)) then negInf80 else posInf80)
  | .fin a, .fin b => encode80 ρ (a * b)

/-- Comparison `x >= c` on a long double pattern against a rational
constant (false when x is a NaN, as in C). -/
def ldGE (x : B80) (c : ℚ) : Bool :=
  match b80val x with
  | .nan _ => false
  | .inf s => !s
  | .fin a => decide (c ≤ a)

/-- Comparison `x <= c` (false when x is a NaN). -/
def ldLE (x : B80) (c : ℚ) : Bool :=
  match b80val x with
  | .nan _ => false
  | .inf s => s
  | .fin a => decide (a ≤ c)

/-- Comparison `x < c` (false when x is a NaN). -/
def ldLT (x : B80) (c : ℚ) : Bool :=
  match b80val x with
  | .nan _ => false
  | .inf s => s
  | .fin a => decide (a < c)

/-- Numeric test `x == 0` on a pattern (false for NaN; true for either
zero and for any pattern whose decoded value is 0). -/
def ldIsZero (x : B80) : Bool :=
  match b80val x with
  | .fin a => decide (a = 0)
  | _ => false

/-- Count of leading zeros of a 64-bit word (`__builtin_clzll`; junk 64 at
zero, where the C builtin is undefined). -/
def clz64 (m : ℕ) : ℕ := if m = 0 then 64 else 63 - lg m

/-- 128-bit wrap-around addition. -/
def add128 (a b : ℕ) : ℕ := (a + b) % np2 128

/-- 128-bit wrap-around subtraction. -/
def sub128 (a b : ℕ) : ℕ := (a + np2 128 - b % np2 128) % np2 128

/-- 128-bit wrap-around multiplication. -/
def mul128 (a b : ℕ) : ℕ := (a * b) % np2 128

/-- Mantissa bit field (52 bits, implicit bit removed) of the binary64
representation of a value, as reading the `b64u64_t` union's `m` member
does in `hypotl.c` (normal and subnormal values; junk at 0). -/
def b64mfield (v : ℚ) : ℕ :=
  if v = 0 then 0
  else
    let a := |v|
    let e := qexp a
    if e ≤ -1023 then (qint (a * qp2 1074)).toNat % np2 52
    else (qint (a * qp2 (52 - e))).toNat % np2 52

/-- Value of a binary64 pattern built from bit fields `m` (52 bits),
`e` (11 bits), sign 0, as `hypotl.c` builds `h` and `l` (normal `e ≥ 1`;
`e = 0` decodes as subnormal). -/
def b64ofFields (m : ℕ) (e : ℕ) : ℚ :=
  if e = 0 then (m : ℚ) * qp2 (-1074)
  else ((np2 52 + m : ℕ) : ℚ) * qp2 ((e : ℤ) - 1075)

/-- Two's-complement reading of the low 16 bits (the `(int16_t)` cast of
`hypotl.c`). -/
def int16 (n : ℕ) : ℤ :=
  let b := n % np2 16
  if b < np2 15 then (b : ℤ) else (b : ℤ) - np2 16

/-! ## Embedding of `cr_hypotl` (src/binary80/hypot/hypotl.c, lines 156-388)

The function is split into stages along its control flow: `cr_hypotl` holds
the swap and the NaN/Inf dispatch (lines 159-192), `hypotPost` the
zero/subnormal handling (lines 194-216), `hypotCore` the `d >= 32` early
path and the squared-sum/overflow logic (lines 220-283), and `hypotTail`
the square-root pipeline (lines 287-387).  The stages communicate through
exactly the data the C code still reads at that point: the (possibly
normalized) significands, the adjusted exponents, and the sign-stripped
exponent field `sx.e & 0x7fff` (the code reads `sx.e` only through that
mask).  `get_flags`/`set_flags` touch only the FP status register, which
has no effect on the returned pattern, so they have no counterpart here;
`1.0L / 0.0L` is +Inf. -/

/-- Normalization of a subnormal operand (lines 206-215): shift the
significand up by its leading-zero count `k` and lower the exponent by
`k - 1`. -/
def normSub (m : ℕ) (ex : ℤ) : ℕ × ℤ :=
  let k := clz64 m
  ((m <<< k) % np2 64, ex - ((k : ℤ) - 1))

/-- Final pattern assembly of the square-root pipeline (lines 366-387):
round up by one ulp when the rounding test asks for it, handling the
carry out of the significand. -/
def hypotOut (ρ : RMode) (ex : Bool) (eps : ℚ) (resm : ℕ) (x_exp1 : ℤ) : B80 :=
  let rese := ((x_exp1 + 0x3fff).emod (np2 16)).toNat
  if ex = false ∧ 1 < fl ρ 53 (1 + eps) then
    (if (resm + 1) % np2 64 = 0 then
      ⟨np2 63, ((x_exp1 + 0x3fff + 1).emod (np2 16)).toNat⟩
     else ⟨(resm + 1) % np2 64, rese⟩)
  else ⟨resm, rese⟩

/-- Square-root pipeline of `cr_hypotl` (lines 287-387): binary64
approximation of `sqrt(hh)`, Newton refinement, rounding-direction logic
and final pattern assembly. -/
def hypotTail (ρ : RMode) (hh ll : ℕ) (x_exp0 : ℤ) : B80 :=
  let high := hh >>> 127
  let hM := (((hh <<< (2 - high)) % np2 128) >>> 76) % np2 52
  let hE := 1024 + 125 + high
  let hV := b64ofFields hM hE
  let low := (hh <<< (54 - high)) % np2 128
  let lV : ℚ :=
    if low = 0 then 0
    else
      let e := if low >>> 64 ≠ 0 then clz64 (low >>> 64) else 64 + clz64 (low % np2 64)
      let lM := ((((low <<< e) % np2 128) <<< 1) % np2 128 >>> 76) % np2 52
      let lE := 1024 + 125 + high - 53 - e
      b64ofFields lM lE
  let sh := sqrt53 ρ hV
  let err0 := fl ρ 53 (hV - sh * sh)
  let err := fl ρ 53 (err0 + lV)
  let sl := fl ρ 53 (err / fl ρ 53 (2 * sh))
  let th0 := (np2 52 + b64mfield sh) <<< 11
  let slf := fl ρ 53 ((3 : ℚ) * qp2 51 + sl)
  let th1 := (((th0 : ℤ) + int16 (b64mfield slf &&& 0x3ffffffffffff)).toNat) % np2 128
  let th2 := if x_exp0 < -0x3ffe then th1 >>> (-0x3ffe - x_exp0).toNat else th1
  let ll2 : ℕ :=
    if x_exp0 < -0x3ffe then
      let k := (-0x3ffe - x_exp0).toNat
      (((hh <<< (128 - 2*k)) % np2 128) ||| (ll >>> (2*k)))
    else ll
  let hh2 := if x_exp0 < -0x3ffe then hh >>> (2 * (-0x3ffe - x_exp0).toNat) else hh
  let x_exp1 := if x_exp0 < -0x3ffe then x_exp0 + ((-0x3ffe - x_exp0).toNat : ℤ) - 1 else x_exp0
  let r0 := sub128 hh2 (mul128 th2 th2)
  let r1 := if r0 >>> 127 ≠ 0 then add128 r0 (sub128 (2 * th2) 1)
    else if add128 (2 * th2) 1 ≤ r0 then sub128 r0 (add128 (2 * th2) 1)
    else r0
  let th3 := if r0 >>> 127 ≠ 0 then sub128 th2 1
    else if add128 (2 * th2) 1 ≤ r0 then (th2 + 1) % np2 128
    else th2
  let exact := decide (r1 = 0 ∧ ll2 = 0)
  let eps : ℚ :=
    if th3 < r1 ∨ (r1 = th3 ∧ (np2 126 < ll2 ∨ (ll2 = np2 126 ∧ th3 % 2 = 1))) then
      (3 : ℚ) * qp2 (-54)
    else qp2 (-53)
  hypotOut ρ exact eps (th3 % np2 64) x_exp1

/-- Middle stage of `cr_hypotl` (lines 220-283): the `d >= 32` direct
rounding, the 128-bit squared sum, and the overflow filter.  `mx`, `my`
are the (normalized) significands, `x_exp0`, `y_exp` the adjusted
exponents, and `ex7` the stripped field `sx.e & 0x7fff` that the
`d >= 32` path reads back. -/
def hypotCore (ρ : RMode) (mx : ℕ) (x_exp0 : ℤ) (my : ℕ) (y_exp : ℤ) (ex7 : ℕ) : B80 :=
  let d := x_exp0 - y_exp
  if 32 ≤ d then
    let z : ℚ :=
      if d = 32 then
        let yy := my * my
        (if mx < yy >>> 64 ∨ (yy >>> 64 = mx ∧ np2 62 < yy % np2 64) then 1 + qp2 (-52) else 1)
      else 1
    if z < fl ρ 53 (z + qp2 (-53)) then
      (if (mx + 1) % np2 64 = 0 then ⟨np2 63, (ex7 + 1) % np2 16⟩
       else ⟨(mx + 1) % np2 64, ex7⟩)
    else ⟨mx, ex7⟩
  else
    let dd := (2 * d).toNat
    let xx := mx * mx
    let yy := my * my
    let hh0 := (xx + (yy >>> dd)) % np2 128
    let ll0 : ℕ := if 0 < dd then (yy <<< (128 - dd)) % np2 128 else 0
    let hh := if hh0 < xx then np2 126 ||| (hh0 >>> 2) else hh0
    let ll := if hh0 < xx then ((hh0 <<< 126) % np2 128) ||| (ll0 >>> 2) else ll0
    let x_exp := if hh0 < xx then x_exp0 + 1 else x_exp0
    if 0x3fff ≤ x_exp then
      (if 0x4000 ≤ x_exp then ldAdd ρ hugeLD hugeLD
       else if (np2 64 - 1) <<< 64 < hh ∨ (hh = (np2 64 - 1) <<< 64 ∧ 0 < ll) then
         ldAdd ρ hugeLD p16319LD
       else hypotTail ρ hh ll x_exp)
    else hypotTail ρ hh ll x_exp

/-- Zero and subnormal handling of `cr_hypotl` (lines 194-216), applied to
the already swapped operands. -/
def hypotPost (ρ : RMode) (sx sy : B80) : B80 :=
  let x_exp : ℤ := ((sx.e &&& 0x7fff : ℕ) : ℤ) - 0x3fff
  let y_exp : ℤ := ((sy.e &&& 0x7fff : ℕ) : ℤ) - 0x3fff
  if y_exp = -0x3fff ∧ sy.m = 0 then
    (if x_exp = -0x3fff ∧ sx.m = 0 then ⟨0, 0⟩
     else ⟨sx.m, sx.e &&& 0x7fff⟩)
  else if y_exp = -0x3fff then
    (if x_exp = -0x3fff then
      hypotCore ρ (normSub sx.m x_exp).1 (normSub sx.m x_exp).2
        (normSub sy.m y_exp).1 (normSub sy.m y_exp).2 (sx.e &&& 0x7fff)
     else
      hypotCore ρ sx.m x_exp (normSub sy.m y_exp).1 (normSub sy.m y_exp).2 (sx.e &&& 0x7fff))
  else hypotCore ρ sx.m x_exp sy.m y_exp (sx.e &&& 0x7fff)

/-- The condition of the swap at lines 165-171: `x` is moved behind `y`
when its stripped exponent, then its significand, compares smaller. -/
def hypotSwap (x y : B80) : Prop :=
  ((x.e &&& 0x7fff : ℕ) : ℤ) - 0x3fff < ((y.e &&& 0x7fff : ℕ) : ℤ) - 0x3fff ∨
    (((x.e &&& 0x7fff : ℕ) : ℤ) - 0x3fff = ((y.e &&& 0x7fff : ℕ) : ℤ) - 0x3fff ∧ x.m < y.m)

instance (x y : B80) : Decidable (hypotSwap x y) := by
  unfold hypotSwap; infer_instance

/-- `cr_hypotl` (lines 156-388): swap, NaN/Inf dispatch, then the numeric
stages. -/
def cr_hypotl (ρ : RMode) (x y : B80) : B80 :=
  let sx := if hypotSwap x y then y else x
  let sy := if hypotSwap x y then x else y
  let sx_exp : ℤ := ((sx.e &&& 0x7fff : ℕ) : ℤ) - 0x3fff
  let sy_exp : ℤ := ((sy.e &&& 0x7fff : ℕ) : ℤ) - 0x3fff
  if sx_exp = 0x4000 then
    (if is_snan sx ∨ is_snan sy then ldAdd ρ sx sy
     else if is_nan sx ∨ is_nan sy then
       (if is_nan sx ∧ is_nan sy then ldAdd ρ sx sy
        else if sx_exp = 0x4000 ∧ sy_exp = 0x4000 then posInf80
        else ldAdd ρ sx sy)
     else posInf80)
  else hypotPost ρ sx sy

/-! ## Embedding of `cr_cbrtl` (src/binary80/cbrt/cbrtl.c)

`split`, `a_mul`, `a_mul_double` and `d_mul_double` are the
extended-precision primitives of lines 80-132 (`a_mul` is identical in
`exp2l.c`, lines 83-91); `cbrt_fast_path` is `fast_path` (lines 136-256)
and `cr_cbrtl` the driver (lines 258-282).  Every C `double` operation is
one `fl ρ 53` rounding, every `long double` operation one `fl ρ 64`
rounding. -/

/-- Veltkamp's splitting with `C = 0x1.00000001p+32 = 2^32 + 1`
(lines 80-88 of cbrtl.c / 63-71 of exp2l.c). -/
def split (ρ : RMode) (x : ℚ) : ℚ × ℚ :=
  let gamma := fl ρ 64 (((np2 32 + 1 : ℕ) : ℚ) * x)
  let delta := fl ρ 64 (x - gamma)
  let xh := fl ρ 64 (gamma + delta)
  (xh, fl ρ 64 (x - xh))

/-- Dekker's product on long doubles (lines 98-106 of cbrtl.c, identical
at lines 83-91 of exp2l.c). -/
def a_mul (ρ : RMode) (u v : ℚ) : ℚ × ℚ :=
  let u1 := (split ρ u).1
  let u2 := (split ρ u).2
  let v1 := (split ρ v).1
  let v2 := (split ρ v).2
  let rh := fl ρ 64 (u * v)
  let t1 := fl ρ 64 (fl ρ 64 (u1 * v1) - rh)
  let t2 := fl ρ 64 (t1 + fl ρ 64 (u1 * v2))
  let t3 := fl ρ 64 (t2 + fl ρ 64 (u2 * v1))
  (rh, fl ρ 64 (t3 + fl ρ 64 (u2 * v2)))

/-- Exact product of doubles through the fused multiply-add
(`a_mul_double`, lines 109-112 of cbrtl.c / 94-97 of exp2l.c). -/
def a_mul_double (ρ : RMode) (a b : ℚ) : ℚ × ℚ :=
  let hi := fl ρ 53 (a * b)
  (hi, fl ρ 53 (a * b - hi))

/-- Double-word product of doubles ignoring the `al*bl` term
(`d_mul_double`, lines 125-132 of cbrtl.c). -/
def d_mul_double (ρ : RMode) (ah al bh bl : ℚ) : ℚ × ℚ :=
  let hi := fl ρ 53 (ah * bh)
  let s := fl ρ 53 (ah * bh - hi)
  let t := fl ρ 53 (al * bh + s)
  (hi, fl ρ 53 (ah * bl + t))

/-- The minimax coefficients `c[0..5]` of `fast_path` (lines 159-161). -/
def cbrtC : ℕ → ℚ
  | 0 => Rat.divInt 0x1e53b7c444f1ce (np2 54)
  | 1 => Rat.divInt 0x1ac2d3134803e2 (np2 53)
  | 2 => Rat.divInt (-0x1ddcd3b46e2071) (np2 54)
  | 3 => Rat.divInt 0x19b95b5c19bd0b (np2 55)
  | 4 => Rat.divInt (-0x197bd99b63f65e) (np2 57)
  | 5 => Rat.divInt 0x1592445ed9c63a (np2 60)
  | _ => 0

/-- The double-double table `sh[i] + sl[i] ≈ 2^(i/3)` (lines 246-247). -/
def cbrtSh : ℕ → ℚ
  | 1 => Rat.divInt 0x1428a2f98d728b (np2 52)
  | 2 => Rat.divInt 0x1965fea53d6e3d (np2 52)
  | _ => 1

/-- Low words of the `2^(i/3)` table (lines 247). -/
def cbrtSl : ℕ → ℚ
  | 1 => Rat.divInt (-0x1ddc22548ea41e) (np2 108)
  | 2 => Rat.divInt (-0x1f53e999952f09) (np2 106)
  | _ => 0

/-- The error bounds `err[i]` of line 254. -/
def cbrtErr : ℕ → ℚ
  | 1 => Rat.divInt 0x180 (np2 83)
  | 2 => Rat.divInt 0x1e4 (np2 83)
  | _ => Rat.divInt 0x131 (np2 83)

/-- `fast_path` of cbrtl.c (lines 136-256): returns `(h, l, exp, err)`. -/
def cbrt_fast_path (ρ : RMode) (x : B80) : ℚ × ℚ × ℤ × ℚ :=
  let s := x.e >>> 15
  let e0 := x.e &&& 0x7fff
  let m := if e0 = 0 then (x.m <<< clz64 x.m) % np2 64 else x.m
  let e1 : ℤ := if e0 = 0 then (e0 : ℤ) - ((clz64 x.m : ℤ) - 1) else (e0 : ℤ)
  let i := ((e1 + 63).emod 3).toNat
  let exp := (e1 + 63).ediv 3 - 5482
  let vf : ℚ := (m : ℚ) * qp2 (-63)
  let xh := fl ρ 53 vf
  let xl := fl ρ 53 (fl ρ 64 (vf - xh))
  let xx := fl ρ 53 (xh * xh)
  let r := fl ρ 53 (1 / xh)
  let x4 := fl ρ 53 (cbrtC 5 * xh + cbrtC 4)
  let x2 := fl ρ 53 (cbrtC 3 * xh + cbrtC 2)
  let x0 := fl ρ 53 (cbrtC 1 * xh + cbrtC 0)
  let x2b := fl ρ 53 (x4 * xx + x2)
  let x0b := fl ρ 53 (x2b * xx + x0)
  let h0 := fl ρ 53 (fl ρ 53 (fl ρ 53 (x0b * x0b) * x0b - xh) * r)
  let m3 : ℚ := Rat.divInt (-0x15555555555555) (np2 54)
  let x1 := fl ρ 53 (fl ρ 53 (x0b * h0) * m3 + x0b)
  let th := (a_mul_double ρ x1 x1).1
  let tl := (a_mul_double ρ x1 x1).2
  let h1a := fl ρ 53 (th * x1 - xh)
  let h1l := fl ρ 53 (tl * x1 - xl)
  let h1 := fl ρ 53 (fl ρ 53 (h1a + h1l) * r)
  let corr := fl ρ 53 (fl ρ 53 (x1 * h1) * m3)
  let x1b := (d_mul_double ρ x1 corr (cbrtSh i) (cbrtSl i)).1
  let corrb := (d_mul_double ρ x1 corr (cbrtSh i) (cbrtSl i)).2
  let sgn : ℚ := if s ≠ 0 then -1 else 1
  (fl ρ 53 (x1b * sgn), fl ρ 53 (corrb * sgn), exp, cbrtErr i)

/-- `cr_cbrtl` (lines 258-282): NaN/Inf/zero pass-through, then the fast
path with Ziv's rounding test; on success the exponent of `left` is
adjusted in the pattern; on failure the function returns `0`. -/
def cr_cbrtl (ρ : RMode) (x : B80) : B80 :=
  let e := x.e &&& 0x7fff
  if e = 32767 ∨ ldIsZero x then x
  else
    let h := (cbrt_fast_path ρ x).1
    let l := (cbrt_fast_path ρ x).2.1
    let ex := (cbrt_fast_path ρ x).2.2.1
    let err := (cbrt_fast_path ρ x).2.2.2
    let left := fl ρ 64 (h + fl ρ 64 (l - err))
    let right := fl ρ 64 (h + fl ρ 64 (l + err))
    if left = right then
      let v := encode80 ρ left
      ⟨v.m, (((v.e : ℤ) + ex).emod (np2 16)).toNat⟩
    else ⟨0, 0⟩

/-- Ziv's test of `cr_cbrtl` in isolation: true when the two rounded
interval ends differ, i.e. when the code reaches `return 0` (line 281). -/
def cbrtZivFails (ρ : RMode) (x : B80) : Bool :=
  let h := (cbrt_fast_path ρ x).1
  let l := (cbrt_fast_path ρ x).2.1
  let err := (cbrt_fast_path ρ x).2.2.2
  decide (fl ρ 64 (h + fl ρ 64 (l - err)) ≠ fl ρ 64 (h + fl ρ 64 (l + err)))

/-! ## Embedding of the special-value dispatch of `cr_exp2l`
(src/binary80/exp2/exp2l.c, lines 752-786)

Only the pre-dispatch of `cr_exp2l` is embedded (NaN/Inf, overflow,
deep-underflow and tiny-argument returns); `none` marks that the function
would continue into its numeric path (`fast_path`/`accurate_path`). -/

/-- The threshold `0x1.71547652b82fe176p-64` of lines 782. -/
def exp2TinyHi : ℚ := Rat.divInt 0x171547652b82fe176 (np2 128)

/-- The threshold `-0x1.71547652b82fe176p-65` of line 784. -/
def exp2TinyLo : ℚ := Rat.divInt (-0x171547652b82fe176) (np2 129)

/-- Value of a finite long double pattern (0 for NaN/Inf patterns; used
below only where the pattern is known finite). -/
def b80finVal (x : B80) : ℚ :=
  match b80val x with
  | .fin a => a
  | _ => 0

/-- Lines 755-786 of `cr_exp2l`: the returns taken before the numeric
path. -/
def cr_exp2l_head (ρ : RMode) (x : B80) : Option B80 :=
  let e := x.e &&& 0x7fff
  let step1 : Option B80 :=
    if 16397 ≤ e then
      (if e = 0x7fff then
        (if x.e = 0xffff ∧ x.m = np2 63 then some ⟨0, 0⟩ else some x)
       else if ldGE x 16384 then some (ldAdd ρ p16383LD p16383LD)
       else if ldLE x (-16446) then some (ldMul ρ ⟨1, 0⟩ (encode80 ρ (1/2)))
       else none)
    else none
  match step1 with
  | some r => some r
  | none =>
    if e ≤ 16319 then
      (if ldGE x 0 && ldLE x exp2TinyHi then
        some (encode80 ρ (b80finVal x * b80finVal x + 1))
       else if ldGE x exp2TinyLo && ldLT x 0 then
        some (encode80 ρ (1 - b80finVal x * b80finVal x))
       else none)
    else none

/-! ## Embedding of the harness predicates and loops -/

/-- `is_nan` of the binary32 exhaustive checker
(src/binary32/support/check_exhaustive.c, lines 76-82), on the 32-bit
pattern (`asuint`/`asfloat` are the identity on patterns). -/
def is_nan32 (u : ℕ) : Bool :=
  let e := u >>> 23
  (decide (e = 0xff) || decide (e = 0x1ff)) && decide ((u <<< 9) % np2 32 ≠ 0)

/-- `is_equal` of the binary32 exhaustive checker (lines 93-101). -/
def is_equal32 (y1 y2 : ℕ) : Bool :=
  if is_nan32 y1 then is_nan32 y2
  else if is_nan32 y2 then is_nan32 y1
  else decide (y1 = y2)

/-- `is_nan` of the binary80 special checkers
(src/binary80/hypot/check_special.c lines 80-85, log2/check_special.c
lines 79-84). -/
def chk_is_nan80 (v : B80) : Bool :=
  (decide (v.e = 0x7fff) || decide (v.e = 0xffff)) && decide (v.m ≠ np2 63)

/-- `is_equal` of the hypotl special checker
(src/binary80/hypot/check_special.c, lines 87-96): NaN class, then
bit-pattern equality of both fields. -/
def is_equal80 (x y : B80) : Bool :=
  if chk_is_nan80 x then chk_is_nan80 y
  else if chk_is_nan80 y then chk_is_nan80 x
  else decide (x.e = y.e) && decide (x.m = y.m)

/-- The C `==` on two long double values at the pattern level: false when
either side is a NaN, sign-blind on zeros, value comparison otherwise. -/
def ldeq (x y : B80) : Bool :=
  match b80val x, b80val y with
  | .nan _, _ => false
  | _, .nan _ => false
  | .inf s, .inf t => decide (s = t)
  | .inf _, .fin _ => false
  | .fin _, .inf _ => false
  | .fin a, .fin b => decide (a = b)

/-- `is_equal` of the log2l special checker
(src/binary80/log2/check_special.c, lines 86-94): NaN class, then the
numeric `x == y`. -/
def is_equal_log2 (x y : B80) : Bool :=
  if chk_is_nan80 x then chk_is_nan80 y
  else if chk_is_nan80 y then chk_is_nan80 x
  else ldeq x y

/-- Sticky-flag state of the MPFR oracle after the reference call
(`mpfr_flags_test` of check_exhaustive.c). -/
structure OFlags where
  inexact : Bool
  underflow : Bool
  overflow : Bool
deriving DecidableEq, Repr

/-- Sticky-flag state of the hardware environment after the call under
test (`fetestexcept`). -/
structure KFlags where
  inexact : Bool
  underflow : Bool
  overflow : Bool
deriving DecidableEq, Repr

/-- Environment facts `doit` consults: whether the processor raises
underflow before rounding (line 103), whether `|y| == 0x1p-126`
(line 130), the MPFR version test of line 149, and the outcome of the
oracle's unbounded-exponent recomputation (line 150, an external oracle
call). -/
structure DoitEnv where
  underflowBefore : Bool
  absYisMinNorm : Bool
  mpfrOld : Bool
  recompBoundary : Bool
deriving DecidableEq, Repr

/-- `fix_underflow` (check_exhaustive.c, lines 127-154): flag adjustment
around the exact-subnormal-boundary case. -/
def fix_underflow (env : DoitEnv) (mf : OFlags) (kf : KFlags) : OFlags × KFlags :=
  if ! env.absYisMinNorm then (mf, kf)
  else if env.underflowBefore then
    (mf, if ! mf.underflow then { kf with underflow := false } else kf)
  else if env.mpfrOld && env.recompBoundary then ({ mf with underflow := false }, kf)
  else (mf, kf)

/-- The underflow/overflow mismatch reports of one `doit` call
(check_exhaustive.c, lines 186-220): first the clear of the oracle's
underflow flag when the oracle result is exact (lines 189-190), then
`fix_underflow`, then the four spurious/missing comparisons. -/
structure DoitReport where
  oracleUnderflowAtCompare : Bool
  spuriousUnderflow : Bool
  missingUnderflow : Bool
  spuriousOverflow : Bool
  missingOverflow : Bool
deriving DecidableEq, Repr

/-- Flag pipeline of `doit` (lines 186-220). -/
def doitFlagChecks (env : DoitEnv) (mf0 : OFlags) (kf0 : KFlags) : DoitReport :=
  let mf1 := if mf0.underflow && ! mf0.inexact then { mf0 with underflow := false } else mf0
  let mf2 := (fix_underflow env mf1 kf0).1
  let kf2 := (fix_underflow env mf1 kf0).2
  { oracleUnderflowAtCompare := mf2.underflow
    spuriousUnderflow := kf2.underflow && ! mf2.underflow
    missingUnderflow := ! kf2.underflow && mf2.underflow
    spuriousOverflow := kf2.overflow && ! mf2.overflow
    missingOverflow := ! kf2.overflow && mf2.overflow }

/-- Binary32 bit pattern of a representable value (zero or normal range),
the inverse of the `asfloat` reinterpretation used for the loop bounds of
`doloop` (check_exhaustive.c, line 388). -/
def encode32 (q : ℚ) : ℕ :=
  if q = 0 then 0
  else
    let s : ℕ := if q < 0 then np2 31 else 0
    let a := |q|
    let e := qexp a
    s + ((e + 127).toNat <<< 23) + ((qfl (a * qp2 (23 - e))).toNat % np2 23)

/-- `nmin = asuint(0x0p0f)` (line 388). -/
def nmin32 : ℕ := encode32 0

/-- `nmax = asuint(0x1.fffffep+127f)` (line 388). -/
def nmax32 : ℕ := encode32 (((np2 24 - 1 : ℕ) : ℚ) * qp2 104)

/-- The arguments the exhaustive sweep loop of `doloop`
(check_exhaustive.c, lines 394-398) passes to `doit`: for each
`n` from `nmin` to `nmax`, first `n`, then `n | 0x80000000`. -/
def sweepArgs : List ℕ :=
  (List.range' nmin32 (nmax32 + 1 - nmin32)).flatMap fun n => [n, n ||| 0x80000000]

/-- The six special patterns `doloop` checks before the sweep
(lines 373-379). -/
def doloopSpecial : List ℕ :=
  [0x7f800001, 0xff800001, 0x7fc00000, 0xffc00000, 0x7f800000, 0xff800000]

/-- A well-formed 80-bit pattern: the two union fields fit their widths. -/
def ValidB80 (x : B80) : Prop := x.m < np2 64 ∧ x.e < np2 16

instance (x : B80) : Decidable (ValidB80 x) := by
  unfold ValidB80; infer_instance

/-- Executable check of the Veltkamp conclusions at one operand, used to
settle the finitely many boundary mantissas of the splitting lemma by
evaluation: the two parts sum back to the operand, the high part is a
multiple of `2^32` bounded by `2^64`, the low part an integer bounded by
`2^32 - 1`. -/
def vOK (ρ : RMode) (x : ℚ) : Bool :=
  decide ((split ρ x).1 + (split ρ x).2 = x) &&
  decide (((split ρ x).1 * qp2 (-32)).den = 1) &&
  decide (|(split ρ x).1| ≤ qp2 64) &&
  decide ((split ρ x).2.den = 1) &&
  decide (|(split ρ x).2| ≤ qp2 32 - 1)

/-- The boundary mantissas of the splitting lemma (the values in
`[2^63, 2^64)` for which `x - gamma` can leave the binade `[2^95, 2^96)`,
together with the top two, where rounding `C*x` up can reach `2^96`). -/
def vEdges : List ℚ :=
  [((np2 63 : ℕ) : ℚ), -((np2 63 : ℕ) : ℚ),
   ((np2 63 + 1 : ℕ) : ℚ), -((np2 63 + 1 : ℕ) : ℚ),
   ((np2 64 - 2 : ℕ) : ℚ), -((np2 64 - 2 : ℕ) : ℚ),
   ((np2 64 - 1 : ℕ) : ℚ), -((np2 64 - 1 : ℕ) : ℚ)]

/-! # Theorems

First the toolkit about the numeric layer (`lg`, `qp2`, `qfl`, `rint`,
`qexp`, `fl`), then the claims. -/

theorem np2_eq (k : ℕ) : np2 k = 2^k := by
  simp [np2, Nat.shiftLeft_eq]

theorem np2_pos (k : ℕ) : 0 < np2 k := by
  rw [np2_eq]; exact Nat.pos_pow_of_pos _ (by norm_num)

theorem lgGo_spec (n : ℕ) : ∀ (f lo hi : ℕ), lo < hi → hi - lo ≤ 2^f →
    2^lo ≤ n → n < 2^hi →
    2^(lgGo n f lo hi) ≤ n ∧ n < 2^(lgGo n f lo hi + 1) := by
  intro f
  induction f with
  | zero =>
    intro lo hi hlt hgap h1 h2
    have he : hi = lo + 1 := by omega
    subst he
    exact ⟨h1, h2⟩
  | succ f ih =>
    intro lo hi hlt hgap h1 h2
    rw [lgGo]
    by_cases hsmall : hi ≤ lo + 1
    · have he : hi = lo + 1 := Nat.le_antisymm hsmall hlt
      subst he
      simpa [if_pos hsmall] using ⟨h1, h2⟩
    · simp only [if_neg hsmall]
      have hgap' : hi - lo ≤ 2 * 2^f := by
        have := Nat.pow_succ 2 f
        omega
      have hmid1 : lo < (lo + hi) / 2 := by omega
      have hmid2 : (lo + hi) / 2 < hi := by omega
      by_cases hc : n >>> ((lo + hi) / 2) ≠ 0
      · have hge : 2^((lo + hi) / 2) ≤ n := by
          rw [Nat.shiftRight_eq_div_pow] at hc
          rcases Nat.lt_or_ge n (2^((lo + hi) / 2)) with h | h
          · exact absurd (Nat.div_eq_of_lt h) hc
          · exact h
        simp only [if_pos hc]
        exact ih ((lo + hi) / 2) hi hmid2 (by omega) hge h2
      · have hltn : n < 2^((lo + hi) / 2) := by
          rw [Nat.shiftRight_eq_div_pow] at hc
          push_neg at hc
          by_contra h
          push_neg at h
          have := Nat.one_le_div_iff (Nat.pos_pow_of_pos ((lo + hi) / 2) (by norm_num)) |>.mpr h
          omega
        simp only [if_neg hc]
        exact ih lo ((lo + hi) / 2) hmid1 (by omega) h1 hltn

theorem lg_spec {n : ℕ} (h1 : 1 ≤ n) (h2 : n < 2^131072) :
    2^(lg n) ≤ n ∧ n < 2^(lg n + 1) := by
  have h := lgGo_spec n 17 0 131072 (by norm_num) (by norm_num) (by simpa using h1) h2
  exact h

theorem qp2_eq (k : ℤ) : qp2 k = (2:ℚ)^k := by
  unfold qp2
  by_cases h : 0 ≤ k
  · rw [if_pos h, np2_eq]
    push_cast
    rw [← zpow_natCast (2:ℚ), Int.toNat_of_nonneg h]
  · rw [if_neg h, np2_eq, Rat.divInt_eq_div]
    push_cast
    rw [← zpow_natCast (2:ℚ), Int.toNat_of_nonneg (by omega), one_div, ← zpow_neg]
    norm_num

theorem two_zpow_pos (g : ℤ) : (0:ℚ) < 2^g := zpow_pos (by norm_num) g

theorem qp2_pos (g : ℤ) : (0:ℚ) < qp2 g := by rw [qp2_eq]; exact two_zpow_pos g

theorem qfl_eq_floor (q : ℚ) : qfl q = ⌊q⌋ := by
  have hden : (0:ℤ) < (q.den : ℤ) := by exact_mod_cast q.den_pos
  have hmod1 : 0 ≤ q.num.emod q.den := Int.emod_nonneg _ (by omega)
  have hmod2 : q.num.emod q.den < q.den := Int.emod_lt_of_pos _ hden
  have hdiv : (q.den : ℤ) * q.num.ediv q.den + q.num.emod q.den = q.num :=
    Int.ediv_add_emod _ _
  have hexp : (q.num.ediv q.den + 1) * (q.den : ℤ) = (q.den : ℤ) * q.num.ediv q.den + q.den := by
    ring
  have hcomm : q.num.ediv q.den * (q.den : ℤ) = (q.den : ℤ) * q.num.ediv q.den := by
    ring
  have hdenQ : (0:ℚ) < (q.den : ℚ) := by exact_mod_cast q.den_pos
  symm
  rw [Int.floor_eq_iff]
  constructor
  · show ((q.num.ediv q.den : ℤ) : ℚ) ≤ q
    conv_rhs => rw [← q.num_div_den]
    rw [le_div_iff₀ hdenQ]
    exact_mod_cast (by omega : q.num.ediv q.den * (q.den : ℤ) ≤ q.num)
  · show q < ((q.num.ediv q.den : ℤ) : ℚ) + 1
    conv_lhs => rw [← q.num_div_den]
    rw [div_lt_iff₀ hdenQ]
    exact_mod_cast (by omega : (q.num : ℤ) < (q.num.ediv q.den + 1) * q.den)

theorem rint_intCast (ρ : RMode) (n : ℤ) : rint ρ ((n : ℚ)) = n := by
  have h1 : qfl ((n : ℚ)) = n := by rw [qfl_eq_floor, Int.floor_intCast]
  have h2 : qfl ((-n : ℤ) : ℚ) = -n := by rw [qfl_eq_floor, Int.floor_intCast]
  cases ρ with
  | RD => exact h1
  | RU => show -qfl (-(n:ℚ)) = n; rw [show -(n:ℚ) = ((-n : ℤ) : ℚ) by push_cast; ring, h2]; ring
  | RZ =>
    by_cases h : (0:ℚ) ≤ (n:ℚ)
    · simp only [rint, if_pos h]; exact h1
    · simp only [rint, if_neg h]
      rw [show -(n:ℚ) = ((-n : ℤ) : ℚ) by push_cast; ring, h2]; ring
  | RN =>
    simp only [rint, h1, sub_self, mul_zero]
    norm_num

theorem rint_err (ρ : RMode) (q : ℚ) : |(rint ρ q : ℚ) - q| < 1 := by
  have hfl : (qfl q : ℚ) ≤ q ∧ q < qfl q + 1 := by
    rw [qfl_eq_floor]; exact ⟨Int.floor_le q, Int.lt_floor_add_one q⟩
  have hfln : (qfl (-q) : ℚ) ≤ -q ∧ -q < qfl (-q) + 1 := by
    rw [qfl_eq_floor]; exact ⟨Int.floor_le (-q), Int.lt_floor_add_one (-q)⟩
  have habs1 : |(qfl q : ℚ) - q| < 1 := by rw [abs_sub_lt_iff]; constructor <;> linarith [hfl.1, hfl.2]
  have habs2 : |(-(qfl (-q) : ℤ) : ℚ) - q| < 1 := by
    rw [abs_sub_lt_iff]; push_cast; constructor <;> linarith [hfln.1, hfln.2]
  cases ρ with
  | RD => exact habs1
  | RU => exact_mod_cast habs2
  | RZ =>
    by_cases h : (0:ℚ) ≤ q
    · simp only [rint, if_pos h]; exact habs1
    · simp only [rint, if_neg h]; exact_mod_cast habs2
  | RN =>
    simp only [rint]
    by_cases h1 : 2 * (q - (qfl q : ℚ)) < 1
    · simp only [if_pos h1]; exact habs1
    · simp only [if_neg h1]
      have hgoal : |((qfl q + 1 : ℤ) : ℚ) - q| < 1 := by
        rw [abs_sub_lt_iff]; push_cast; constructor <;> linarith [hfl.1, hfl.2, not_lt.mp h1]
      by_cases h2 : 1 < 2 * (q - (qfl q : ℚ))
      · simp only [if_pos h2]; exact_mod_cast hgoal
      · simp only [if_neg h2]
        by_cases h3 : qfl q % 2 = 0
        · simp only [if_pos h3]; exact habs1
        · simp only [if_neg h3]; exact_mod_cast hgoal

theorem abs_eq_natAbs_div (q : ℚ) : |q| = (q.num.natAbs : ℚ) / (q.den : ℚ) := by
  have hdQ : (0:ℚ) < (q.den : ℚ) := by exact_mod_cast q.den_pos
  conv_lhs => rw [← q.num_div_den]
  rw [abs_div, abs_of_pos hdQ, Int.cast_natAbs, Int.cast_abs]

/-- Size bound on the reduced fraction under which `lg`, hence `qexp`, is
exact. -/
def Good (q : ℚ) : Prop := q.num.natAbs < 2^131071 ∧ q.den < 2^131071

theorem qexp_spec {q : ℚ} (hq : q ≠ 0) (hG : Good q) :
    (2:ℚ)^(qexp q) ≤ |q| ∧ |q| < 2^(qexp q + 1) := by
  obtain ⟨hn, hd⟩ := hG
  have hd1 : 1 ≤ q.den := q.den_pos
  have hn1 : 1 ≤ q.num.natAbs := by
    have := Rat.num_ne_zero.mpr hq
    omega
  have hdQ : (0:ℚ) < (q.den : ℚ) := by exact_mod_cast q.den_pos
  have hnQ : (0:ℚ) < (q.num.natAbs : ℚ) := by exact_mod_cast hn1
  have habs : |q| = (q.num.natAbs : ℚ) / (q.den : ℚ) := abs_eq_natAbs_div q
  have hpowlt : (2:ℕ)^131071 < 2^131072 := Nat.pow_lt_pow_right (by norm_num) (by norm_num)
  unfold qexp
  rw [if_neg hq]
  by_cases hcase : q.den ≤ q.num.natAbs
  · simp only [if_pos hcase]
    obtain ⟨hL1, hL2⟩ := lg_spec (n := q.num.natAbs / q.den)
      ((Nat.one_le_div_iff (by omega)).mpr hcase)
      (lt_of_le_of_lt (Nat.div_le_self _ _) (by omega))
    constructor
    · rw [habs, zpow_natCast, le_div_iff₀ hdQ]
      calc (2:ℚ)^(lg (q.num.natAbs / q.den)) * (q.den : ℚ)
          ≤ ((q.num.natAbs / q.den : ℕ) : ℚ) * (q.den : ℚ) := by
            have h := Nat.cast_div_le (α := ℚ) (m := q.num.natAbs) (n := q.den)
            have h2 : ((2:ℚ))^(lg (q.num.natAbs / q.den)) ≤ ((q.num.natAbs / q.den : ℕ) : ℚ) := by
              exact_mod_cast hL1
            exact mul_le_mul_of_nonneg_right h2 (le_of_lt hdQ)
        _ ≤ (q.num.natAbs : ℚ) := by
            have := Nat.div_mul_le_self q.num.natAbs q.den
            exact_mod_cast this
    · rw [habs]
      rw [div_lt_iff₀ hdQ]
      have hnat : q.num.natAbs < 2^(lg (q.num.natAbs / q.den) + 1) * q.den :=
        (Nat.div_lt_iff_lt_mul (by omega)).mp hL2
      rw [show (lg (q.num.natAbs / q.den) : ℤ) + 1 = ((lg (q.num.natAbs / q.den) + 1 : ℕ) : ℤ) by push_cast; ring]
      rw [zpow_natCast]
      exact_mod_cast hnat
  · simp only [if_neg hcase]
    push_neg at hcase
    obtain ⟨hf1, hf2⟩ := lg_spec (n := q.den / q.num.natAbs)
      ((Nat.one_le_div_iff (by omega)).mpr (le_of_lt hcase))
      (lt_of_le_of_lt (Nat.div_le_self _ _) (by omega))
    have hlow : (2:ℚ)^(-(lg (q.den / q.num.natAbs) : ℤ) - 1) < |q| := by
      have hnat : q.den < 2^(lg (q.den / q.num.natAbs) + 1) * q.num.natAbs :=
        (Nat.div_lt_iff_lt_mul (by omega)).mp hf2
      rw [habs]
      rw [lt_div_iff₀ hdQ]
      rw [show -(lg (q.den / q.num.natAbs) : ℤ) - 1 = -((lg (q.den / q.num.natAbs) : ℤ) + 1) by ring]
      rw [zpow_neg]
      rw [inv_mul_lt_iff₀ (two_zpow_pos _)]
      rw [show (lg (q.den / q.num.natAbs) : ℤ) + 1 = ((lg (q.den / q.num.natAbs) + 1 : ℕ) : ℤ) by push_cast; ring]
      rw [zpow_natCast]
      exact_mod_cast hnat
    have hhigh : |q| ≤ (2:ℚ)^(-(lg (q.den / q.num.natAbs) : ℤ)) := by
      have hnat : 2^(lg (q.den / q.num.natAbs)) * q.num.natAbs ≤ q.den :=
        (Nat.le_div_iff_mul_le (by omega)).mp hf1
      rw [habs, div_le_iff₀ hdQ, zpow_neg, zpow_natCast]
      rw [le_inv_mul_iff₀ (by positivity)]
      exact_mod_cast hnat
    have hdiv : Rat.divInt (q.num.natAbs : ℤ) (q.den : ℤ) = |q| := by
      rw [Rat.divInt_eq_div, habs]
      norm_num
      rw [Int.cast_natAbs, Int.cast_abs]
    by_cases heq : Rat.divInt (q.num.natAbs : ℤ) (q.den : ℤ) = qp2 (-(lg (q.den / q.num.natAbs) : ℤ))
    · simp only [if_pos heq]
      rw [hdiv, qp2_eq] at heq
      constructor
      · exact le_of_eq heq.symm
      · rw [heq]
        exact zpow_lt_zpow_right₀ (by norm_num) (by omega)
    · simp only [if_neg heq]
      rw [hdiv, qp2_eq] at heq
      constructor
      · exact le_of_lt hlow
      · rw [show -(lg (q.den / q.num.natAbs) : ℤ) - 1 + 1 = -(lg (q.den / q.num.natAbs) : ℤ) by ring]
        exact lt_of_le_of_ne hhigh heq

theorem le_qexp {q : ℚ} {a : ℤ} (hq : q ≠ 0) (hG : Good q) (h : (2:ℚ)^a ≤ |q|) :
    a ≤ qexp q := by
  have h2 := (qexp_spec hq hG).2
  have : (2:ℚ)^a < 2^(qexp q + 1) := lt_of_le_of_lt h h2
  have := (zpow_lt_zpow_iff_right₀ (by norm_num : (1:ℚ) < 2)).mp this
  omega

theorem qexp_lt {q : ℚ} {b : ℤ} (hq : q ≠ 0) (hG : Good q) (h : |q| < (2:ℚ)^b) :
    qexp q < b := by
  have h1 := (qexp_spec hq hG).1
  have : (2:ℚ)^(qexp q) < 2^b := lt_of_le_of_lt h1 h
  exact (zpow_lt_zpow_iff_right₀ (by norm_num : (1:ℚ) < 2)).mp this

theorem qexp_unique {q : ℚ} {e : ℤ} (hq : q ≠ 0) (hG : Good q)
    (h1 : (2:ℚ)^e ≤ |q|) (h2 : |q| < 2^(e+1)) : qexp q = e := by
  have ha := le_qexp hq hG h1
  have hb := qexp_lt hq hG h2
  omega

theorem gr_zero (g : ℤ) : Gr g 0 := ⟨0, by norm_num⟩

theorem gr_intCast (k : ℤ) : Gr 0 ((k : ℚ)) := ⟨k, by norm_num⟩

theorem gr_mono {g' g : ℤ} {q : ℚ} (h : g' ≤ g) : Gr g q → Gr g' q := by
  rintro ⟨k, rfl⟩
  refine ⟨k * 2^(g - g').toNat, ?_⟩
  push_cast
  rw [mul_assoc, ← zpow_natCast (2:ℚ) (g - g').toNat, ← zpow_add₀ two_ne_zero]
  rw [show ((g - g').toNat : ℤ) + g' = g by omega]

theorem gr_add {g : ℤ} {a b : ℚ} : Gr g a → Gr g b → Gr g (a + b) := by
  rintro ⟨j, rfl⟩ ⟨k, rfl⟩
  exact ⟨j + k, by push_cast; ring⟩

theorem gr_neg {g : ℤ} {a : ℚ} : Gr g a → Gr g (-a) := by
  rintro ⟨j, rfl⟩
  exact ⟨-j, by push_cast; ring⟩

theorem gr_sub {g : ℤ} {a b : ℚ} (ha : Gr g a) (hb : Gr g b) : Gr g (a - b) := by
  rw [sub_eq_add_neg]
  exact gr_add ha (gr_neg hb)

theorem gr_mul {g h : ℤ} {a b : ℚ} : Gr g a → Gr h b → Gr (g + h) (a * b) := by
  rintro ⟨j, rfl⟩ ⟨k, rfl⟩
  exact ⟨j * k, by push_cast; rw [zpow_add₀ two_ne_zero]; ring⟩

theorem gr_abs {g : ℤ} {q : ℚ} (h : Gr g q) : ∃ k : ℤ, q = (k:ℚ) * 2^g ∧ |q| = (k.natAbs : ℚ) * 2^g := by
  obtain ⟨k, rfl⟩ := h
  refine ⟨k, rfl, ?_⟩
  rw [abs_mul, abs_of_pos (two_zpow_pos g), Int.cast_natAbs, Int.cast_abs]

theorem pow_cast_zpow (c : ℕ) : ((2^c : ℕ) : ℚ) = (2:ℚ)^((c : ℕ) : ℤ) := by
  rw [zpow_natCast]
  push_cast
  rfl

theorem rep_of_gr {p : ℕ} {g : ℤ} {q : ℚ} (hp : 1 ≤ p) (h : Gr g q)
    (hb : |q| ≤ 2^(g + (p:ℤ))) : Rep p q := by
  obtain ⟨k, rfl, habs⟩ := gr_abs h
  rw [habs, zpow_add₀ two_ne_zero, mul_comm ((2:ℚ)^g)] at hb
  have hk : (k.natAbs : ℚ) ≤ (2:ℚ)^((p:ℕ) : ℤ) :=
    le_of_mul_le_mul_right hb (two_zpow_pos g)
  have hkn : k.natAbs ≤ 2^p := by
    rw [← pow_cast_zpow] at hk
    exact_mod_cast hk
  rcases lt_or_eq_of_le hkn with hlt | heq
  · exact ⟨k, g, rfl, hlt⟩
  · refine ⟨if 0 ≤ k then 1 else -1, g + p, ?_, ?_⟩
    · have hkk : (k : ℚ) = (if 0 ≤ k then (1:ℚ) else -1) * 2^((p:ℕ) : ℤ) := by
        rcases le_or_lt 0 k with hk0 | hk0
        · rw [if_pos hk0, one_mul, ← pow_cast_zpow]
          have : k = (2^p : ℕ) := by omega
          rw [this]; push_cast; rfl
        · rw [if_neg (not_le.mpr hk0), neg_one_mul, ← pow_cast_zpow]
          have : k = -(2^p : ℕ) := by omega
          rw [this]; push_cast; rfl
      rw [hkk, mul_assoc, ← zpow_add₀ two_ne_zero]
      rw [show ((p:ℕ) : ℤ) + g = g + p by ring]
      split <;> push_cast <;> ring
    · have h2p : 1 < 2^p := by
        calc 1 < 2^1 := by norm_num
        _ ≤ 2^p := Nat.pow_le_pow_right (by norm_num) hp
      split <;> simp <;> omega

theorem gr_tight {g : ℤ} {c : ℕ} {q : ℚ} (h : Gr g q)
    (hb : |q| < 2^(g + (c:ℤ))) : |q| ≤ 2^(g + (c:ℤ)) - 2^g := by
  obtain ⟨k, rfl, habs⟩ := gr_abs h
  rw [habs, zpow_add₀ two_ne_zero, mul_comm ((2:ℚ)^g)] at hb
  have hk : (k.natAbs : ℚ) < (2:ℚ)^((c:ℕ) : ℤ) :=
    lt_of_mul_lt_mul_right hb (le_of_lt (two_zpow_pos g))
  have hkn : k.natAbs < 2^c := by
    rw [← pow_cast_zpow] at hk
    exact_mod_cast hk
  have hkn' : k.natAbs ≤ 2^c - 1 := by omega
  have hle : (k.natAbs : ℚ) ≤ ((2^c - 1 : ℕ) : ℚ) := by exact_mod_cast hkn'
  rw [habs, zpow_add₀ two_ne_zero]
  have hc1 : (1:ℕ) ≤ 2^c := Nat.one_le_two_pow
  calc (k.natAbs : ℚ) * 2^g ≤ ((2^c - 1 : ℕ) : ℚ) * 2^g :=
        mul_le_mul_of_nonneg_right hle (le_of_lt (two_zpow_pos g))
    _ = 2^g * 2^((c:ℕ) : ℤ) - 2^g := by
        rw [Nat.cast_sub hc1, ← pow_cast_zpow]
        push_cast
        ring

theorem good_of_dyadic {q : ℚ} {k g : ℤ} (hq : q = (k:ℚ) * 2^g)
    (hk : k.natAbs ≤ 2^600) (hg1 : -70000 ≤ g) (hg2 : g ≤ 70000) : Good q := by
  rcases le_or_lt 0 g with hg0 | hg0
  · have hqint : q = ((k * 2^g.toNat : ℤ) : ℚ) := by
      rw [hq]
      push_cast
      congr 1
      rw [← zpow_natCast (2:ℚ) g.toNat, Int.toNat_of_nonneg hg0]
    constructor
    · rw [hqint, Rat.num_intCast]
      have h1 : (k * 2^g.toNat).natAbs = k.natAbs * 2^g.toNat := by
        rw [Int.natAbs_mul]
        congr 1
        rw [Int.natAbs_pow]
        norm_num
      rw [h1]
      have hgt : g.toNat ≤ 70000 := by omega
      calc k.natAbs * 2^g.toNat ≤ 2^600 * 2^70000 :=
            Nat.mul_le_mul hk (Nat.pow_le_pow_right (by norm_num) hgt)
        _ = 2^70600 := by rw [← pow_add]
        _ < 2^131071 := Nat.pow_lt_pow_right (by norm_num) (by norm_num)
    · rw [hqint, Rat.den_intCast]
      exact Nat.one_lt_two_pow (by norm_num)
  · set j : ℕ := (-g).toNat with hj
    have hjg : (j : ℤ) = -g := by omega
    have hj7 : j ≤ 70000 := by omega
    have hqdiv : q = Rat.divInt k ((2^j : ℕ) : ℤ) := by
      rw [Rat.divInt_eq_div, hq]
      push_cast
      rw [div_eq_mul_inv, ← zpow_natCast (2:ℚ) j, ← zpow_neg, hjg, neg_neg]
    have hdenle : q.den ≤ 2^70000 := by
      have hdvd : ((Rat.divInt k ((2^j : ℕ) : ℤ)).den : ℤ) ∣ ((2^j : ℕ) : ℤ) :=
        Rat.den_dvd k _
      rw [← hqdiv] at hdvd
      have : q.den ∣ 2^j := by exact_mod_cast hdvd
      calc q.den ≤ 2^j := Nat.le_of_dvd (Nat.pos_pow_of_pos j (by norm_num)) this
        _ ≤ 2^70000 := Nat.pow_le_pow_right (by norm_num) hj7
    constructor
    · have habs : |q| = (k.natAbs : ℚ) * 2^g := by
        rw [hq, abs_mul, abs_of_pos (two_zpow_pos g), Int.cast_natAbs, Int.cast_abs]
      have hnum : (q.num.natAbs : ℚ) = |q| * (q.den : ℚ) := by
        rw [abs_eq_natAbs_div q, div_mul_cancel₀]
        exact_mod_cast q.den_pos.ne'
      have hqle : |q| ≤ (k.natAbs : ℚ) * 2^g := le_of_eq habs
      have hbound : (q.num.natAbs : ℚ) ≤ ((2^600 * 2^70000 : ℕ) : ℚ) := by
        rw [hnum, habs]
        have hgj : (2:ℚ)^g * (q.den : ℚ) ≤ 2^70000 := by
          have hd2 : (q.den : ℚ) ≤ ((2^j : ℕ) : ℚ) := by
            exact_mod_cast Nat.le_of_dvd (Nat.pos_pow_of_pos j (by norm_num))
              (by
                have hdvd : ((Rat.divInt k ((2^j : ℕ) : ℤ)).den : ℤ) ∣ ((2^j : ℕ) : ℤ) :=
                  Rat.den_dvd k _
                rw [← hqdiv] at hdvd
                exact_mod_cast hdvd)
          calc (2:ℚ)^g * (q.den : ℚ) ≤ (2:ℚ)^g * ((2^j : ℕ) : ℚ) :=
                mul_le_mul_of_nonneg_left hd2 (le_of_lt (two_zpow_pos g))
            _ = 1 := by
                rw [pow_cast_zpow, ← zpow_add₀ two_ne_zero, hjg]
                norm_num
            _ ≤ 2^70000 := by
                calc (1:ℚ) = ((1 : ℕ) : ℚ) := by norm_num
                _ ≤ ((2^70000 : ℕ) : ℚ) := by exact_mod_cast Nat.one_le_two_pow
                _ = (2:ℚ)^(70000:ℕ) := by push_cast; rfl
        calc (k.natAbs : ℚ) * 2^g * (q.den : ℚ)
            ≤ ((2^600 : ℕ) : ℚ) * ((2:ℚ)^g * (q.den : ℚ)) := by
              rw [mul_assoc]
              exact mul_le_mul_of_nonneg_right (by exact_mod_cast hk)
                (mul_nonneg (le_of_lt (two_zpow_pos g)) (by positivity))
          _ ≤ ((2^600 : ℕ) : ℚ) * (2:ℚ)^(70000:ℕ) := by
              exact mul_le_mul_of_nonneg_left hgj (by positivity)
          _ = ((2^600 * 2^70000 : ℕ) : ℚ) := by push_cast; ring
      have : q.num.natAbs ≤ 2^600 * 2^70000 := by exact_mod_cast hbound
      calc q.num.natAbs ≤ 2^600 * 2^70000 := this
        _ = 2^70600 := by rw [← pow_add]
        _ < 2^131071 := Nat.pow_lt_pow_right (by norm_num) (by norm_num)
    · calc q.den ≤ 2^70000 := hdenle
        _ < 2^131071 := Nat.pow_lt_pow_right (by norm_num) (by norm_num)

theorem good_of_gr {q : ℚ} {g : ℤ} (h : Gr g q) (hb : |q| ≤ 2^(g + 500))
    (hg1 : -70000 ≤ g) (hg2 : g ≤ 69500) : Good q := by
  obtain ⟨k, hq, habs⟩ := gr_abs h
  refine good_of_dyadic hq ?_ hg1 (by omega)
  rw [habs, zpow_add₀ two_ne_zero, mul_comm ((2:ℚ)^g)] at hb
  have hk : (k.natAbs : ℚ) ≤ (2:ℚ)^((500:ℕ) : ℤ) := by
    exact le_of_mul_le_mul_right (by exact_mod_cast hb) (two_zpow_pos g)
  have : k.natAbs ≤ 2^500 := by
    rw [← pow_cast_zpow] at hk
    exact_mod_cast hk
  calc k.natAbs ≤ 2^500 := this
    _ ≤ 2^600 := Nat.pow_le_pow_right (by norm_num) (by norm_num)

theorem fl_zero (ρ : RMode) (p : ℕ) : fl ρ p 0 = 0 := by
  unfold fl
  rw [if_pos rfl]

theorem fl_of_ne {ρ : RMode} {p : ℕ} {q : ℚ} (h : q ≠ 0) :
    fl ρ p q = (rint ρ (q * 2^(-(qexp q - (p:ℤ) + 1))) : ℚ) * 2^(qexp q - (p:ℤ) + 1) := by
  simp only [fl, if_neg h, qp2_eq]

theorem fl_gr (ρ : RMode) (p : ℕ) (q : ℚ) :
    Gr (qexp q - (p:ℤ) + 1) (fl ρ p q) := by
  by_cases h : q = 0
  · rw [h, fl_zero]
    exact gr_zero _
  · rw [fl_of_ne h]
    exact ⟨rint ρ (q * 2^(-(qexp q - (p:ℤ) + 1))), rfl⟩

theorem fl_err (ρ : RMode) (p : ℕ) (q : ℚ) :
    |fl ρ p q - q| < 2^(qexp q - (p:ℤ) + 1) := by
  by_cases h : q = 0
  · rw [h, fl_zero]
    norm_num
    exact two_zpow_pos _
  · rw [fl_of_ne h]
    set w : ℚ := q * 2^(-(qexp q - (p:ℤ) + 1)) with hwdef
    have hw : w * 2^(qexp q - (p:ℤ) + 1) = q := by
      rw [hwdef, mul_assoc, ← zpow_add₀ two_ne_zero]
      rw [show -(qexp q - (p:ℤ) + 1) + (qexp q - (p:ℤ) + 1) = 0 by ring]
      norm_num
    have herr := rint_err ρ w
    have hdiff : (rint ρ w : ℚ) * 2^(qexp q - (p:ℤ) + 1) - q
        = ((rint ρ w : ℚ) - w) * 2^(qexp q - (p:ℤ) + 1) := by
      rw [sub_mul, hw]
    rw [hdiff, abs_mul, abs_of_pos (two_zpow_pos _)]
    calc |(rint ρ w : ℚ) - w| * 2^(qexp q - (p:ℤ) + 1)
        < 1 * 2^(qexp q - (p:ℤ) + 1) := mul_lt_mul_of_pos_right herr (two_zpow_pos _)
      _ = 2^(qexp q - (p:ℤ) + 1) := one_mul _

theorem fl_exact {ρ : RMode} {p : ℕ} {q : ℚ} (hq : Rep p q) (hG : Good q) :
    fl ρ p q = q := by
  by_cases h : q = 0
  · rw [h, fl_zero]
  · obtain ⟨m, e, hme, hmb⟩ := hq
    have habs : |q| = (m.natAbs : ℚ) * 2^e := by
      rw [hme, abs_mul, abs_of_pos (two_zpow_pos e), Int.cast_natAbs, Int.cast_abs]
    have hub : |q| < 2^(e + (p:ℤ)) := by
      rw [habs, zpow_add₀ two_ne_zero]
      have hmq : (m.natAbs : ℚ) < (2:ℚ)^((p:ℕ) : ℤ) := by
        rw [← pow_cast_zpow]
        exact_mod_cast hmb
      calc (m.natAbs : ℚ) * 2^e < (2:ℚ)^((p:ℕ) : ℤ) * 2^e :=
            mul_lt_mul_of_pos_right hmq (two_zpow_pos e)
        _ = 2^e * 2^((p:ℕ) : ℤ) := mul_comm _ _
    have hqlt := qexp_lt h hG hub
    set G : ℤ := qexp q - (p:ℤ) + 1 with hGdef
    have hge : 0 ≤ e - G := by omega
    have harg : q * (2:ℚ)^(-G) = ((m * 2^(e - G).toNat : ℤ) : ℚ) := by
      push_cast
      rw [← zpow_natCast (2:ℚ) (e - G).toNat, Int.toNat_of_nonneg hge]
      conv_lhs => rw [hme]
      rw [mul_assoc, ← zpow_add₀ two_ne_zero, sub_eq_add_neg]
    rw [fl_of_ne h, ← hGdef, harg, rint_intCast, ← harg]
    rw [mul_assoc, ← zpow_add₀ two_ne_zero]
    norm_num

theorem fl_rep {ρ : RMode} {p : ℕ} {q : ℚ} (hp : 1 ≤ p) (hG : Good q) :
    Rep p (fl ρ p q) := by
  by_cases h : q = 0
  · rw [h, fl_zero]
    exact ⟨0, 0, by norm_num, Nat.pos_pow_of_pos p (by norm_num)⟩
  · have hub := (qexp_spec h hG).2
    set G : ℤ := qexp q - (p:ℤ) + 1 with hGdef
    set w : ℚ := q * 2^(-G) with hwdef
    have hwlt : |w| < (2:ℚ)^((p:ℕ) : ℤ) := by
      rw [hwdef, abs_mul, abs_of_pos (two_zpow_pos (-G))]
      calc |q| * 2^(-G) < 2^(qexp q + 1) * 2^(-G) :=
            mul_lt_mul_of_pos_right hub (two_zpow_pos _)
        _ = (2:ℚ)^((p:ℕ) : ℤ) := by
            rw [← zpow_add₀ two_ne_zero]
            congr 1
            rw [hGdef]
            ring
    have herr := rint_err ρ w
    set k := rint ρ w with hk
    have hkabs : |(k:ℚ)| < (2:ℚ)^((p:ℕ) : ℤ) + 1 := by
      calc |(k:ℚ)| = |(k:ℚ) - w + w| := by
            congr 1
            ring
        _ ≤ |(k:ℚ) - w| + |w| := abs_add _ _
        _ < 1 + (2:ℚ)^((p:ℕ) : ℤ) := add_lt_add herr hwlt
        _ = (2:ℚ)^((p:ℕ) : ℤ) + 1 := by ring
    have hkn : k.natAbs ≤ 2^p := by
      rw [← Int.cast_abs, ← Int.cast_natAbs, ← pow_cast_zpow] at hkabs
      have : k.natAbs < 2^p + 1 := by exact_mod_cast hkabs
      omega
    have hflval : fl ρ p q = (k:ℚ) * 2^G := by
      rw [fl_of_ne h, ← hGdef, ← hwdef, ← hk]
    rcases lt_or_eq_of_le hkn with hlt | heq
    · exact ⟨k, G, hflval, hlt⟩
    · have hflgr : Gr G (fl ρ p q) := by
        rw [hGdef]
        exact fl_gr ρ p q
      apply rep_of_gr hp hflgr
      rw [hflval, abs_mul, abs_of_pos (two_zpow_pos _)]
      have hke : |(k:ℚ)| = (2:ℚ)^((p:ℕ) : ℤ) := by
        rw [← Int.cast_abs, ← Int.cast_natAbs, heq, pow_cast_zpow]
      rw [hke, ← zpow_add₀ two_ne_zero]
      apply le_of_eq
      congr 1
      ring

theorem qexp_scale {q : ℚ} {t : ℤ} (hq : q ≠ 0) (hGq : Good q)
    (hGs : Good ((2:ℚ)^t * q)) : qexp ((2:ℚ)^t * q) = t + qexp q := by
  apply qexp_unique (mul_ne_zero (zpow_ne_zero _ two_ne_zero) hq) hGs
  · rw [abs_mul, abs_of_pos (two_zpow_pos t), zpow_add₀ two_ne_zero]
    exact mul_le_mul_of_nonneg_left (qexp_spec hq hGq).1 (le_of_lt (two_zpow_pos t))
  · rw [abs_mul, abs_of_pos (two_zpow_pos t),
      show t + qexp q + 1 = t + (qexp q + 1) by ring, zpow_add₀ two_ne_zero]
    exact mul_lt_mul_of_pos_left (qexp_spec hq hGq).2 (two_zpow_pos t)

theorem fl_scale {ρ : RMode} {p : ℕ} {q : ℚ} {t : ℤ} (hGq : Good q)
    (hGs : Good ((2:ℚ)^t * q)) :
    fl ρ p ((2:ℚ)^t * q) = 2^t * fl ρ p q := by
  by_cases h : q = 0
  · rw [h, mul_zero, fl_zero, mul_zero]
  · have hs : (2:ℚ)^t * q ≠ 0 := mul_ne_zero (zpow_ne_zero _ two_ne_zero) h
    rw [fl_of_ne h, fl_of_ne hs, qexp_scale h hGq hGs]
    have harg : (2:ℚ)^t * q * 2^(-(t + qexp q - (p:ℤ) + 1)) = q * 2^(-(qexp q - (p:ℤ) + 1)) := by
      rw [mul_comm ((2:ℚ)^t) q, mul_assoc, ← zpow_add₀ two_ne_zero]
      congr 1
      congr 1
      ring
    rw [harg]
    rw [show t + qexp q - (p:ℤ) + 1 = t + (qexp q - (p:ℤ) + 1) by ring, zpow_add₀ two_ne_zero]
    ring


theorem good_of_LDRep {q : ℚ} (h : LDRep q) : Good q := by
  obtain ⟨m, e, hme, hmb, he1, he2⟩ := h
  apply good_of_dyadic hme _ (by omega) (by omega)
  calc m.natAbs ≤ 2^64 := le_of_lt hmb
    _ ≤ 2^600 := Nat.pow_le_pow_right (by norm_num) (by norm_num)

theorem good_of_DRep {q : ℚ} (h : DRep q) : Good q := by
  obtain ⟨m, e, hme, hmb, he1, he2⟩ := h
  apply good_of_dyadic hme _ (by omega) (by omega)
  calc m.natAbs ≤ 2^53 := le_of_lt hmb
    _ ≤ 2^600 := Nat.pow_le_pow_right (by norm_num) (by norm_num)

/-! ## Claims -/

/-- C3 counterexample: the `is_equal` of the log2l special checker uses the
numeric `==` after its NaN test, so it declares the patterns of `+0` and
`-0` equal, while a bit-pattern comparator (the hypotl checker's
`is_equal`, and the binary32 checker's) distinguishes them. -/
theorem C3_log2_signed_zero_counterexample :
    is_equal_log2 ⟨0, 0⟩ ⟨0, 0x8000⟩ = true ∧
    is_equal80 ⟨0, 0⟩ ⟨0, 0x8000⟩ = false ∧
    is_equal32 0 0x80000000 = false := by
  decide

/-- C3 (amended): the binary32 exhaustive checker's `is_equal` and the
hypotl special checker's `is_equal` are bit-pattern equality with all NaN
encodings identified (equal iff both sides are NaN, else iff the patterns
coincide field by field); the log2l special checker's `is_equal` instead
falls back on the numeric `==` of the two long double values after the
same NaN test, so it does not distinguish `+0` from `-0`. -/
theorem C3_harness_equality_characterization :
    (∀ a b : ℕ, is_equal32 a b = true ↔
      ((is_nan32 a = true ∧ is_nan32 b = true) ∨
       (is_nan32 a = false ∧ is_nan32 b = false ∧ a = b))) ∧
    (∀ x y : B80, is_equal80 x y = true ↔
      ((chk_is_nan80 x = true ∧ chk_is_nan80 y = true) ∨
       (chk_is_nan80 x = false ∧ chk_is_nan80 y = false ∧ x.e = y.e ∧ x.m = y.m))) ∧
    (∀ x y : B80, is_equal_log2 x y = true ↔
      ((chk_is_nan80 x = true ∧ chk_is_nan80 y = true) ∨
       (chk_is_nan80 x = false ∧ chk_is_nan80 y = false ∧ ldeq x y = true))) := by
  refine ⟨fun a b => ?_, fun x y => ?_, fun x y => ?_⟩
  · unfold is_equal32
    by_cases h1 : is_nan32 a = true <;> by_cases h2 : is_nan32 b = true <;>
      simp [h1, h2] <;> simp_all
  · unfold is_equal80
    by_cases h1 : chk_is_nan80 x = true <;> by_cases h2 : chk_is_nan80 y = true <;>
      simp [h1, h2] <;> simp_all
  · unfold is_equal_log2
    by_cases h1 : chk_is_nan80 x = true <;> by_cases h2 : chk_is_nan80 y = true <;>
      simp [h1, h2] <;> simp_all

/-- C7: when the oracle's sticky underflow flag is set with its inexact
flag clear, `doit` clears the oracle underflow flag before the
spurious/missing comparisons (`fix_underflow` never re-sets it), so the
oracle flag reaching the comparison is clear and no missing-underflow
mismatch is reported. -/
theorem C7_exact_underflow_suppressed (env : DoitEnv) (mf0 : OFlags) (kf0 : KFlags)
    (h1 : mf0.underflow = true) (h2 : mf0.inexact = false) :
    (doitFlagChecks env mf0 kf0).oracleUnderflowAtCompare = false ∧
    (doitFlagChecks env mf0 kf0).missingUnderflow = false := by
  unfold doitFlagChecks fix_underflow
  rw [h1, h2]
  simp only [Bool.not_false, Bool.and_true, if_true]
  split_ifs <;> simp

/-- Witness for C7 at a concrete environment and flag state. -/
theorem C7_exact_underflow_suppressed_witness :
    (doitFlagChecks ⟨false, false, false, false⟩ ⟨false, true, false⟩
      ⟨false, false, false⟩).oracleUnderflowAtCompare = false ∧
    (doitFlagChecks ⟨false, false, false, false⟩ ⟨false, true, false⟩
      ⟨false, false, false⟩).missingUnderflow = false :=
  C7_exact_underflow_suppressed ⟨false, false, false, false⟩ ⟨false, true, false⟩
    ⟨false, false, false⟩ rfl rfl

/-- C9: the loop bounds of the binary32 exhaustive sweep are the bit
pattern of `+0` (0) and the bit pattern of the largest finite value
`0x1.fffffep+127` (0x7f7fffff), and the arguments passed to `doit` by the
sweep loop are exactly the patterns `n` and `n ||| 0x80000000` for
`nmin <= n <= nmax`. -/
theorem C9_sweep_exact :
    nmin32 = 0 ∧ nmax32 = 0x7f7fffff ∧
    ∀ u : ℕ, u ∈ sweepArgs ↔
      ∃ n : ℕ, nmin32 ≤ n ∧ n ≤ nmax32 ∧ (u = n ∨ u = n ||| 0x80000000) := by
  have h1 : nmin32 = 0 := by decide
  have h2 : nmax32 = 0x7f7fffff := by decide
  refine ⟨h1, h2, fun u => ?_⟩
  unfold sweepArgs
  rw [List.mem_flatMap]
  constructor
  · rintro ⟨n, hn, hu⟩
    rw [List.mem_range'_1] at hn
    simp only [List.mem_cons, List.not_mem_nil, or_false] at hu
    exact ⟨n, hn.1, by omega, hu⟩
  · rintro ⟨n, hn1, hn2, hu⟩
    refine ⟨n, ?_, ?_⟩
    · rw [List.mem_range'_1]
      omega
    · simp only [List.mem_cons, List.not_mem_nil, or_false]
      exact hu

/-- C1: at the input `0x1.0fd1204cd12d938cp+2` (the pattern traced in the
source, significand 0x87e890266896c9c6, biased exponent 16385 — a finite,
nonzero, non-special operand on the numeric path), Ziv's rounding test of
`cr_cbrtl` fails in round-to-nearest, and the function then returns the
all-zero pattern `+0` (the literal `return 0;` of line 281) instead of
falling back to an accurate path: the returned value is a fixed
placeholder, not a rounding of the cube root. -/
theorem C1_cbrtl_ziv_failure_returns_zero :
    cbrtZivFails .RN ⟨0x87e890266896c9c6, 16385⟩ = true ∧
    cr_cbrtl .RN ⟨0x87e890266896c9c6, 16385⟩ = ⟨0, 0⟩ ∧
    b80e7 ⟨0x87e890266896c9c6, 16385⟩ ≠ 0x7fff ∧
    ldIsZero ⟨0x87e890266896c9c6, 16385⟩ = false := by
  refine ⟨by decide, by decide, by decide, by decide⟩

/-! ### Bit-level facts about the 80-bit patterns -/

theorem and_mask15 (n : ℕ) : n &&& 0x7fff = n % 2^15 := by
  have h : n &&& (2^15 - 1) = n % 2^15 := by
    apply Nat.eq_of_testBit_eq
    intro i
    rw [Nat.testBit_and, Nat.testBit_mod_two_pow, Nat.testBit_two_pow_sub_one]
    by_cases h : i < 15
    · simp [h]
    · simp [h]
  exact h

theorem and_mask15_le (n : ℕ) : n &&& 0x7fff ≤ 0x7fff := by
  rw [and_mask15]
  have := Nat.mod_lt n (show 0 < 2^15 by norm_num)
  omega

theorem xor_sign_and_mask (n : ℕ) : (n ^^^ 0x8000) &&& 0x7fff = n &&& 0x7fff := by
  apply Nat.eq_of_testBit_eq
  intro i
  rw [Nat.testBit_and, Nat.testBit_and, Nat.testBit_xor]
  by_cases h : i < 15
  · have h15 : Nat.testBit 0x8000 i = false := by
      rw [show (0x8000 : ℕ) = 2^15 by norm_num, Nat.testBit_two_pow]
      simp
      omega
    rw [h15, Bool.xor_false]
  · have h7 : Nat.testBit 0x7fff i = false := by
      rw [show (0x7fff : ℕ) = 2^15 - 1 by norm_num, Nat.testBit_two_pow_sub_one]
      simp
      omega
    rw [h7, Bool.and_false, Bool.and_false]

theorem quiet_shift_high (m : ℕ) :
    ((((m ||| np2 62) <<< 1) % np2 64) >>> 63) = 1 := by
  set v := (((m ||| np2 62) <<< 1) % np2 64) with hv
  have hvlt : v < 2^64 := by
    rw [hv]
    simp only [np2_eq]
    exact Nat.mod_lt _ (Nat.pos_pow_of_pos _ (by norm_num))
  have hbit : v.testBit 63 = true := by
    rw [hv, np2_eq, np2_eq, Nat.testBit_mod_two_pow]
    have h1 : ((m ||| 2^62) <<< 1).testBit 63 = (m ||| 2^62).testBit 62 := by
      rw [Nat.testBit_shiftLeft]
      norm_num
    rw [h1, Nat.testBit_or]
    have h2 : (2^62 : ℕ).testBit 62 = true := by
      rw [Nat.testBit_two_pow]
      simp
    rw [h2, Bool.or_true]
    norm_num
  have hge : 2^63 ≤ v := Nat.testBit_implies_ge hbit
  rw [Nat.shiftRight_eq_div_pow]
  omega

theorem isQNaN_quiet {p : B80} (he : p.e &&& 0x7fff = 0x7fff) :
    isQNaN (quiet p) = true := by
  have hs := quiet_shift_high p.m
  have hne : (((p.m ||| np2 62) <<< 1) % np2 64) ≠ 0 := by
    intro h0
    rw [h0] at hs
    simp at hs
  simp only [isQNaN, is_nan, is_snan, quiet, he]
  simp [hne, hs]

/-- A signaling NaN decodes as a NaN pattern, and its exponent field is
all ones. -/
theorem snan_facts {s : B80} (h : is_snan s = true) :
    b80val s = .nan s ∧ s.e &&& 0x7fff = 0x7fff ∧ s.m ≠ np2 63 := by
  simp only [is_snan, Bool.and_eq_true, decide_eq_true_eq] at h
  obtain ⟨⟨he, hm⟩, _⟩ := h
  have hmne : s.m ≠ np2 63 := by
    intro heq
    apply hm
    rw [heq, np2_eq, np2_eq, Nat.shiftLeft_eq]
    norm_num
  refine ⟨?_, he, hmne⟩
  simp [b80val, b80e7, he, hmne]

/-- A code-level NaN pattern (`is_nan` of hypotl.c) decodes as a NaN. -/
theorem nan_facts {s : B80} (h : is_nan s = true) :
    b80val s = .nan s ∧ s.e &&& 0x7fff = 0x7fff ∧ s.m ≠ np2 63 := by
  simp only [is_nan, Bool.and_eq_true, decide_eq_true_eq] at h
  obtain ⟨he, hm⟩ := h
  have hmne : s.m ≠ np2 63 := by
    intro heq
    apply hm
    rw [heq, np2_eq, np2_eq, Nat.shiftLeft_eq]
    norm_num
  refine ⟨?_, he, hmne⟩
  simp [b80val, b80e7, he, hmne]

/-- The operand kept in front by the swap has the all-ones exponent field
whenever either operand has it. -/
theorem swap_keeps_top {x y : B80}
    (h : x.e &&& 0x7fff = 0x7fff ∨ y.e &&& 0x7fff = 0x7fff) :
    (if hypotSwap x y then y else x).e &&& 0x7fff = 0x7fff := by
  by_cases hsw : hypotSwap x y
  · rw [if_pos hsw]
    rcases h with hx | hy
    · rcases hsw with hlt | ⟨heq, _⟩
      · have := and_mask15_le y.e
        rw [hx] at hlt
        omega
      · rw [hx] at heq
        omega
    · exact hy
  · rw [if_neg hsw]
    rcases h with hx | hy
    · exact hx
    · unfold hypotSwap at hsw
      push_neg at hsw
      have hle := and_mask15_le x.e
      rw [hy] at hsw
      omega

/-- Inversion of the decoder on its NaN constructor: the pattern itself
comes back, and its exponent field is all ones. -/
theorem b80val_nan_inv {b q : B80} (h : b80val b = .nan q) :
    q = b ∧ b.e &&& 0x7fff = 0x7fff := by
  by_cases h7 : b80e7 b = 0x7fff
  · by_cases hm : b.m = np2 63
    · simp [b80val, h7, hm] at h
    · have hv : b80val b = .nan b := by
        simp [b80val, h7, hm]
      rw [hv] at h
      exact ⟨(LD.nan.inj h).symm, h7⟩
  · simp [b80val, h7] at h

/-- `x + y` at the pattern level with the all-ones field in front: a NaN
among the operands (or the indefinite response to an unsupported
encoding) comes out as a quiet NaN. -/
theorem isQNaN_ldAdd_top (ρ : RMode) (a b : B80)
    (ha7 : a.e &&& 0x7fff = 0x7fff)
    (h : is_snan a = true ∨ is_snan b = true) :
    isQNaN (ldAdd ρ a b) = true := by
  by_cases hu : (b80unsupported a || b80unsupported b) = true
  · simp only [ldAdd]
    rw [if_pos hu]
    decide
  · simp only [ldAdd]
    rw [if_neg hu]
    by_cases ham : a.m = np2 63
    · have hb : is_snan b = true := by
        rcases h with hA | hB
        · exact absurd ham (snan_facts hA).2.2
        · exact hB
      obtain ⟨hbval, hb7, hbm⟩ := snan_facts hb
      have haval : b80val a = .inf (b80sign a) := by
        simp [b80val, b80e7, ha7, ham]
      simp only [haval, hbval]
      exact isQNaN_quiet hb7
    · have haval : b80val a = .nan a := by
        simp [b80val, b80e7, ha7, ham]
      cases hbv : b80val b with
      | nan q =>
          obtain ⟨rfl, hb7⟩ := b80val_nan_inv hbv
          simp only [haval, hbv]
          split_ifs <;> first | exact isQNaN_quiet hb7 | exact isQNaN_quiet ha7
      | inf s =>
          simp only [haval, hbv]
          exact isQNaN_quiet ha7
      | fin q0 =>
          simp only [haval, hbv]
          exact isQNaN_quiet ha7

/-- A signaling NaN in either operand sends `cr_hypotl` through its NaN
branch to `x + y`, whose result is a quiet NaN. -/
theorem hypot_snan_quiet (ρ : RMode) (x y : B80)
    (h : is_snan x = true ∨ is_snan y = true) :
    isQNaN (cr_hypotl ρ x y) = true := by
  have h7 : x.e &&& 0x7fff = 0x7fff ∨ y.e &&& 0x7fff = 0x7fff := by
    rcases h with hx | hy
    · exact Or.inl (snan_facts hx).2.1
    · exact Or.inr (snan_facts hy).2.1
  have hsx7 := swap_keeps_top h7
  by_cases hsw : hypotSwap x y
  · rw [if_pos hsw] at hsx7
    have hc1 : ((y.e &&& 0x7fff : ℕ) : ℤ) - 0x3fff = 0x4000 := by
      rw [hsx7]; norm_num
    simp only [cr_hypotl, if_pos hsw, hc1, if_pos rfl]
    rw [if_pos (h.symm.imp (fun a => a) (fun a => a))]
    exact isQNaN_ldAdd_top ρ y x hsx7 (h.symm.imp (fun a => a) (fun a => a))
  · rw [if_neg hsw] at hsx7
    have hc1 : ((x.e &&& 0x7fff : ℕ) : ℤ) - 0x3fff = 0x4000 := by
      rw [hsx7]; norm_num
    simp only [cr_hypotl, if_neg hsw, hc1, if_pos rfl]
    rw [if_pos h]
    exact isQNaN_ldAdd_top ρ x y hsx7 h

/-- C2 counterexample: the concrete signaling NaN with significand
`2^63 + 1` and exponent field 0x7fff passes through `cr_cbrtl` and the
special dispatch of `cr_exp2l` unchanged — the returned pattern is still
a signaling NaN, not a quiet one. -/
theorem C2_snan_passthrough_counterexample :
    is_snan ⟨0x8000000000000001, 0x7fff⟩ = true ∧
    cr_cbrtl .RN ⟨0x8000000000000001, 0x7fff⟩ = ⟨0x8000000000000001, 0x7fff⟩ ∧
    cr_exp2l_head .RN ⟨0x8000000000000001, 0x7fff⟩ =
      some ⟨0x8000000000000001, 0x7fff⟩ ∧
    is_snan (cr_cbrtl .RN ⟨0x8000000000000001, 0x7fff⟩) = true := by
  decide

/-- C2 (amended): `cr_hypotl` quietens: any signaling-NaN operand (either
sign) makes it return a quiet NaN.  `cr_cbrtl` and `cr_exp2l`, however,
return a signaling-NaN input unchanged (the `return x` of their special
dispatch), so their result on an sNaN is still signaling. -/
theorem C2_snan_behavior :
    (∀ (ρ : RMode) (x y : B80), is_snan x = true ∨ is_snan y = true →
      isQNaN (cr_hypotl ρ x y) = true) ∧
    (∀ (ρ : RMode) (x : B80), is_snan x = true → cr_cbrtl ρ x = x) ∧
    (∀ (ρ : RMode) (x : B80), is_snan x = true → cr_exp2l_head ρ x = some x) := by
  refine ⟨hypot_snan_quiet, fun ρ x hx => ?_, fun ρ x hx => ?_⟩
  · obtain ⟨_, he, _⟩ := snan_facts hx
    simp only [cr_cbrtl, he]
    rw [if_pos (Or.inl trivial)]
  · obtain ⟨_, he, hm⟩ := snan_facts hx
    have hnot : ¬ (x.e = 0xffff ∧ x.m = np2 63) := by
      rintro ⟨_, h2⟩
      exact hm h2
    simp only [cr_exp2l_head, he]
    norm_num [hnot]

/-- When both operands carry the all-ones exponent field, neither is a
signaling NaN, and exactly one is a code-level NaN, `cr_hypotl` returns
`+Inf` (the `1.0L / 0.0L` of line 192). -/
theorem cr_hypotl_both_top (ρ : RMode) (x y : B80)
    (hx7 : x.e &&& 0x7fff = 0x7fff) (hy7 : y.e &&& 0x7fff = 0x7fff)
    (hsnx : is_snan x = false) (hsny : is_snan y = false)
    (hnan : is_nan x = true ∨ is_nan y = true)
    (hnotboth : ¬(is_nan x = true ∧ is_nan y = true)) :
    cr_hypotl ρ x y = posInf80 := by
  by_cases hsw : hypotSwap x y
  · have hc1 : ((y.e &&& 0x7fff : ℕ) : ℤ) - 0x3fff = 0x4000 := by rw [hy7]; norm_num
    have hc2 : ((x.e &&& 0x7fff : ℕ) : ℤ) - 0x3fff = 0x4000 := by rw [hx7]; norm_num
    simp only [cr_hypotl, if_pos hsw]
    rw [if_pos hc1]
    rw [if_neg (by simp [hsnx, hsny])]
    rw [if_pos (by rcases hnan with h | h; exacts [Or.inr h, Or.inl h])]
    rw [if_neg (by rintro ⟨h1, h2⟩; exact hnotboth ⟨h2, h1⟩)]
    rw [if_pos ⟨hc1, hc2⟩]
  · have hc1 : ((x.e &&& 0x7fff : ℕ) : ℤ) - 0x3fff = 0x4000 := by rw [hx7]; norm_num
    have hc2 : ((y.e &&& 0x7fff : ℕ) : ℤ) - 0x3fff = 0x4000 := by rw [hy7]; norm_num
    simp only [cr_hypotl, if_neg hsw]
    rw [if_pos hc1]
    rw [if_neg (by simp [hsnx, hsny])]
    rw [if_pos hnan]
    rw [if_neg hnotboth]
    rw [if_pos ⟨hc1, hc2⟩]

/-- A quiet NaN paired with an operand whose exponent field is not all
ones propagates through `x + y`: the result is the NaN quietened (hence
unchanged). -/
theorem cr_hypotl_qnan_fin (ρ : RMode) (n f : B80)
    (hn : isQNaN n = true) (hns : b80unsupported n = false)
    (hf7 : f.e &&& 0x7fff ≠ 0x7fff) (hfs : b80unsupported f = false) :
    cr_hypotl ρ n f = quiet n ∧ cr_hypotl ρ f n = quiet n := by
  have hnan : is_nan n = true := by
    simp only [isQNaN, Bool.and_eq_true] at hn
    exact hn.1
  have hsn : is_snan n = false := by
    simp only [isQNaN, Bool.and_eq_true, Bool.not_eq_true'] at hn
    exact hn.2
  obtain ⟨hval, h7, hm⟩ := nan_facts hnan
  have hsnf : is_snan f = false := by
    simp [is_snan, hf7]
  have hnanf : is_nan f = false := by
    simp [is_nan, hf7]
  have hflt : (f.e &&& 0x7fff) < 0x7fff := by
    have := and_mask15_le f.e
    omega
  have hc1 : ((n.e &&& 0x7fff : ℕ) : ℤ) - 0x3fff = 0x4000 := by rw [h7]; norm_num
  have hc2 : ¬ (((f.e &&& 0x7fff : ℕ) : ℤ) - 0x3fff = 0x4000) := by
    intro h
    omega
  have hldadd : ldAdd ρ n f = quiet n := by
    simp only [ldAdd]
    rw [if_neg (by simp [hns, hfs])]
    cases hfv : b80val f with
    | nan q => exact absurd (b80val_nan_inv hfv).2 hf7
    | inf s => simp only [hval, hfv]
    | fin q0 => simp only [hval, hfv]
  constructor
  · have hsw : ¬ hypotSwap n f := by
      rintro (h | ⟨h1, _⟩)
      · rw [h7] at h
        omega
      · rw [h7] at h1
        omega
    simp only [cr_hypotl, if_neg hsw]
    rw [if_pos hc1]
    rw [if_neg (by simp [hsn, hsnf])]
    rw [if_pos (Or.inl hnan)]
    rw [if_neg (by rintro ⟨_, h2⟩; rw [hnanf] at h2; exact absurd h2 (by simp))]
    rw [if_neg (by rintro ⟨_, h2⟩; exact hc2 h2)]
    exact hldadd
  · have hsw : hypotSwap f n := by
      left
      rw [h7]
      omega
    simp only [cr_hypotl, if_pos hsw]
    rw [if_pos hc1]
    rw [if_neg (by simp [hsn, hsnf])]
    rw [if_pos (Or.inl hnan)]
    rw [if_neg (by rintro ⟨_, h2⟩; rw [hnanf] at h2; exact absurd h2 (by simp))]
    rw [if_neg (by rintro ⟨_, h2⟩; exact hc2 h2)]
    exact hldadd

/-- C4: an infinity pattern (either sign) paired with a quiet NaN makes
`cr_hypotl` return `+Inf` in both argument orders (the `1.0L / 0.0L` of
line 192, reached for any code-level quiet NaN), while a quiet NaN in a
supported encoding (integer bit set) paired with a supported operand
outside the all-ones-exponent class — an actual finite long double —
propagates as a quiet NaN (the pattern quietened, i.e. unchanged). -/
theorem C4_inf_nan_precedence :
    (∀ (ρ : RMode) (n : B80), isQNaN n = true →
      cr_hypotl ρ posInf80 n = posInf80 ∧ cr_hypotl ρ negInf80 n = posInf80 ∧
      cr_hypotl ρ n posInf80 = posInf80 ∧ cr_hypotl ρ n negInf80 = posInf80) ∧
    (∀ (ρ : RMode) (n f : B80), isQNaN n = true → b80unsupported n = false →
      f.e &&& 0x7fff ≠ 0x7fff → b80unsupported f = false →
      cr_hypotl ρ n f = quiet n ∧ cr_hypotl ρ f n = quiet n ∧
      isQNaN (quiet n) = true) := by
  have hinf : ∀ (ρ : RMode) (I n : B80), I.m = np2 63 → I.e &&& 0x7fff = 0x7fff →
      isQNaN n = true → cr_hypotl ρ I n = posInf80 ∧ cr_hypotl ρ n I = posInf80 := by
    intro ρ I n hIm hI7 hn
    have hnan : is_nan n = true := by
      simp only [isQNaN, Bool.and_eq_true] at hn
      exact hn.1
    have hsn : is_snan n = false := by
      simp only [isQNaN, Bool.and_eq_true, Bool.not_eq_true'] at hn
      exact hn.2
    obtain ⟨_, h7, _⟩ := nan_facts hnan
    have hshift : ((I.m <<< 1) % np2 64) = 0 := by
      rw [hIm, np2_eq, np2_eq, Nat.shiftLeft_eq]
      norm_num
    have hsnI : is_snan I = false := by
      simp [is_snan, hshift]
    have hnanI : is_nan I = false := by
      simp [is_nan, hshift]
    have hnb : ¬ (is_nan I = true ∧ is_nan n = true) := by
      rintro ⟨h1, _⟩
      rw [hnanI] at h1
      exact absurd h1 (by simp)
    have hnb2 : ¬ (is_nan n = true ∧ is_nan I = true) := by
      rintro ⟨_, h1⟩
      rw [hnanI] at h1
      exact absurd h1 (by simp)
    exact ⟨cr_hypotl_both_top ρ I n hI7 h7 hsnI hsn (Or.inr hnan) hnb,
      cr_hypotl_both_top ρ n I h7 hI7 hsn hsnI (Or.inl hnan) hnb2⟩
  constructor
  · intro ρ n hn
    refine ⟨(hinf ρ posInf80 n rfl (by decide) hn).1,
      (hinf ρ negInf80 n rfl (by decide) hn).1,
      (hinf ρ posInf80 n rfl (by decide) hn).2,
      (hinf ρ negInf80 n rfl (by decide) hn).2⟩
  · intro ρ n f hn hns hf7 hfs
    have h7 : n.e &&& 0x7fff = 0x7fff := by
      have hnan : is_nan n = true := by
        simp only [isQNaN, Bool.and_eq_true] at hn
        exact hn.1
      exact (nan_facts hnan).2.1
    obtain ⟨ha, hb⟩ := cr_hypotl_qnan_fin ρ n f hn hns hf7 hfs
    exact ⟨ha, hb, isQNaN_quiet h7⟩

/-- When the second operand (after the swap) is a zero pattern and the
first is finite and not a zero pattern, `cr_hypotl` returns the first
operand with its sign bit cleared (lines 194-205 of hypotl.c). -/
theorem cr_hypotl_zero_second (ρ : RMode) (x z : B80)
    (hz : z = ⟨0, 0⟩ ∨ z = ⟨0, 0x8000⟩)
    (hx7 : x.e &&& 0x7fff ≠ 0x7fff) (hxnz : ¬(x.m = 0 ∧ x.e &&& 0x7fff = 0)) :
    cr_hypotl ρ x z = ⟨x.m, x.e &&& 0x7fff⟩ := by
  have hz7 : z.e &&& 0x7fff = 0 := by
    rcases hz with h | h <;> rw [h] <;> decide
  have hzm : z.m = 0 := by
    rcases hz with h | h <;> rw [h]
  have hsw : ¬ hypotSwap x z := by
    rintro (h | ⟨_, h2⟩)
    · rw [hz7] at h
      omega
    · rw [hzm] at h2
      omega
  have hc1 : ¬ (((x.e &&& 0x7fff : ℕ) : ℤ) - 0x3fff = 0x4000) := by
    have := and_mask15_le x.e
    intro h
    omega
  simp only [cr_hypotl, if_neg hsw]
  rw [if_neg hc1]
  have hyzero : ((z.e &&& 0x7fff : ℕ) : ℤ) - 0x3fff = -0x3fff ∧ z.m = 0 := by
    rw [hz7, hzm]
    norm_num
  have hxne : ¬ (((x.e &&& 0x7fff : ℕ) : ℤ) - 0x3fff = -0x3fff ∧ x.m = 0) := by
    rintro ⟨h1, h2⟩
    apply hxnz
    refine ⟨h2, ?_⟩
    omega
  simp only [hypotPost]
  rw [if_pos hyzero, if_neg hxne]

/-- C5: all four sign combinations of two zero operands return the
pattern of `+0`, and a nonzero finite `x` paired with either-signed zero
returns the pattern of `|x|` (significand unchanged, exponent field with
the sign bit cleared). -/
theorem C5_hypot_zero_operand :
    (∀ (ρ : RMode) (z1 z2 : B80), (z1 = ⟨0, 0⟩ ∨ z1 = ⟨0, 0x8000⟩) →
      (z2 = ⟨0, 0⟩ ∨ z2 = ⟨0, 0x8000⟩) → cr_hypotl ρ z1 z2 = ⟨0, 0⟩) ∧
    (∀ (ρ : RMode) (x z : B80), (z = ⟨0, 0⟩ ∨ z = ⟨0, 0x8000⟩) →
      x.e &&& 0x7fff ≠ 0x7fff → ¬(x.m = 0 ∧ x.e &&& 0x7fff = 0) →
      cr_hypotl ρ x z = ⟨x.m, x.e &&& 0x7fff⟩) := by
  constructor
  · intro ρ z1 z2 h1 h2
    rcases h1 with h1 | h1 <;> rcases h2 with h2 | h2 <;> subst h1 <;> subst h2 <;>
      cases ρ <;> decide
  · exact cr_hypotl_zero_second

/-! ### Symmetry, sign-independence and the sign of the result -/

theorem negB_m (x : B80) : (negB x).m = x.m := rfl

theorem e7_negB (x : B80) : (negB x).e &&& 0x7fff = x.e &&& 0x7fff :=
  xor_sign_and_mask x.e

theorem is_nan_negB (x : B80) : is_nan (negB x) = is_nan x := by
  simp only [is_nan, negB, xor_sign_and_mask]

theorem is_snan_negB (x : B80) : is_snan (negB x) = is_snan x := by
  simp only [is_snan, negB, xor_sign_and_mask]

theorem is_snan_imp_is_nan {s : B80} (h : is_snan s = true) : is_nan s = true := by
  simp only [is_snan, Bool.and_eq_true, decide_eq_true_eq] at h
  simp only [is_nan, Bool.and_eq_true, decide_eq_true_eq]
  exact ⟨h.1.1, h.1.2⟩

theorem is_snan_false_of_nan_false {s : B80} (h : is_nan s = false) :
    is_snan s = false := by
  cases hs : is_snan s
  · rfl
  · rw [is_snan_imp_is_nan hs] at h
    exact absurd h (by simp)

theorem hypotSwap_negB_left (x y : B80) : hypotSwap (negB x) y ↔ hypotSwap x y := by
  unfold hypotSwap
  rw [e7_negB, negB_m]

theorem hypotSwap_negB_right (x y : B80) : hypotSwap x (negB y) ↔ hypotSwap x y := by
  unfold hypotSwap
  rw [e7_negB, negB_m]

/-- `hypotPost` reads its operands only through the significand and the
sign-stripped exponent field. -/
theorem hypotPost_congr (ρ : RMode) (a a' b b' : B80)
    (hma : a.m = a'.m) (hea : a.e &&& 0x7fff = a'.e &&& 0x7fff)
    (hmb : b.m = b'.m) (heb : b.e &&& 0x7fff = b'.e &&& 0x7fff) :
    hypotPost ρ a b = hypotPost ρ a' b' := by
  simp only [hypotPost, hma, hea, hmb, heb]

theorem np2_16_eq : (np2 16 : ℕ) = 65536 := by norm_num [np2_eq]

theorem np2_64_pos : 0 < np2 64 := np2_pos 64

theorem emod16_toNat {v : ℤ} (h1 : 0 ≤ v) (h2 : v < 65536) :
    (v.emod ((np2 16 : ℕ) : ℤ)).toNat = v.toNat := by
  have h16 : ((np2 16 : ℕ) : ℤ) = 65536 := by rw [np2_16_eq]; norm_num
  rw [h16]
  have hm : v.emod 65536 = v := Int.emod_eq_of_lt h1 h2
  rw [hm]

/-- The final assembly never sets the sign bit when the adjusted exponent
is in range. -/
theorem hypotOut_e_bound (ρ : RMode) (ex : Bool) (eps : ℚ) (resm : ℕ) (x1 : ℤ)
    (h1 : -0x3fff ≤ x1) (h2 : x1 ≤ 0x3fff) :
    (hypotOut ρ ex eps resm x1).e < 0x8000 := by
  simp only [hypotOut]
  split_ifs <;> dsimp only <;> rw [emod16_toNat (by omega) (by omega)] <;> omega

/-- The square-root pipeline never sets the sign bit of its result: every
exit's exponent field is at most `0x7fff`. -/
theorem hypotTail_e_bound (ρ : RMode) (hh ll : ℕ) (x0 : ℤ) (h : x0 ≤ 0x3fff) :
    (hypotTail ρ hh ll x0).e < 0x8000 := by
  simp only [hypotTail]
  apply hypotOut_e_bound
  · split <;> omega
  · split <;> omega

theorem ldAdd_huge_e_bound (ρ : RMode) : (ldAdd ρ hugeLD hugeLD).e < 0x8000 := by
  cases ρ <;> decide

theorem ldAdd_huge_half_e_bound (ρ : RMode) :
    (ldAdd ρ hugeLD p16319LD).e < 0x8000 := by
  cases ρ <;> decide

set_option maxHeartbeats 3000000 in
/-- The middle stage of `cr_hypotl` never sets the sign bit, given the
stripped exponent field it echoes back is below the all-ones value. -/
theorem hypotCore_e_bound (ρ : RMode) (mx : ℕ) (x0 : ℤ) (my : ℕ) (y0 : ℤ)
    (ex7 : ℕ) (hex : ex7 ≤ 0x7ffe) :
    (hypotCore ρ mx x0 my y0 ex7).e < 0x8000 := by
  have h16 : (np2 16 : ℕ) = 65536 := np2_16_eq
  have hmod : (ex7 + 1) % np2 16 = ex7 + 1 := by
    rw [h16]
    omega
  simp only [hypotCore]
  split_ifs <;>
    first
      | exact ldAdd_huge_e_bound ρ
      | exact ldAdd_huge_half_e_bound ρ
      | (apply hypotTail_e_bound; omega)
      | (dsimp only; first | (rw [hmod]; omega) | omega)

/-- `hypotPost` never sets the sign bit when the leading operand is not in
the all-ones exponent class. -/
theorem hypotPost_e_bound (ρ : RMode) (a b : B80)
    (ha : a.e &&& 0x7fff ≠ 0x7fff) :
    (hypotPost ρ a b).e < 0x8000 := by
  have hex : a.e &&& 0x7fff ≤ 0x7ffe := by
    have := and_mask15_le a.e
    omega
  simp only [hypotPost]
  split_ifs <;>
    first
      | (dsimp only; omega)
      | (apply hypotCore_e_bound <;> omega)

/-- The NaN/infinity branch of `cr_hypotl` returns `+Inf` when neither
operand is a code-level NaN. -/
theorem hypot_top_nonnan (ρ : RMode) (a b : B80)
    (hna : is_nan a = false) (hnb : is_nan b = false) :
    (if is_snan a ∨ is_snan b then ldAdd ρ a b
     else if is_nan a ∨ is_nan b then
       (if is_nan a ∧ is_nan b then ldAdd ρ a b
        else if ((a.e &&& 0x7fff : ℕ) : ℤ) - 0x3fff = 0x4000 ∧
            ((b.e &&& 0x7fff : ℕ) : ℤ) - 0x3fff = 0x4000 then posInf80
        else ldAdd ρ a b)
     else posInf80) = posInf80 := by
  have hsa := is_snan_false_of_nan_false hna
  have hsb := is_snan_false_of_nan_false hnb
  rw [if_neg (by simp [hsa, hsb]), if_neg (by simp [hna, hnb])]

/-- Symmetry of `cr_hypotl` on inputs that are not code-level NaNs. -/
theorem cr_hypotl_symm (ρ : RMode) (x y : B80)
    (hx : is_nan x = false) (hy : is_nan y = false) :
    cr_hypotl ρ x y = cr_hypotl ρ y x := by
  rcases Decidable.em (hypotSwap x y) with hsw | hsw
  · have hsw' : ¬ hypotSwap y x := by
      rcases hsw with hlt | ⟨heq, hm⟩ <;> rintro (hlt' | ⟨heq', hm'⟩) <;> omega
    simp only [cr_hypotl, if_pos hsw, if_neg hsw']
  · rcases Decidable.em (hypotSwap y x) with hsw' | hsw'
    · simp only [cr_hypotl, if_neg hsw, if_pos hsw']
    · have hkey : x.e &&& 0x7fff = y.e &&& 0x7fff ∧ x.m = y.m := by
        unfold hypotSwap at hsw hsw'
        push_neg at hsw hsw'
        omega
      simp only [cr_hypotl, if_neg hsw, if_neg hsw']
      by_cases htop : ((x.e &&& 0x7fff : ℕ) : ℤ) - 0x3fff = 0x4000
      · have htop' : ((y.e &&& 0x7fff : ℕ) : ℤ) - 0x3fff = 0x4000 := by
          rw [← hkey.1]
          exact htop
        rw [if_pos htop, if_pos htop']
        rw [hypot_top_nonnan ρ x y hx hy, hypot_top_nonnan ρ y x hy hx]
      · have htop' : ¬ (((y.e &&& 0x7fff : ℕ) : ℤ) - 0x3fff = 0x4000) := by
          rw [← hkey.1]
          exact htop
        rw [if_neg htop, if_neg htop']
        exact hypotPost_congr ρ x y y x hkey.2 hkey.1 hkey.2.symm hkey.1.symm

/-- Flipping the sign bit of the first operand does not change the result
of `cr_hypotl` on non-NaN inputs. -/
theorem cr_hypotl_negB_left (ρ : RMode) (x y : B80)
    (hx : is_nan x = false) (hy : is_nan y = false) :
    cr_hypotl ρ (negB x) y = cr_hypotl ρ x y := by
  have hnnx : is_nan (negB x) = false := by
    rw [is_nan_negB]
    exact hx
  rcases Decidable.em (hypotSwap x y) with hsw | hsw
  · have hsw' : hypotSwap (negB x) y := (hypotSwap_negB_left x y).mpr hsw
    simp only [cr_hypotl, if_pos hsw, if_pos hsw']
    by_cases htop : ((y.e &&& 0x7fff : ℕ) : ℤ) - 0x3fff = 0x4000
    · rw [if_pos htop, if_pos htop]
      rw [hypot_top_nonnan ρ y (negB x) hy hnnx, hypot_top_nonnan ρ y x hy hx]
    · rw [if_neg htop, if_neg htop]
      exact hypotPost_congr ρ y y (negB x) x rfl rfl (negB_m x) (e7_negB x)
  · have hsw' : ¬ hypotSwap (negB x) y := fun h => hsw ((hypotSwap_negB_left x y).mp h)
    simp only [cr_hypotl, if_neg hsw, if_neg hsw']
    by_cases htop : ((x.e &&& 0x7fff : ℕ) : ℤ) - 0x3fff = 0x4000
    · have htopn : (((negB x).e &&& 0x7fff : ℕ) : ℤ) - 0x3fff = 0x4000 := by
        rw [e7_negB]
        exact htop
      rw [if_pos htopn, if_pos htop]
      rw [hypot_top_nonnan ρ (negB x) y hnnx hy, hypot_top_nonnan ρ x y hx hy]
    · have htopn : ¬ ((((negB x).e &&& 0x7fff : ℕ) : ℤ) - 0x3fff = 0x4000) := by
        rw [e7_negB]
        exact htop
      rw [if_neg htopn, if_neg htop]
      exact hypotPost_congr ρ (negB x) x y y (negB_m x) (e7_negB x) rfl rfl

/-- The result of `cr_hypotl` on non-NaN inputs always has a clear sign
bit. -/
theorem cr_hypotl_sign_clear (ρ : RMode) (x y : B80)
    (hx : is_nan x = false) (hy : is_nan y = false) :
    (cr_hypotl ρ x y).e < 0x8000 := by
  rcases Decidable.em (hypotSwap x y) with hsw | hsw
  · simp only [cr_hypotl, if_pos hsw]
    by_cases htop : ((y.e &&& 0x7fff : ℕ) : ℤ) - 0x3fff = 0x4000
    · rw [if_pos htop]
      rw [hypot_top_nonnan ρ y x hy hx]
      decide
    · rw [if_neg htop]
      apply hypotPost_e_bound
      intro h7
      rw [h7] at htop
      norm_num at htop
  · simp only [cr_hypotl, if_neg hsw]
    by_cases htop : ((x.e &&& 0x7fff : ℕ) : ℤ) - 0x3fff = 0x4000
    · rw [if_pos htop]
      rw [hypot_top_nonnan ρ x y hx hy]
      decide
    · rw [if_neg htop]
      apply hypotPost_e_bound
      intro h7
      rw [h7] at htop
      norm_num at htop

/-- C10 counterexample: `cr_hypotl` is not sign-independent on NaN
operands: the quiet NaN propagates with its sign bit, so negating the NaN
operand changes the returned pattern. -/
theorem C10_nan_sign_counterexample :
    cr_hypotl .RN (negB ⟨0xC000000000000000, 0x7fff⟩) ⟨0x8000000000000000, 16383⟩ ≠
    cr_hypotl .RN ⟨0xC000000000000000, 0x7fff⟩ ⟨0x8000000000000000, 16383⟩ := by
  decide

/-- C10 (amended): on operands that are not code-level NaNs, `cr_hypotl`
is symmetric and independent of either sign bit, and its result always
has the sign bit clear; for NaN operands the returned pattern keeps the
NaN's sign bit, so the unrestricted claim fails. -/
theorem C10_symmetric_sign_independent (ρ : RMode) (x y : B80)
    (hx : is_nan x = false) (hy : is_nan y = false) :
    cr_hypotl ρ x y = cr_hypotl ρ y x ∧
    cr_hypotl ρ (negB x) y = cr_hypotl ρ x y ∧
    cr_hypotl ρ x (negB y) = cr_hypotl ρ x y ∧
    cr_hypotl ρ (negB x) (negB y) = cr_hypotl ρ x y ∧
    (cr_hypotl ρ x y).e < 0x8000 := by
  have hny : is_nan (negB y) = false := by rw [is_nan_negB]; exact hy
  have hnx : is_nan (negB x) = false := by rw [is_nan_negB]; exact hx
  have hright : cr_hypotl ρ x (negB y) = cr_hypotl ρ x y := by
    rw [cr_hypotl_symm ρ x (negB y) hx hny, cr_hypotl_negB_left ρ y x hy hx]
    exact cr_hypotl_symm ρ y x hy hx
  refine ⟨cr_hypotl_symm ρ x y hx hy, cr_hypotl_negB_left ρ x y hx hy, hright, ?_,
    cr_hypotl_sign_clear ρ x y hx hy⟩
  rw [cr_hypotl_negB_left ρ x (negB y) hx hny]
  exact hright

/-- Witness for C10 at `x = 3.0L`, `y = 4.0L` (where the result is the
exact `5.0L`). -/
theorem C10_symmetric_sign_independent_witness :
    cr_hypotl .RN ⟨0xC000000000000000, 16384⟩ ⟨0x8000000000000000, 16385⟩ =
      cr_hypotl .RN ⟨0x8000000000000000, 16385⟩ ⟨0xC000000000000000, 16384⟩ ∧
    cr_hypotl .RN (negB ⟨0xC000000000000000, 16384⟩) ⟨0x8000000000000000, 16385⟩ =
      cr_hypotl .RN ⟨0xC000000000000000, 16384⟩ ⟨0x8000000000000000, 16385⟩ ∧
    cr_hypotl .RN ⟨0xC000000000000000, 16384⟩ (negB ⟨0x8000000000000000, 16385⟩) =
      cr_hypotl .RN ⟨0xC000000000000000, 16384⟩ ⟨0x8000000000000000, 16385⟩ ∧
    cr_hypotl .RN (negB ⟨0xC000000000000000, 16384⟩) (negB ⟨0x8000000000000000, 16385⟩) =
      cr_hypotl .RN ⟨0xC000000000000000, 16384⟩ ⟨0x8000000000000000, 16385⟩ ∧
    (cr_hypotl .RN ⟨0xC000000000000000, 16384⟩ ⟨0x8000000000000000, 16385⟩).e < 0x8000 :=
  C10_symmetric_sign_independent .RN ⟨0xC000000000000000, 16384⟩
    ⟨0x8000000000000000, 16385⟩ (by decide) (by decide)

/-! ### Exactness of the Dekker product (C8) -/

theorem two_zpow_le {a b : ℤ} (h : a ≤ b) : (2:ℚ)^a ≤ 2^b :=
  zpow_le_zpow_right₀ one_le_two h

theorem gr_pow2 (t : ℤ) : Gr t ((2:ℚ)^t) := ⟨1, by norm_num⟩

theorem den_one_int {q : ℚ} (h : q.den = 1) : ∃ k : ℤ, q = (k : ℚ) :=
  ⟨q.num, ((Rat.den_eq_one_iff q).mp h).symm⟩

theorem den_one_gr {g : ℤ} {q : ℚ} (h : (q * qp2 (-g)).den = 1) : Gr g q := by
  obtain ⟨k, hk⟩ := den_one_int h
  refine ⟨k, ?_⟩
  have hq : q = q * qp2 (-g) * qp2 g := by
    rw [qp2_eq, qp2_eq, mul_assoc, ← zpow_add₀ two_ne_zero]
    norm_num
  rw [hq, hk, qp2_eq]

theorem gr_zero_of_den_one {q : ℚ} (h : q.den = 1) : Gr 0 q := by
  obtain ⟨k, hk⟩ := den_one_int h
  exact ⟨k, by rw [hk]; norm_num⟩

/-- Reading off the Veltkamp conclusions from the executable check. -/
theorem vOK_spec {ρ : RMode} {x : ℚ} (h : vOK ρ x = true) :
    (split ρ x).1 + (split ρ x).2 = x ∧ Gr 32 (split ρ x).1 ∧
    |(split ρ x).1| ≤ 2^(64:ℤ) ∧ Gr 0 (split ρ x).2 ∧
    |(split ρ x).2| ≤ 2^(32:ℤ) - 1 := by
  simp only [vOK, Bool.and_eq_true, decide_eq_true_eq] at h
  obtain ⟨⟨⟨⟨h1, h2⟩, h3⟩, h4⟩, h5⟩ := h
  rw [qp2_eq] at h3 h5
  exact ⟨h1, den_one_gr h2, h3, gr_zero_of_den_one h4, h5⟩

theorem vOK_edges (ρ : RMode) : vEdges.all (fun x => vOK ρ x) = true := by
  cases ρ <;> decide

/-- `fl` is the identity on values whose granularity is at least the
rounding grid. -/
theorem fl_exact_gr {ρ : RMode} {p : ℕ} {q : ℚ} {h : ℤ}
    (hq : Gr h q) (hle : qexp q - (p:ℤ) + 1 ≤ h) : fl ρ p q = q := by
  by_cases h0 : q = 0
  · rw [h0, fl_zero]
  · obtain ⟨k, hk⟩ := hq
    have harg : q * (2:ℚ)^(-(qexp q - (p:ℤ) + 1))
        = ((k * 2^(h - (qexp q - (p:ℤ) + 1)).toNat : ℤ) : ℚ) := by
      push_cast
      rw [← zpow_natCast (2:ℚ) (h - (qexp q - (p:ℤ) + 1)).toNat,
        Int.toNat_of_nonneg (by omega)]
      conv_lhs => rw [hk]
      rw [mul_assoc, ← zpow_add₀ two_ne_zero, ← hk]
      congr 1
    rw [fl_of_ne h0, harg, rint_intCast, ← harg]
    rw [mul_assoc, ← zpow_add₀ two_ne_zero]
    rw [show -(qexp q - (p:ℤ) + 1) + (qexp q - (p:ℤ) + 1) = 0 by ring]
    norm_num

/-- `fl` preserves granularity: the rounding either refines the grid or
returns the value unchanged. -/
theorem fl_gr_preserve {ρ : RMode} {p : ℕ} {q : ℚ} {h : ℤ} (hq : Gr h q) :
    Gr h (fl ρ p q) := by
  rcases le_or_lt (qexp q - (p:ℤ) + 1) h with hle | hlt
  · rw [fl_exact_gr hq hle]
    exact hq
  · exact gr_mono (le_of_lt hlt) (fl_gr ρ p q)

/-- A coarse magnitude bound on one rounding. -/
theorem fl_abs_le_two {ρ : RMode} {p : ℕ} {q : ℚ} (hp : 1 ≤ p) (hG : Good q) :
    |fl ρ p q| ≤ 2 * |q| := by
  by_cases h0 : q = 0
  · rw [h0, fl_zero]
    norm_num
  · have herr := fl_err ρ p q
    have hq1 := (qexp_spec h0 hG).1
    have h2 : (2:ℚ)^(qexp q - (p:ℤ) + 1) ≤ 2^(qexp q) :=
      two_zpow_le (by omega)
    calc |fl ρ p q| = |(fl ρ p q - q) + q| := by ring_nf
      _ ≤ |fl ρ p q - q| + |q| := abs_add _ _
      _ ≤ 2^(qexp q) + |q| := add_le_add (le_trans (le_of_lt herr) h2) (le_refl _)
      _ ≤ |q| + |q| := add_le_add hq1 (le_refl _)
      _ = 2 * |q| := by ring

theorem good_easy {q : ℚ} (h : Gr 0 q) (hb : |q| ≤ (2:ℚ)^(300:ℤ)) : Good q := by
  apply good_of_gr h _ (by norm_num) (by norm_num)
  exact le_trans hb (two_zpow_le (by norm_num))

theorem good_easy_scaled {q : ℚ} {T : ℤ} (h : Gr 0 q)
    (hb : |q| ≤ (2:ℚ)^(300:ℤ)) (h1 : -40000 ≤ T) (h2 : T ≤ 40000) :
    Good ((2:ℚ)^T * q) := by
  obtain ⟨k, hk⟩ := h
  apply good_of_gr (g := T) ⟨k, by rw [hk, zpow_zero]; ring⟩ _ (by omega) (by omega)
  rw [abs_mul, abs_of_pos (two_zpow_pos T)]
  calc (2:ℚ)^T * |q| ≤ 2^T * 2^(300:ℤ) :=
        mul_le_mul_of_nonneg_left hb (le_of_lt (two_zpow_pos T))
    _ = 2^(T + 300) := by rw [← zpow_add₀ two_ne_zero]
    _ ≤ 2^(T + 500) := two_zpow_le (by omega)

/-- The additive error of one rounding, with the granularity of the grid:
`fl q = q + e` with `Gr (qexp q - p + 1) e` and `|e| < 2^(qexp q - p + 1)`
when the argument itself sits on a coarser grid than needed. -/
theorem fl_err_gr {ρ : RMode} {p : ℕ} {q : ℚ} {h : ℤ} (hq : Gr h q) :
    Gr (min h (qexp q - (p:ℤ) + 1)) (fl ρ p q - q) := by
  exact gr_sub (gr_mono (min_le_left _ _) (fl_gr_preserve hq))
    (gr_mono (min_le_left _ _) hq)

theorem gr_mul0 {a b : ℚ} (ha : Gr 0 a) (hb : Gr 0 b) : Gr 0 (a * b) := by
  obtain ⟨j, hj⟩ := ha
  obtain ⟨k, hk⟩ := hb
  exact ⟨j * k, by rw [hj, hk]; push_cast; ring⟩

theorem abs_sub_le' (a b : ℚ) : |a - b| ≤ |a| + |b| := by
  calc |a - b| = |a + -b| := by ring_nf
    _ ≤ |a| + |-b| := abs_add _ _
    _ = |a| + |b| := by rw [abs_neg]

theorem abs_add_ge (a b : ℚ) : |a| - |b| ≤ |a + b| := by
  have h := abs_sub_abs_le_abs_sub a (-b)
  rw [abs_neg, sub_neg_eq_add] at h
  exact h

/-- An integer-valued quantity strictly below `m + 1` is at most `m`. -/
theorem gr0_abs_le {q : ℚ} (h : Gr 0 q) {m : ℤ}
    (hb : |q| < (m:ℚ) + 1) : |q| ≤ (m:ℚ) := by
  obtain ⟨k, hk⟩ := h
  rw [zpow_zero, mul_one] at hk
  subst hk
  rw [← Int.cast_abs] at hb ⊢
  have h1 : |k| < m + 1 := by exact_mod_cast hb
  exact_mod_cast (by omega : |k| ≤ m)

/-- A multiple of `2^g` strictly below `(m+1) * 2^g` is at most
`m * 2^g`. -/
theorem gr_abs_le_mul {g : ℤ} {q : ℚ} (h : Gr g q) {m : ℤ}
    (hb : |q| < ((m:ℚ) + 1) * 2^g) : |q| ≤ (m:ℚ) * 2^g := by
  obtain ⟨k, hk⟩ := h
  subst hk
  rw [abs_mul, abs_of_pos (two_zpow_pos g)] at hb ⊢
  have h1 : |(k:ℚ)| < (m:ℚ) + 1 := lt_of_mul_lt_mul_right hb (le_of_lt (two_zpow_pos g))
  rw [← Int.cast_abs] at h1 ⊢
  have h2 : |k| < m + 1 := by exact_mod_cast h1
  have h3 : |k| ≤ m := by omega
  exact mul_le_mul_of_nonneg_right (by exact_mod_cast h3) (le_of_lt (two_zpow_pos g))

set_option maxHeartbeats 1000000 in
/-- Veltkamp's splitting, away from the binade boundaries: away from the
four boundary mantissas the analysis is uniform; `x - gamma` stays in the
binade `[2^95, 2^96)`, so both `gamma` and `delta` are multiples of
`2^32` and every subsequent operation is exact. -/
theorem veltkamp_mid (ρ : RMode) (x : ℚ) (hgr : Gr 0 x)
    (h1 : (2:ℚ)^(63:ℤ) + 2 ≤ |x|) (h2 : |x| ≤ 2^(64:ℤ) - 3) :
    (split ρ x).1 + (split ρ x).2 = x ∧ Gr 32 (split ρ x).1 ∧
    |(split ρ x).1| ≤ 2^(64:ℤ) ∧ Gr 0 (split ρ x).2 ∧
    |(split ρ x).2| ≤ 2^(32:ℤ) - 1 := by
  have hxne : x ≠ 0 := by
    intro h0
    rw [h0] at h1
    norm_num at h1
  set C : ℚ := ((np2 32 + 1 : ℕ) : ℚ) with hCdef
  have hCval : C = 2^(32:ℤ) + 1 := by
    rw [hCdef, np2_eq]
    push_cast
    norm_num
  have hCpos : (0:ℚ) < C := by
    rw [hCval]
    positivity
  have hCgr : Gr 0 C := ⟨(np2 32 + 1 : ℕ), by rw [hCdef]; push_cast; norm_num⟩
  have hCxgr : Gr 0 (C * x) := gr_mul0 hCgr hgr
  have habs_mul : |C * x| = C * |x| := by rw [abs_mul, abs_of_pos hCpos]
  have hCx_lo : (2:ℚ)^(95:ℤ) ≤ |C * x| := by
    rw [habs_mul, hCval]
    calc (2:ℚ)^(95:ℤ) ≤ (2^(32:ℤ) + 1) * (2^(63:ℤ) + 2) := by norm_num
      _ ≤ (2^(32:ℤ) + 1) * |x| := mul_le_mul_of_nonneg_left h1 (by positivity)
  have hCx_hi : |C * x| < 2^(97:ℤ) := by
    rw [habs_mul, hCval]
    calc (2^(32:ℤ) + 1) * |x| ≤ (2^(32:ℤ) + 1) * (2^(64:ℤ) - 3) :=
          mul_le_mul_of_nonneg_left h2 (by positivity)
      _ < 2^(97:ℤ) := by norm_num
  have hCxne : C * x ≠ 0 := mul_ne_zero (ne_of_gt hCpos) hxne
  have hGCx : Good (C * x) :=
    good_easy hCxgr (le_trans (le_of_lt hCx_hi) (two_zpow_le (by norm_num)))
  have hq_lo : (95:ℤ) ≤ qexp (C * x) := le_qexp hCxne hGCx hCx_lo
  have hq_hi : qexp (C * x) < 97 := qexp_lt hCxne hGCx hCx_hi
  have hγgr : Gr 32 (fl ρ 64 (C * x)) :=
    gr_mono (by omega) (fl_gr ρ 64 (C * x))
  have hηerr : |fl ρ 64 (C * x) - C * x| < 2^(33:ℤ) :=
    lt_of_lt_of_le (fl_err ρ 64 (C * x)) (two_zpow_le (by omega))
  have hηgr : Gr 0 (fl ρ 64 (C * x) - C * x) :=
    gr_sub (gr_mono (by norm_num) hγgr) hCxgr
  have hηb : |fl ρ 64 (C * x) - C * x| ≤ ((2^33 - 1 : ℤ) : ℚ) := by
    apply gr0_abs_le hηgr
    push_cast
    have := hηerr
    norm_num at this ⊢
    linarith
  have hw_eq : x - fl ρ 64 (C * x) = -((2:ℚ)^(32:ℤ) * x) - (fl ρ 64 (C * x) - C * x) := by
    rw [hCval]
    ring
  have habs32 : |(2:ℚ)^(32:ℤ) * x| = 2^(32:ℤ) * |x| := by
    rw [abs_mul, abs_of_pos (two_zpow_pos _)]
  have hw_lo : (2:ℚ)^(95:ℤ) ≤ |x - fl ρ 64 (C * x)| := by
    have htri : |(2:ℚ)^(32:ℤ) * x| - |fl ρ 64 (C * x) - C * x| ≤
        |x - fl ρ 64 (C * x)| := by
      rw [hw_eq]
      have h := abs_sub_abs_le_abs_sub (-((2:ℚ)^(32:ℤ) * x)) (fl ρ 64 (C * x) - C * x)
      rw [abs_neg] at h
      exact h
    rw [habs32] at htri
    have hη := hηb
    push_cast at hη
    norm_num at htri hη ⊢
    nlinarith
  have hw_hi : |x - fl ρ 64 (C * x)| < 2^(96:ℤ) := by
    have htri : |x - fl ρ 64 (C * x)| ≤
        |(2:ℚ)^(32:ℤ) * x| + |fl ρ 64 (C * x) - C * x| := by
      rw [hw_eq]
      calc |-((2:ℚ)^(32:ℤ) * x) - (fl ρ 64 (C * x) - C * x)|
          ≤ |-((2:ℚ)^(32:ℤ) * x)| + |fl ρ 64 (C * x) - C * x| := abs_sub_le' _ _
        _ = |(2:ℚ)^(32:ℤ) * x| + |fl ρ 64 (C * x) - C * x| := by rw [abs_neg]
    rw [habs32] at htri
    have hη := hηb
    push_cast at hη
    norm_num at htri hη ⊢
    nlinarith
  have hwne : x - fl ρ 64 (C * x) ≠ 0 := by
    intro h0
    rw [h0] at hw_lo
    norm_num at hw_lo
  have hwgr : Gr 0 (x - fl ρ 64 (C * x)) :=
    gr_sub hgr (gr_mono (by norm_num) hγgr)
  have hGw : Good (x - fl ρ 64 (C * x)) :=
    good_easy hwgr (le_trans (le_of_lt hw_hi) (two_zpow_le (by norm_num)))
  have hqw : qexp (x - fl ρ 64 (C * x)) = 95 := by
    apply qexp_unique hwne hGw hw_lo
    rw [show (95:ℤ) + 1 = 96 by norm_num]
    exact hw_hi
  have hδgr : Gr 32 (fl ρ 64 (x - fl ρ 64 (C * x))) := by
    have h := fl_gr ρ 64 (x - fl ρ 64 (C * x))
    rw [hqw] at h
    exact gr_mono (by norm_num) h
  have hθerr : |fl ρ 64 (x - fl ρ 64 (C * x)) - (x - fl ρ 64 (C * x))| < 2^(32:ℤ) := by
    have h := fl_err ρ 64 (x - fl ρ 64 (C * x))
    rw [hqw] at h
    rw [show (95:ℤ) - ((64:ℕ):ℤ) + 1 = 32 by norm_num] at h
    exact h
  have hθgr : Gr 0 (fl ρ 64 (x - fl ρ 64 (C * x)) - (x - fl ρ 64 (C * x))) :=
    gr_sub (gr_mono (by norm_num) hδgr) hwgr
  have hθb : |fl ρ 64 (x - fl ρ 64 (C * x)) - (x - fl ρ 64 (C * x))| ≤
      ((2^32 - 1 : ℤ) : ℚ) := by
    apply gr0_abs_le hθgr
    push_cast
    have := hθerr
    norm_num at this ⊢
    linarith
  have hs_eq : fl ρ 64 (C * x) + fl ρ 64 (x - fl ρ 64 (C * x))
      = x + (fl ρ 64 (x - fl ρ 64 (C * x)) - (x - fl ρ 64 (C * x))) := by
    ring
  have hsgr : Gr 32 (fl ρ 64 (C * x) + fl ρ 64 (x - fl ρ 64 (C * x))) :=
    gr_add hγgr hδgr
  have hs_tri : |fl ρ 64 (C * x) + fl ρ 64 (x - fl ρ 64 (C * x))| ≤
      |x| + |fl ρ 64 (x - fl ρ 64 (C * x)) - (x - fl ρ 64 (C * x))| := by
    rw [hs_eq]
    exact abs_add _ _
  have hsrep : Rep 64 (fl ρ 64 (C * x) + fl ρ 64 (x - fl ρ 64 (C * x))) := by
    apply rep_of_gr (by norm_num) hsgr
    rw [show (32:ℤ) + ((64:ℕ):ℤ) = 96 by norm_num]
    have hθ := hθb
    push_cast at hθ
    norm_num at hs_tri hθ ⊢
    linarith
  have hGs : Good (fl ρ 64 (C * x) + fl ρ 64 (x - fl ρ 64 (C * x))) := by
    apply good_easy (gr_mono (by norm_num) hsgr)
    have hθ := hθb
    push_cast at hθ
    norm_num at hs_tri hθ ⊢
    linarith
  have hxh : fl ρ 64 (fl ρ 64 (C * x) + fl ρ 64 (x - fl ρ 64 (C * x)))
      = fl ρ 64 (C * x) + fl ρ 64 (x - fl ρ 64 (C * x)) := fl_exact hsrep hGs
  have hxh_eq : fl ρ 64 (fl ρ 64 (C * x) + fl ρ 64 (x - fl ρ 64 (C * x)))
      = x + (fl ρ 64 (x - fl ρ 64 (C * x)) - (x - fl ρ 64 (C * x))) := by
    rw [hxh, hs_eq]
  have hxhgr : Gr 32 (fl ρ 64 (fl ρ 64 (C * x) + fl ρ 64 (x - fl ρ 64 (C * x)))) := by
    rw [hxh]
    exact hsgr
  have hxhb : |fl ρ 64 (fl ρ 64 (C * x) + fl ρ 64 (x - fl ρ 64 (C * x)))| ≤
      2^(64:ℤ) := by
    have h := gr_abs_le_mul (m := 2^32) hxhgr (by
      rw [hxh_eq]
      have htri := abs_add x (fl ρ 64 (x - fl ρ 64 (C * x)) - (x - fl ρ 64 (C * x)))
      have hθ := hθb
      push_cast at hθ
      norm_num at htri hθ ⊢
      linarith)
    calc |fl ρ 64 (fl ρ 64 (C * x) + fl ρ 64 (x - fl ρ 64 (C * x)))|
        ≤ ((2^32 : ℤ) : ℚ) * 2^(32:ℤ) := h
      _ = 2^(64:ℤ) := by push_cast; norm_num
  have hxl_arg : x - fl ρ 64 (fl ρ 64 (C * x) + fl ρ 64 (x - fl ρ 64 (C * x)))
      = -(fl ρ 64 (x - fl ρ 64 (C * x)) - (x - fl ρ 64 (C * x))) := by
    rw [hxh_eq]
    ring
  have hxlgr0 : Gr 0 (x - fl ρ 64 (fl ρ 64 (C * x) + fl ρ 64 (x - fl ρ 64 (C * x)))) := by
    rw [hxl_arg]
    exact gr_neg hθgr
  have hxlb : |x - fl ρ 64 (fl ρ 64 (C * x) + fl ρ 64 (x - fl ρ 64 (C * x)))| ≤
      ((2^32 - 1 : ℤ) : ℚ) := by
    rw [hxl_arg, abs_neg]
    exact hθb
  have hxlrep : Rep 64 (x - fl ρ 64 (fl ρ 64 (C * x) + fl ρ 64 (x - fl ρ 64 (C * x)))) := by
    apply rep_of_gr (by norm_num) hxlgr0
    rw [show (0:ℤ) + ((64:ℕ):ℤ) = 64 by norm_num]
    have hb := hxlb
    push_cast at hb
    norm_num at hb ⊢
    linarith
  have hGxl : Good (x - fl ρ 64 (fl ρ 64 (C * x) + fl ρ 64 (x - fl ρ 64 (C * x)))) := by
    apply good_easy hxlgr0
    have hb := hxlb
    push_cast at hb
    norm_num at hb ⊢
    linarith
  have hxl : fl ρ 64 (x - fl ρ 64 (fl ρ 64 (C * x) + fl ρ 64 (x - fl ρ 64 (C * x))))
      = x - fl ρ 64 (fl ρ 64 (C * x) + fl ρ 64 (x - fl ρ 64 (C * x))) :=
    fl_exact hxlrep hGxl
  have hc1 : (split ρ x).1 = fl ρ 64 (fl ρ 64 (C * x) + fl ρ 64 (x - fl ρ 64 (C * x))) := rfl
  have hc2 : (split ρ x).2 =
      fl ρ 64 (x - fl ρ 64 (fl ρ 64 (C * x) + fl ρ 64 (x - fl ρ 64 (C * x)))) := rfl
  refine ⟨?_, ?_, ?_, ?_, ?_⟩
  · rw [hc1, hc2, hxl]
    ring
  · rw [hc1]
    exact hxhgr
  · rw [hc1]
    exact hxhb
  · rw [hc2, hxl]
    exact hxlgr0
  · rw [hc2, hxl]
    have hb := hxlb
    push_cast at hb
    norm_num at hb ⊢
    linarith

/-- Rounding to 64 bits commutes with scaling by `2^s`, for integer-sized
arguments and moderate scales (no overflow/underflow in binary80). -/
theorem scale_fl_step {ρ : RMode} {q : ℚ} {s : ℤ} (hgr : Gr 0 q)
    (hb : |q| ≤ (2:ℚ)^(150:ℤ)) (hs1 : -34000 ≤ s) (hs2 : s ≤ 34000) :
    fl ρ 64 ((2:ℚ)^s * q) = 2^s * fl ρ 64 q := by
  apply fl_scale
  · exact good_easy hgr (le_trans hb (two_zpow_le (by norm_num)))
  · exact good_easy_scaled hgr (le_trans hb (two_zpow_le (by norm_num)))
      (by omega) (by omega)

set_option maxHeartbeats 1000000 in
/-- The Veltkamp split commutes with scaling by `2^s` for integer-sized
arguments and moderate scales. -/
theorem split_scale (ρ : RMode) (x : ℚ) (s : ℤ) (hgr : Gr 0 x)
    (hb : |x| ≤ (2:ℚ)^(64:ℤ)) (hs1 : -34000 ≤ s) (hs2 : s ≤ 34000) :
    (split ρ ((2:ℚ)^s * x)).1 = 2^s * (split ρ x).1 ∧
    (split ρ ((2:ℚ)^s * x)).2 = 2^s * (split ρ x).2 := by
  have h64 : (1:ℕ) ≤ 64 := by norm_num
  have hfst : ∀ y : ℚ, (split ρ y).1 =
      fl ρ 64 (fl ρ 64 (((np2 32 + 1 : ℕ) : ℚ) * y) +
        fl ρ 64 (y - fl ρ 64 (((np2 32 + 1 : ℕ) : ℚ) * y))) := fun y => rfl
  have hsnd : ∀ y : ℚ, (split ρ y).2 = fl ρ 64 (y - (split ρ y).1) := fun y => rfl
  have hCgr : Gr 0 ((np2 32 + 1 : ℕ) : ℚ) :=
    ⟨(np2 32 + 1 : ℕ), by push_cast; norm_num⟩
  have hCb : |((np2 32 + 1 : ℕ) : ℚ)| ≤ 2^(33:ℤ) := by
    rw [np2_eq, abs_of_nonneg (by positivity)]
    push_cast
    norm_num
  have hCxgr : Gr 0 (((np2 32 + 1 : ℕ) : ℚ) * x) := gr_mul0 hCgr hgr
  have hCxb : |((np2 32 + 1 : ℕ) : ℚ) * x| ≤ 2^(97:ℤ) := by
    rw [abs_mul]
    calc |((np2 32 + 1 : ℕ) : ℚ)| * |x| ≤ 2^(33:ℤ) * 2^(64:ℤ) :=
          mul_le_mul hCb hb (abs_nonneg _) (by positivity)
      _ = 2^(97:ℤ) := by norm_num
  have hg1gr : Gr 0 (fl ρ 64 (((np2 32 + 1 : ℕ) : ℚ) * x)) := fl_gr_preserve hCxgr
  have hg1b : |fl ρ 64 (((np2 32 + 1 : ℕ) : ℚ) * x)| ≤ 2^(98:ℤ) := by
    calc |fl ρ 64 (((np2 32 + 1 : ℕ) : ℚ) * x)| ≤ 2 * |((np2 32 + 1 : ℕ) : ℚ) * x| :=
          fl_abs_le_two h64 (good_easy hCxgr (le_trans hCxb (two_zpow_le (by norm_num))))
      _ ≤ 2 * 2^(97:ℤ) := by linarith
      _ = 2^(98:ℤ) := by norm_num
  have hwgr : Gr 0 (x - fl ρ 64 (((np2 32 + 1 : ℕ) : ℚ) * x)) := gr_sub hgr hg1gr
  have hwb : |x - fl ρ 64 (((np2 32 + 1 : ℕ) : ℚ) * x)| ≤ 2^(99:ℤ) := by
    calc |x - fl ρ 64 (((np2 32 + 1 : ℕ) : ℚ) * x)|
        ≤ |x| + |fl ρ 64 (((np2 32 + 1 : ℕ) : ℚ) * x)| := abs_sub_le' _ _
      _ ≤ 2^(64:ℤ) + 2^(98:ℤ) := add_le_add hb hg1b
      _ ≤ 2^(99:ℤ) := by norm_num
  have hd1gr : Gr 0 (fl ρ 64 (x - fl ρ 64 (((np2 32 + 1 : ℕ) : ℚ) * x))) :=
    fl_gr_preserve hwgr
  have hd1b : |fl ρ 64 (x - fl ρ 64 (((np2 32 + 1 : ℕ) : ℚ) * x))| ≤ 2^(100:ℤ) := by
    calc |fl ρ 64 (x - fl ρ 64 (((np2 32 + 1 : ℕ) : ℚ) * x))|
        ≤ 2 * |x - fl ρ 64 (((np2 32 + 1 : ℕ) : ℚ) * x)| :=
          fl_abs_le_two h64 (good_easy hwgr (le_trans hwb (two_zpow_le (by norm_num))))
      _ ≤ 2 * 2^(99:ℤ) := by linarith
      _ = 2^(100:ℤ) := by norm_num
  have htgr : Gr 0 (fl ρ 64 (((np2 32 + 1 : ℕ) : ℚ) * x) +
      fl ρ 64 (x - fl ρ 64 (((np2 32 + 1 : ℕ) : ℚ) * x))) := gr_add hg1gr hd1gr
  have htb : |fl ρ 64 (((np2 32 + 1 : ℕ) : ℚ) * x) +
      fl ρ 64 (x - fl ρ 64 (((np2 32 + 1 : ℕ) : ℚ) * x))| ≤ 2^(101:ℤ) := by
    calc |fl ρ 64 (((np2 32 + 1 : ℕ) : ℚ) * x) +
        fl ρ 64 (x - fl ρ 64 (((np2 32 + 1 : ℕ) : ℚ) * x))|
        ≤ |fl ρ 64 (((np2 32 + 1 : ℕ) : ℚ) * x)| +
          |fl ρ 64 (x - fl ρ 64 (((np2 32 + 1 : ℕ) : ℚ) * x))| := abs_add _ _
      _ ≤ 2^(98:ℤ) + 2^(100:ℤ) := add_le_add hg1b hd1b
      _ ≤ 2^(101:ℤ) := by norm_num
  have hxhgr : Gr 0 ((split ρ x).1) := by
    rw [hfst]
    exact fl_gr_preserve htgr
  have hxhb : |(split ρ x).1| ≤ 2^(102:ℤ) := by
    rw [hfst]
    calc |fl ρ 64 (fl ρ 64 (((np2 32 + 1 : ℕ) : ℚ) * x) +
        fl ρ 64 (x - fl ρ 64 (((np2 32 + 1 : ℕ) : ℚ) * x)))|
        ≤ 2 * |fl ρ 64 (((np2 32 + 1 : ℕ) : ℚ) * x) +
          fl ρ 64 (x - fl ρ 64 (((np2 32 + 1 : ℕ) : ℚ) * x))| :=
          fl_abs_le_two h64 (good_easy htgr (le_trans htb (two_zpow_le (by norm_num))))
      _ ≤ 2 * 2^(101:ℤ) := by linarith
      _ = 2^(102:ℤ) := by norm_num
  have hugr : Gr 0 (x - (split ρ x).1) := gr_sub hgr hxhgr
  have hub : |x - (split ρ x).1| ≤ 2^(103:ℤ) := by
    calc |x - (split ρ x).1| ≤ |x| + |(split ρ x).1| := abs_sub_le' _ _
      _ ≤ 2^(64:ℤ) + 2^(102:ℤ) := add_le_add hb hxhb
      _ ≤ 2^(103:ℤ) := by norm_num
  have e1 : fl ρ 64 (((np2 32 + 1 : ℕ) : ℚ) * ((2:ℚ)^s * x)) =
      2^s * fl ρ 64 (((np2 32 + 1 : ℕ) : ℚ) * x) := by
    rw [show ((np2 32 + 1 : ℕ) : ℚ) * ((2:ℚ)^s * x)
        = (2:ℚ)^s * (((np2 32 + 1 : ℕ) : ℚ) * x) by ring]
    exact scale_fl_step hCxgr (le_trans hCxb (two_zpow_le (by norm_num))) hs1 hs2
  have e2 : fl ρ 64 ((2:ℚ)^s * x - 2^s * fl ρ 64 (((np2 32 + 1 : ℕ) : ℚ) * x)) =
      2^s * fl ρ 64 (x - fl ρ 64 (((np2 32 + 1 : ℕ) : ℚ) * x)) := by
    rw [show (2:ℚ)^s * x - 2^s * fl ρ 64 (((np2 32 + 1 : ℕ) : ℚ) * x)
        = (2:ℚ)^s * (x - fl ρ 64 (((np2 32 + 1 : ℕ) : ℚ) * x)) by ring]
    exact scale_fl_step hwgr (le_trans hwb (two_zpow_le (by norm_num))) hs1 hs2
  have hxh_scale : (split ρ ((2:ℚ)^s * x)).1 = 2^s * (split ρ x).1 := by
    rw [hfst, hfst, e1, e2]
    rw [show (2:ℚ)^s * fl ρ 64 (((np2 32 + 1 : ℕ) : ℚ) * x) +
        2^s * fl ρ 64 (x - fl ρ 64 (((np2 32 + 1 : ℕ) : ℚ) * x))
        = (2:ℚ)^s * (fl ρ 64 (((np2 32 + 1 : ℕ) : ℚ) * x) +
          fl ρ 64 (x - fl ρ 64 (((np2 32 + 1 : ℕ) : ℚ) * x))) by ring]
    exact scale_fl_step htgr (le_trans htb (two_zpow_le (by norm_num))) hs1 hs2
  refine ⟨hxh_scale, ?_⟩
  rw [hsnd, hsnd, hxh_scale]
  rw [show (2:ℚ)^s * x - 2^s * (split ρ x).1 = (2:ℚ)^s * (x - (split ρ x).1) by ring]
  exact scale_fl_step hugr (le_trans hub (two_zpow_le (by norm_num))) hs1 hs2

/-- Veltkamp's splitting for every 64-bit integer mantissa in
`[2^63, 2^64)`: the two parts sum back exactly, the high part is a
multiple of `2^32` of magnitude at most `2^64`, the low part an integer
of magnitude at most `2^32 - 1`. -/
theorem veltkamp (ρ : RMode) (x : ℚ) (hgr : Gr 0 x)
    (h1 : (2:ℚ)^(63:ℤ) ≤ |x|) (h2 : |x| ≤ 2^(64:ℤ) - 1) :
    (split ρ x).1 + (split ρ x).2 = x ∧ Gr 32 (split ρ x).1 ∧
    |(split ρ x).1| ≤ 2^(64:ℤ) ∧ Gr 0 (split ρ x).2 ∧
    |(split ρ x).2| ≤ 2^(32:ℤ) - 1 := by
  by_cases hmid : (2:ℚ)^(63:ℤ) + 2 ≤ |x| ∧ |x| ≤ 2^(64:ℤ) - 3
  · exact veltkamp_mid ρ x hgr hmid.1 hmid.2
  · obtain ⟨k, hk⟩ := hgr
    rw [zpow_zero, mul_one] at hk
    subst hk
    have habs : |(k:ℚ)| = (k.natAbs : ℚ) := by
      rw [← Int.cast_abs, ← Int.cast_natAbs]
    have hn1 : 2^63 ≤ k.natAbs := by
      rw [habs] at h1
      norm_num at h1
      exact_mod_cast h1
    have hn2 : k.natAbs ≤ 2^64 - 1 := by
      rw [habs] at h2
      norm_num at h2
      have : (k.natAbs : ℚ) ≤ ((2^64 - 1 : ℕ) : ℚ) := by
        push_cast
        norm_num
        linarith
      exact_mod_cast this
    have hnmid : k.natAbs < 2^63 + 2 ∨ 2^64 - 3 < k.natAbs := by
      by_contra hcon
      push_neg at hcon
      apply hmid
      constructor
      · rw [habs]
        have hq : ((2^63 + 2 : ℕ) : ℚ) ≤ (k.natAbs : ℚ) := by exact_mod_cast hcon.1
        have he : ((2^63 + 2 : ℕ) : ℚ) = 2^(63:ℤ) + 2 := by norm_num
        rw [he] at hq
        exact hq
      · rw [habs]
        have hq : (k.natAbs : ℚ) ≤ ((2^64 - 3 : ℕ) : ℚ) := by exact_mod_cast hcon.2
        have he : ((2^64 - 3 : ℕ) : ℚ) = 2^(64:ℤ) - 3 := by norm_num
        rw [he] at hq
        exact hq
    have hcases : k.natAbs = 2^63 ∨ k.natAbs = 2^63 + 1 ∨
        k.natAbs = 2^64 - 2 ∨ k.natAbs = 2^64 - 1 := by omega
    have hedge := vOK_edges ρ
    simp only [vEdges, List.all_cons, List.all_nil, Bool.and_eq_true, and_true] at hedge
    obtain ⟨he1, he2, he3, he4, he5, he6, he7, he8⟩ := hedge
    rcases Int.natAbs_eq k with hk | hk <;> rcases hcases with hc | hc | hc | hc <;>
        rw [hc] at hk
    · rw [show ((k:ℚ)) = ((np2 63 : ℕ) : ℚ) from by rw [hk, np2_eq]; push_cast; ring]
      exact vOK_spec he1
    · rw [show ((k:ℚ)) = ((np2 63 + 1 : ℕ) : ℚ) from by rw [hk, np2_eq]; push_cast; ring]
      exact vOK_spec he3
    · rw [show ((k:ℚ)) = ((np2 64 - 2 : ℕ) : ℚ) from by rw [hk, np2_eq]; push_cast; ring]
      exact vOK_spec he5
    · rw [show ((k:ℚ)) = ((np2 64 - 1 : ℕ) : ℚ) from by rw [hk, np2_eq]; push_cast; ring]
      exact vOK_spec he7
    · rw [show ((k:ℚ)) = -((np2 63 : ℕ) : ℚ) from by rw [hk, np2_eq]; push_cast; ring]
      exact vOK_spec he2
    · rw [show ((k:ℚ)) = -((np2 63 + 1 : ℕ) : ℚ) from by rw [hk, np2_eq]; push_cast; ring]
      exact vOK_spec he4
    · rw [show ((k:ℚ)) = -((np2 64 - 2 : ℕ) : ℚ) from by rw [hk, np2_eq]; push_cast; ring]
      exact vOK_spec he6
    · rw [show ((k:ℚ)) = -((np2 64 - 1 : ℕ) : ℚ) from by rw [hk, np2_eq]; push_cast; ring]
      exact vOK_spec he8

theorem abs_mul_le {a b A B : ℚ} (ha : |a| ≤ A) (hb : |b| ≤ B) :
    |a * b| ≤ A * B := by
  rw [abs_mul]
  exact mul_le_mul ha hb (abs_nonneg _) (le_trans (abs_nonneg _) ha)

theorem abs_add_le3 {a b A B Z : ℚ} (ha : |a| ≤ A) (hb : |b| ≤ B)
    (hz : A + B ≤ Z) : |a + b| ≤ Z :=
  le_trans (le_trans (abs_add a b) (add_le_add ha hb)) hz

theorem abs_sub_le3 {a b A B Z : ℚ} (ha : |a| ≤ A) (hb : |b| ≤ B)
    (hz : A + B ≤ Z) : |a - b| ≤ Z :=
  le_trans (le_trans (abs_sub_le' a b) (add_le_add ha hb)) hz

/-- Granularity and a doubled magnitude bound survive a 64-bit rounding. -/
theorem fl_gr0_bound {ρ : RMode} {q : ℚ} {c : ℤ} (hgr : Gr 0 q)
    (hb : |q| ≤ (2:ℚ)^c) (hc1 : -200 ≤ c) (hc2 : c ≤ 200) :
    Gr 0 (fl ρ 64 q) ∧ |fl ρ 64 q| ≤ 2^(c+1) := by
  refine ⟨fl_gr_preserve hgr, ?_⟩
  calc |fl ρ 64 q| ≤ 2 * |q| :=
        fl_abs_le_two (by norm_num) (good_easy hgr (le_trans hb (two_zpow_le (by omega))))
    _ ≤ 2 * 2^c := by linarith
    _ = 2^(c+1) := by rw [zpow_add₀ two_ne_zero]; ring

set_option maxHeartbeats 1000000 in
/-- Dekker's product is exact for operands that are integers in
`[2^63, 2^64 - 1]`: `rh + rl = u * v` with no residual error, in every
rounding mode. -/
theorem a_mul_core (ρ : RMode) (u v : ℚ) (hu : Gr 0 u) (hv : Gr 0 v)
    (hu1 : (2:ℚ)^(63:ℤ) ≤ |u|) (hu2 : |u| ≤ 2^(64:ℤ) - 1)
    (hv1 : (2:ℚ)^(63:ℤ) ≤ |v|) (hv2 : |v| ≤ 2^(64:ℤ) - 1) :
    (a_mul ρ u v).1 + (a_mul ρ u v).2 = u * v := by
  obtain ⟨hUs, hU1g, hU1b, hU2g, hU2b⟩ := veltkamp ρ u hu hu1 hu2
  obtain ⟨hVs, hV1g, hV1b, hV2g, hV2b⟩ := veltkamp ρ v hv hv1 hv2
  have hfst : (a_mul ρ u v).1 = fl ρ 64 (u * v) := rfl
  have hsnd : (a_mul ρ u v).2 =
      fl ρ 64 (fl ρ 64 (fl ρ 64 (fl ρ 64 (fl ρ 64 ((split ρ u).1 * (split ρ v).1) -
        fl ρ 64 (u * v)) + fl ρ 64 ((split ρ u).1 * (split ρ v).2)) +
        fl ρ 64 ((split ρ u).2 * (split ρ v).1)) +
        fl ρ 64 ((split ρ u).2 * (split ρ v).2)) := rfl
  rw [hfst, hsnd]
  set a1 := (split ρ u).1
  set a2 := (split ρ u).2
  set b1 := (split ρ v).1
  set b2 := (split ρ v).2
  have hune : u ≠ 0 := by
    intro h0
    rw [h0] at hu1
    norm_num at hu1
  have hvne : v ≠ 0 := by
    intro h0
    rw [h0] at hv1
    norm_num at hv1
  have huvne : u * v ≠ 0 := mul_ne_zero hune hvne
  have huv_gr : Gr 0 (u * v) := gr_mul0 hu hv
  have huv_lo : (2:ℚ)^(126:ℤ) ≤ |u * v| := by
    rw [abs_mul]
    calc (2:ℚ)^(126:ℤ) = 2^(63:ℤ) * 2^(63:ℤ) := by norm_num
      _ ≤ |u| * |v| :=
          mul_le_mul hu1 hv1 (le_of_lt (two_zpow_pos _)) (abs_nonneg _)
  have huv_hi : |u * v| < 2^(128:ℤ) := by
    rw [abs_mul]
    calc |u| * |v| ≤ (2^(64:ℤ) - 1) * (2^(64:ℤ) - 1) :=
          mul_le_mul hu2 hv2 (abs_nonneg _) (by norm_num)
      _ < 2^(128:ℤ) := by norm_num
  have hGuv : Good (u * v) :=
    good_easy huv_gr (le_trans (le_of_lt huv_hi) (two_zpow_le (by norm_num)))
  have hq_lo : (126:ℤ) ≤ qexp (u * v) := le_qexp huvne hGuv huv_lo
  have hq_hi : qexp (u * v) < 128 := qexp_lt huvne hGuv huv_hi
  have hrh_gr : Gr 63 (fl ρ 64 (u * v)) :=
    gr_mono (by omega) (fl_gr ρ 64 (u * v))
  have hε_gr : Gr 0 (fl ρ 64 (u * v) - u * v) :=
    gr_sub (gr_mono (by norm_num) hrh_gr) huv_gr
  have hε_lt : |fl ρ 64 (u * v) - u * v| < 2^(64:ℤ) :=
    lt_of_lt_of_le (fl_err ρ 64 (u * v)) (two_zpow_le (by omega))
  have hε_b : |fl ρ 64 (u * v) - u * v| ≤ 2^(64:ℤ) - 1 := by
    have h2 := hε_lt
    norm_num at h2
    have h := gr0_abs_le (m := 2^64 - 1) hε_gr (by push_cast; norm_num; exact h2)
    push_cast at h
    norm_num at h ⊢
    linarith
  have hg11 : Gr 64 (a1 * b1) := by
    have h := gr_mul hU1g hV1g
    norm_num at h
    exact h
  have hg12 : Gr 32 (a1 * b2) := by
    have h := gr_mul hU1g hV2g
    norm_num at h
    exact h
  have hg21 : Gr 32 (a2 * b1) := by
    have h := gr_mul hU2g hV1g
    norm_num at h
    exact h
  have hg22 : Gr 0 (a2 * b2) := by
    have h := gr_mul hU2g hV2g
    norm_num at h
    exact h
  have hpb11 : |a1 * b1| ≤ 2^(128:ℤ) := by
    rw [abs_mul]
    calc |a1| * |b1| ≤ 2^(64:ℤ) * 2^(64:ℤ) :=
          mul_le_mul hU1b hV1b (abs_nonneg _) (le_of_lt (two_zpow_pos _))
      _ = 2^(128:ℤ) := by norm_num
  have hpb12 : |a1 * b2| ≤ 2^(96:ℤ) := by
    rw [abs_mul]
    calc |a1| * |b2| ≤ 2^(64:ℤ) * (2^(32:ℤ) - 1) :=
          mul_le_mul hU1b hV2b (abs_nonneg _) (le_of_lt (two_zpow_pos _))
      _ ≤ 2^(96:ℤ) := by norm_num
  have hpb21 : |a2 * b1| ≤ 2^(96:ℤ) := by
    rw [abs_mul]
    calc |a2| * |b1| ≤ (2^(32:ℤ) - 1) * 2^(64:ℤ) :=
          mul_le_mul hU2b hV1b (abs_nonneg _) (by norm_num)
      _ ≤ 2^(96:ℤ) := by norm_num
  have hpb22 : |a2 * b2| ≤ 2^(64:ℤ) := by
    rw [abs_mul]
    calc |a2| * |b2| ≤ (2^(32:ℤ) - 1) * (2^(32:ℤ) - 1) :=
          mul_le_mul hU2b hV2b (abs_nonneg _) (by norm_num)
      _ ≤ 2^(64:ℤ) := by norm_num
  have ha2v : |a2 * v| ≤ (2^(32:ℤ) - 1) * (2^(64:ℤ) - 1) := by
    rw [abs_mul]
    exact mul_le_mul hU2b hv2 (abs_nonneg _) (by norm_num)
  have ha1b1 : fl ρ 64 (a1 * b1) = a1 * b1 := by
    apply fl_exact
    · apply rep_of_gr (by norm_num) hg11
      rw [show (64:ℤ) + ((64:ℕ):ℤ) = 128 by norm_num]
      exact hpb11
    · exact good_easy (gr_mono (by norm_num) hg11)
        (le_trans hpb11 (two_zpow_le (by norm_num)))
  have ha1b2 : fl ρ 64 (a1 * b2) = a1 * b2 := by
    apply fl_exact
    · apply rep_of_gr (by norm_num) hg12
      rw [show (32:ℤ) + ((64:ℕ):ℤ) = 96 by norm_num]
      exact hpb12
    · exact good_easy (gr_mono (by norm_num) hg12)
        (le_trans hpb12 (two_zpow_le (by norm_num)))
  have ha2b1 : fl ρ 64 (a2 * b1) = a2 * b1 := by
    apply fl_exact
    · apply rep_of_gr (by norm_num) hg21
      rw [show (32:ℤ) + ((64:ℕ):ℤ) = 96 by norm_num]
      exact hpb21
    · exact good_easy (gr_mono (by norm_num) hg21)
        (le_trans hpb21 (two_zpow_le (by norm_num)))
  have ha2b2 : fl ρ 64 (a2 * b2) = a2 * b2 := by
    apply fl_exact
    · apply rep_of_gr (by norm_num) hg22
      rw [show (0:ℤ) + ((64:ℕ):ℤ) = 64 by norm_num]
      exact hpb22
    · exact good_easy hg22 (le_trans hpb22 (two_zpow_le (by norm_num)))
  rw [ha1b1, ha1b2, ha2b1, ha2b2]
  have hexp : u * v = a1 * b1 + a1 * b2 + a2 * b1 + a2 * b2 := by
    rw [← hUs, ← hVs]
    ring
  have hid1 : a1 * b1 - fl ρ 64 (u * v) =
      -(a1 * b2 + a2 * b1 + a2 * b2) - (fl ρ 64 (u * v) - u * v) := by
    rw [hexp]
    ring
  have harg1_gr : Gr 63 (a1 * b1 - fl ρ 64 (u * v)) :=
    gr_sub (gr_mono (by norm_num) hg11) hrh_gr
  have harg1_b : |a1 * b1 - fl ρ 64 (u * v)| ≤ 2^(98:ℤ) := by
    rw [hid1]
    calc |-(a1 * b2 + a2 * b1 + a2 * b2) - (fl ρ 64 (u * v) - u * v)|
        ≤ |-(a1 * b2 + a2 * b1 + a2 * b2)| + |fl ρ 64 (u * v) - u * v| := abs_sub_le' _ _
      _ = |a1 * b2 + a2 * b1 + a2 * b2| + |fl ρ 64 (u * v) - u * v| := by rw [abs_neg]
      _ ≤ (|a1 * b2| + |a2 * b1| + |a2 * b2|) + |fl ρ 64 (u * v) - u * v| := by
          have h := abs_add (a1 * b2 + a2 * b1) (a2 * b2)
          have h2 := abs_add (a1 * b2) (a2 * b1)
          have h3 := abs_nonneg (fl ρ 64 (u * v) - u * v)
          linarith
      _ ≤ 2^(98:ℤ) := by
          have := hε_b
          norm_num at hpb12 hpb21 hpb22 this ⊢
          linarith
  have ht1 : fl ρ 64 (a1 * b1 - fl ρ 64 (u * v)) = a1 * b1 - fl ρ 64 (u * v) := by
    apply fl_exact
    · apply rep_of_gr (by norm_num) harg1_gr
      rw [show (63:ℤ) + ((64:ℕ):ℤ) = 127 by norm_num]
      exact le_trans harg1_b (two_zpow_le (by norm_num))
    · exact good_easy (gr_mono (by norm_num) harg1_gr)
        (le_trans harg1_b (two_zpow_le (by norm_num)))
  rw [ht1]
  have hid2 : a1 * b1 - fl ρ 64 (u * v) + a1 * b2 =
      -(a2 * v) - (fl ρ 64 (u * v) - u * v) := by
    rw [← hVs, ← hUs]
    ring
  have harg2_gr : Gr 32 (a1 * b1 - fl ρ 64 (u * v) + a1 * b2) :=
    gr_add (gr_mono (by norm_num) harg1_gr) hg12
  have harg2_b : |a1 * b1 - fl ρ 64 (u * v) + a1 * b2| ≤ 2^(96:ℤ) := by
    rw [hid2]
    calc |-(a2 * v) - (fl ρ 64 (u * v) - u * v)|
        ≤ |-(a2 * v)| + |fl ρ 64 (u * v) - u * v| := abs_sub_le' _ _
      _ = |a2 * v| + |fl ρ 64 (u * v) - u * v| := by rw [abs_neg]
      _ ≤ 2^(96:ℤ) := by
          have h1 := ha2v
          have h2 := hε_b
          norm_num at h1 h2 ⊢
          linarith
  have ht2 : fl ρ 64 (a1 * b1 - fl ρ 64 (u * v) + a1 * b2) =
      a1 * b1 - fl ρ 64 (u * v) + a1 * b2 := by
    apply fl_exact
    · apply rep_of_gr (by norm_num) harg2_gr
      rw [show (32:ℤ) + ((64:ℕ):ℤ) = 96 by norm_num]
      exact harg2_b
    · exact good_easy (gr_mono (by norm_num) harg2_gr)
        (le_trans harg2_b (two_zpow_le (by norm_num)))
  rw [ht2]
  have hid3 : a1 * b1 - fl ρ 64 (u * v) + a1 * b2 + a2 * b1 =
      -(a2 * b2) - (fl ρ 64 (u * v) - u * v) := by
    rw [hexp]
    ring
  have harg3_gr : Gr 32 (a1 * b1 - fl ρ 64 (u * v) + a1 * b2 + a2 * b1) :=
    gr_add harg2_gr hg21
  have harg3_b : |a1 * b1 - fl ρ 64 (u * v) + a1 * b2 + a2 * b1| ≤ 2^(96:ℤ) := by
    rw [hid3]
    calc |-(a2 * b2) - (fl ρ 64 (u * v) - u * v)|
        ≤ |-(a2 * b2)| + |fl ρ 64 (u * v) - u * v| := abs_sub_le' _ _
      _ = |a2 * b2| + |fl ρ 64 (u * v) - u * v| := by rw [abs_neg]
      _ ≤ 2^(96:ℤ) := by
          have h1 := hpb22
          have h2 := hε_b
          norm_num at h1 h2 ⊢
          linarith
  have ht3 : fl ρ 64 (a1 * b1 - fl ρ 64 (u * v) + a1 * b2 + a2 * b1) =
      a1 * b1 - fl ρ 64 (u * v) + a1 * b2 + a2 * b1 := by
    apply fl_exact
    · apply rep_of_gr (by norm_num) harg3_gr
      rw [show (32:ℤ) + ((64:ℕ):ℤ) = 96 by norm_num]
      exact harg3_b
    · exact good_easy (gr_mono (by norm_num) harg3_gr)
        (le_trans harg3_b (two_zpow_le (by norm_num)))
  rw [ht3]
  have hid4 : a1 * b1 - fl ρ 64 (u * v) + a1 * b2 + a2 * b1 + a2 * b2 =
      -(fl ρ 64 (u * v) - u * v) := by
    rw [hexp]
    ring
  have harg4_gr : Gr 0 (a1 * b1 - fl ρ 64 (u * v) + a1 * b2 + a2 * b1 + a2 * b2) :=
    gr_add (gr_mono (by norm_num) harg3_gr) hg22
  have harg4_b : |a1 * b1 - fl ρ 64 (u * v) + a1 * b2 + a2 * b1 + a2 * b2| ≤
      2^(64:ℤ) - 1 := by
    rw [hid4, abs_neg]
    exact hε_b
  have ht4 : fl ρ 64 (a1 * b1 - fl ρ 64 (u * v) + a1 * b2 + a2 * b1 + a2 * b2) =
      a1 * b1 - fl ρ 64 (u * v) + a1 * b2 + a2 * b1 + a2 * b2 := by
    apply fl_exact
    · apply rep_of_gr (by norm_num) harg4_gr
      rw [show (0:ℤ) + ((64:ℕ):ℤ) = 64 by norm_num]
      have := harg4_b
      norm_num at this ⊢
      linarith
    · apply good_easy harg4_gr
      have := harg4_b
      norm_num at this ⊢
      linarith
  rw [ht4]
  linarith [hexp]

set_option maxHeartbeats 2000000 in
/-- Dekker's product commutes with scaling each operand by a power of two,
for normalized integer mantissas and binary80-sized scales. -/
theorem a_mul_scale (ρ : RMode) (x y : ℚ) (s t : ℤ) (hx : Gr 0 x) (hy : Gr 0 y)
    (hx1 : (2:ℚ)^(63:ℤ) ≤ |x|) (hx2 : |x| ≤ 2^(64:ℤ) - 1)
    (hy1 : (2:ℚ)^(63:ℤ) ≤ |y|) (hy2 : |y| ≤ 2^(64:ℤ) - 1)
    (hs1 : -17000 ≤ s) (hs2 : s ≤ 17000) (ht1 : -17000 ≤ t) (ht2 : t ≤ 17000) :
    (a_mul ρ ((2:ℚ)^s * x) ((2:ℚ)^t * y)).1 = 2^(s+t) * (a_mul ρ x y).1 ∧
    (a_mul ρ ((2:ℚ)^s * x) ((2:ℚ)^t * y)).2 = 2^(s+t) * (a_mul ρ x y).2 := by
  obtain ⟨hXs, hX1g, hX1b, hX2g, hX2b⟩ := veltkamp ρ x hx hx1 hx2
  obtain ⟨hYs, hY1g, hY1b, hY2g, hY2b⟩ := veltkamp ρ y hy hy1 hy2
  have hfst : ∀ w z : ℚ, (a_mul ρ w z).1 = fl ρ 64 (w * z) := fun w z => rfl
  have hsnd : ∀ w z : ℚ, (a_mul ρ w z).2 =
      fl ρ 64 (fl ρ 64 (fl ρ 64 (fl ρ 64 (fl ρ 64 ((split ρ w).1 * (split ρ z).1) -
        fl ρ 64 (w * z)) + fl ρ 64 ((split ρ w).1 * (split ρ z).2)) +
        fl ρ 64 ((split ρ w).2 * (split ρ z).1)) +
        fl ρ 64 ((split ρ w).2 * (split ρ z).2)) := fun w z => rfl
  have hxb64 : |x| ≤ (2:ℚ)^(64:ℤ) := le_trans hx2 (by norm_num)
  have hyb64 : |y| ≤ (2:ℚ)^(64:ℤ) := le_trans hy2 (by norm_num)
  obtain ⟨hsp1, hsp2⟩ := split_scale ρ x s hx hxb64 (by omega) (by omega)
  obtain ⟨hsq1, hsq2⟩ := split_scale ρ y t hy hyb64 (by omega) (by omega)
  have hx1g : Gr 0 (split ρ x).1 := gr_mono (by norm_num) hX1g
  have hx2b : |(split ρ x).2| ≤ (2:ℚ)^(64:ℤ) := le_trans hX2b (by norm_num)
  have hy1g : Gr 0 (split ρ y).1 := gr_mono (by norm_num) hY1g
  have hy2b : |(split ρ y).2| ≤ (2:ℚ)^(64:ℤ) := le_trans hY2b (by norm_num)
  have hxyg : Gr 0 (x * y) := gr_mul0 hx hy
  have hxyb : |x * y| ≤ (2:ℚ)^(128:ℤ) :=
    le_trans (abs_mul_le hxb64 hyb64) (by norm_num)
  have hp11g : Gr 0 ((split ρ x).1 * (split ρ y).1) := gr_mul0 hx1g hy1g
  have hp11b : |(split ρ x).1 * (split ρ y).1| ≤ (2:ℚ)^(128:ℤ) :=
    le_trans (abs_mul_le hX1b hY1b) (by norm_num)
  have hp12g : Gr 0 ((split ρ x).1 * (split ρ y).2) := gr_mul0 hx1g hY2g
  have hp12b : |(split ρ x).1 * (split ρ y).2| ≤ (2:ℚ)^(128:ℤ) :=
    le_trans (abs_mul_le hX1b hy2b) (by norm_num)
  have hp21g : Gr 0 ((split ρ x).2 * (split ρ y).1) := gr_mul0 hX2g hy1g
  have hp21b : |(split ρ x).2 * (split ρ y).1| ≤ (2:ℚ)^(128:ℤ) :=
    le_trans (abs_mul_le hx2b hY1b) (by norm_num)
  have hp22g : Gr 0 ((split ρ x).2 * (split ρ y).2) := gr_mul0 hX2g hY2g
  have hp22b : |(split ρ x).2 * (split ρ y).2| ≤ (2:ℚ)^(128:ℤ) :=
    le_trans (abs_mul_le hx2b hy2b) (by norm_num)
  obtain ⟨hrhg, hrhb⟩ := fl_gr0_bound (ρ := ρ) hxyg hxyb (by norm_num) (by norm_num)
  obtain ⟨h11g, h11b⟩ := fl_gr0_bound (ρ := ρ) hp11g hp11b (by norm_num) (by norm_num)
  obtain ⟨h12g, h12b⟩ := fl_gr0_bound (ρ := ρ) hp12g hp12b (by norm_num) (by norm_num)
  obtain ⟨h21g, h21b⟩ := fl_gr0_bound (ρ := ρ) hp21g hp21b (by norm_num) (by norm_num)
  obtain ⟨h22g, h22b⟩ := fl_gr0_bound (ρ := ρ) hp22g hp22b (by norm_num) (by norm_num)
  have ha1g : Gr 0 (fl ρ 64 ((split ρ x).1 * (split ρ y).1) - fl ρ 64 (x * y)) :=
    gr_sub h11g hrhg
  have ha1b : |fl ρ 64 ((split ρ x).1 * (split ρ y).1) - fl ρ 64 (x * y)| ≤
      (2:ℚ)^(130:ℤ) := abs_sub_le3 h11b hrhb (by norm_num)
  obtain ⟨ht1g, ht1b⟩ := fl_gr0_bound (ρ := ρ) ha1g ha1b (by norm_num) (by norm_num)
  have ha2g : Gr 0 (fl ρ 64 (fl ρ 64 ((split ρ x).1 * (split ρ y).1) -
      fl ρ 64 (x * y)) + fl ρ 64 ((split ρ x).1 * (split ρ y).2)) :=
    gr_add ht1g h12g
  have ha2b : |fl ρ 64 (fl ρ 64 ((split ρ x).1 * (split ρ y).1) -
      fl ρ 64 (x * y)) + fl ρ 64 ((split ρ x).1 * (split ρ y).2)| ≤
      (2:ℚ)^(132:ℤ) := abs_add_le3 ht1b h12b (by norm_num)
  obtain ⟨ht2g, ht2b⟩ := fl_gr0_bound (ρ := ρ) ha2g ha2b (by norm_num) (by norm_num)
  have ha3g : Gr 0 (fl ρ 64 (fl ρ 64 (fl ρ 64 ((split ρ x).1 * (split ρ y).1) -
      fl ρ 64 (x * y)) + fl ρ 64 ((split ρ x).1 * (split ρ y).2)) +
      fl ρ 64 ((split ρ x).2 * (split ρ y).1)) := gr_add ht2g h21g
  have ha3b : |fl ρ 64 (fl ρ 64 (fl ρ 64 ((split ρ x).1 * (split ρ y).1) -
      fl ρ 64 (x * y)) + fl ρ 64 ((split ρ x).1 * (split ρ y).2)) +
      fl ρ 64 ((split ρ x).2 * (split ρ y).1)| ≤ (2:ℚ)^(134:ℤ) :=
    abs_add_le3 ht2b h21b (by norm_num)
  obtain ⟨ht3g, ht3b⟩ := fl_gr0_bound (ρ := ρ) ha3g ha3b (by norm_num) (by norm_num)
  have ha4g : Gr 0 (fl ρ 64 (fl ρ 64 (fl ρ 64 (fl ρ 64 ((split ρ x).1 * (split ρ y).1) -
      fl ρ 64 (x * y)) + fl ρ 64 ((split ρ x).1 * (split ρ y).2)) +
      fl ρ 64 ((split ρ x).2 * (split ρ y).1)) +
      fl ρ 64 ((split ρ x).2 * (split ρ y).2)) := gr_add ht3g h22g
  have ha4b : |fl ρ 64 (fl ρ 64 (fl ρ 64 (fl ρ 64 ((split ρ x).1 * (split ρ y).1) -
      fl ρ 64 (x * y)) + fl ρ 64 ((split ρ x).1 * (split ρ y).2)) +
      fl ρ 64 ((split ρ x).2 * (split ρ y).1)) +
      fl ρ 64 ((split ρ x).2 * (split ρ y).2)| ≤ (2:ℚ)^(136:ℤ) :=
    abs_add_le3 ht3b h22b (by norm_num)
  have e_rh : fl ρ 64 ((2:ℚ)^s * x * ((2:ℚ)^t * y)) = 2^(s+t) * fl ρ 64 (x * y) := by
    rw [show (2:ℚ)^s * x * ((2:ℚ)^t * y) = (2:ℚ)^(s+t) * (x * y) by
      rw [zpow_add₀ two_ne_zero]; ring]
    exact scale_fl_step hxyg (le_trans hxyb (two_zpow_le (by norm_num)))
      (by omega) (by omega)
  constructor
  · rw [hfst, hfst]
    exact e_rh
  rw [hsnd, hsnd, hsp1, hsp2, hsq1, hsq2, e_rh]
  have e_p11 : fl ρ 64 ((2:ℚ)^s * (split ρ x).1 * ((2:ℚ)^t * (split ρ y).1)) =
      2^(s+t) * fl ρ 64 ((split ρ x).1 * (split ρ y).1) := by
    rw [show (2:ℚ)^s * (split ρ x).1 * ((2:ℚ)^t * (split ρ y).1) =
        (2:ℚ)^(s+t) * ((split ρ x).1 * (split ρ y).1) by
      rw [zpow_add₀ two_ne_zero]; ring]
    exact scale_fl_step hp11g (le_trans hp11b (two_zpow_le (by norm_num)))
      (by omega) (by omega)
  have e_p12 : fl ρ 64 ((2:ℚ)^s * (split ρ x).1 * ((2:ℚ)^t * (split ρ y).2)) =
      2^(s+t) * fl ρ 64 ((split ρ x).1 * (split ρ y).2) := by
    rw [show (2:ℚ)^s * (split ρ x).1 * ((2:ℚ)^t * (split ρ y).2) =
        (2:ℚ)^(s+t) * ((split ρ x).1 * (split ρ y).2) by
      rw [zpow_add₀ two_ne_zero]; ring]
    exact scale_fl_step hp12g (le_trans hp12b (two_zpow_le (by norm_num)))
      (by omega) (by omega)
  have e_p21 : fl ρ 64 ((2:ℚ)^s * (split ρ x).2 * ((2:ℚ)^t * (split ρ y).1)) =
      2^(s+t) * fl ρ 64 ((split ρ x).2 * (split ρ y).1) := by
    rw [show (2:ℚ)^s * (split ρ x).2 * ((2:ℚ)^t * (split ρ y).1) =
        (2:ℚ)^(s+t) * ((split ρ x).2 * (split ρ y).1) by
      rw [zpow_add₀ two_ne_zero]; ring]
    exact scale_fl_step hp21g (le_trans hp21b (two_zpow_le (by norm_num)))
      (by omega) (by omega)
  have e_p22 : fl ρ 64 ((2:ℚ)^s * (split ρ x).2 * ((2:ℚ)^t * (split ρ y).2)) =
      2^(s+t) * fl ρ 64 ((split ρ x).2 * (split ρ y).2) := by
    rw [show (2:ℚ)^s * (split ρ x).2 * ((2:ℚ)^t * (split ρ y).2) =
        (2:ℚ)^(s+t) * ((split ρ x).2 * (split ρ y).2) by
      rw [zpow_add₀ two_ne_zero]; ring]
    exact scale_fl_step hp22g (le_trans hp22b (two_zpow_le (by norm_num)))
      (by omega) (by omega)
  rw [e_p11, e_p12, e_p21, e_p22]
  have e_t1 : fl ρ 64 ((2:ℚ)^(s+t) * fl ρ 64 ((split ρ x).1 * (split ρ y).1) -
      (2:ℚ)^(s+t) * fl ρ 64 (x * y)) =
      2^(s+t) * fl ρ 64 (fl ρ 64 ((split ρ x).1 * (split ρ y).1) - fl ρ 64 (x * y)) := by
    rw [show (2:ℚ)^(s+t) * fl ρ 64 ((split ρ x).1 * (split ρ y).1) -
        (2:ℚ)^(s+t) * fl ρ 64 (x * y) =
        (2:ℚ)^(s+t) * (fl ρ 64 ((split ρ x).1 * (split ρ y).1) - fl ρ 64 (x * y)) by
      ring]
    exact scale_fl_step ha1g (le_trans ha1b (two_zpow_le (by norm_num)))
      (by omega) (by omega)
  rw [e_t1]
  have e_t2 : fl ρ 64 ((2:ℚ)^(s+t) * fl ρ 64 (fl ρ 64 ((split ρ x).1 * (split ρ y).1) -
      fl ρ 64 (x * y)) + (2:ℚ)^(s+t) * fl ρ 64 ((split ρ x).1 * (split ρ y).2)) =
      2^(s+t) * fl ρ 64 (fl ρ 64 (fl ρ 64 ((split ρ x).1 * (split ρ y).1) -
      fl ρ 64 (x * y)) + fl ρ 64 ((split ρ x).1 * (split ρ y).2)) := by
    rw [show (2:ℚ)^(s+t) * fl ρ 64 (fl ρ 64 ((split ρ x).1 * (split ρ y).1) -
        fl ρ 64 (x * y)) + (2:ℚ)^(s+t) * fl ρ 64 ((split ρ x).1 * (split ρ y).2) =
        (2:ℚ)^(s+t) * (fl ρ 64 (fl ρ 64 ((split ρ x).1 * (split ρ y).1) -
        fl ρ 64 (x * y)) + fl ρ 64 ((split ρ x).1 * (split ρ y).2)) by ring]
    exact scale_fl_step ha2g (le_trans ha2b (two_zpow_le (by norm_num)))
      (by omega) (by omega)
  rw [e_t2]
  have e_t3 : fl ρ 64 ((2:ℚ)^(s+t) * fl ρ 64 (fl ρ 64 (fl ρ 64 ((split ρ x).1 *
      (split ρ y).1) - fl ρ 64 (x * y)) + fl ρ 64 ((split ρ x).1 * (split ρ y).2)) +
      (2:ℚ)^(s+t) * fl ρ 64 ((split ρ x).2 * (split ρ y).1)) =
      2^(s+t) * fl ρ 64 (fl ρ 64 (fl ρ 64 (fl ρ 64 ((split ρ x).1 * (split ρ y).1) -
      fl ρ 64 (x * y)) + fl ρ 64 ((split ρ x).1 * (split ρ y).2)) +
      fl ρ 64 ((split ρ x).2 * (split ρ y).1)) := by
    rw [show (2:ℚ)^(s+t) * fl ρ 64 (fl ρ 64 (fl ρ 64 ((split ρ x).1 * (split ρ y).1) -
        fl ρ 64 (x * y)) + fl ρ 64 ((split ρ x).1 * (split ρ y).2)) +
        (2:ℚ)^(s+t) * fl ρ 64 ((split ρ x).2 * (split ρ y).1) =
        (2:ℚ)^(s+t) * (fl ρ 64 (fl ρ 64 (fl ρ 64 ((split ρ x).1 * (split ρ y).1) -
        fl ρ 64 (x * y)) + fl ρ 64 ((split ρ x).1 * (split ρ y).2)) +
        fl ρ 64 ((split ρ x).2 * (split ρ y).1)) by ring]
    exact scale_fl_step ha3g (le_trans ha3b (two_zpow_le (by norm_num)))
      (by omega) (by omega)
  rw [e_t3]
  rw [show (2:ℚ)^(s+t) * fl ρ 64 (fl ρ 64 (fl ρ 64 (fl ρ 64 ((split ρ x).1 *
      (split ρ y).1) - fl ρ 64 (x * y)) + fl ρ 64 ((split ρ x).1 * (split ρ y).2)) +
      fl ρ 64 ((split ρ x).2 * (split ρ y).1)) +
      (2:ℚ)^(s+t) * fl ρ 64 ((split ρ x).2 * (split ρ y).2) =
      (2:ℚ)^(s+t) * (fl ρ 64 (fl ρ 64 (fl ρ 64 (fl ρ 64 ((split ρ x).1 *
      (split ρ y).1) - fl ρ 64 (x * y)) + fl ρ 64 ((split ρ x).1 * (split ρ y).2)) +
      fl ρ 64 ((split ρ x).2 * (split ρ y).1)) +
      fl ρ 64 ((split ρ x).2 * (split ρ y).2)) by ring]
  exact scale_fl_step ha4g (le_trans ha4b (two_zpow_le (by norm_num)))
    (by omega) (by omega)

/-- Every representable long double is zero or `2^s` times an integer
mantissa in `[2^63, 2^64)`, with a scale well inside the range where the
embedding stays well behaved. -/
theorem rep_normalize {q : ℚ} (h : LDRep q) :
    q = 0 ∨ ∃ s : ℤ, ∃ x : ℚ, -17000 ≤ s ∧ s ≤ 17000 ∧ Gr 0 x ∧
      (2:ℚ)^(63:ℤ) ≤ |x| ∧ |x| ≤ 2^(64:ℤ) - 1 ∧ q = 2^s * x := by
  obtain ⟨m, e, hq, hm, he1, he2⟩ := h
  by_cases hm0 : m = 0
  · left
    rw [hq, hm0]
    norm_num
  right
  set μ := Nat.log 2 m.natAbs with hμ
  have hna : m.natAbs ≠ 0 := fun h0 => hm0 (Int.natAbs_eq_zero.mp h0)
  have hlo : 2^μ ≤ m.natAbs := Nat.pow_log_le_self 2 hna
  have hhi : m.natAbs < 2^(μ+1) := Nat.lt_pow_succ_log_self (by norm_num) _
  have hμ63 : μ ≤ 63 := by
    by_contra hc
    push_neg at hc
    have h64 : 2^64 ≤ m.natAbs := le_trans (Nat.pow_le_pow_right (by norm_num) hc) hlo
    omega
  have hzlo : (2^63 : ℤ) ≤ |m * 2^(63 - μ)| := by
    rw [abs_mul, abs_pow, (by norm_num : |(2:ℤ)| = 2)]
    have hm' : (2^μ : ℤ) ≤ |m| := by
      rw [Int.abs_eq_natAbs]
      exact_mod_cast hlo
    calc (2^63 : ℤ) = 2^μ * 2^(63 - μ) := by
          rw [← pow_add]
          congr 1
          omega
      _ ≤ |m| * 2^(63 - μ) := mul_le_mul_of_nonneg_right hm' (by positivity)
  have hzhi : |m * 2^(63 - μ)| < 2^64 := by
    rw [abs_mul, abs_pow, (by norm_num : |(2:ℤ)| = 2)]
    have hm' : |m| < 2^(μ+1) := by
      rw [Int.abs_eq_natAbs]
      exact_mod_cast hhi
    calc |m| * 2^(63 - μ) < 2^(μ+1) * 2^(63 - μ) :=
          mul_lt_mul_of_pos_right hm' (by positivity)
      _ = 2^64 := by
          rw [← pow_add]
          congr 1
          omega
  refine ⟨e - (63 - (μ:ℤ)), ((m * 2^(63 - μ) : ℤ) : ℚ), by omega, by omega,
    gr_intCast _, ?_, ?_, ?_⟩
  · rw [← Int.cast_abs]
    calc (2:ℚ)^(63:ℤ) = ((2^63 : ℤ) : ℚ) := by norm_num
      _ ≤ ((|m * 2^(63 - μ)| : ℤ) : ℚ) := by exact_mod_cast hzlo
  · have h2 := gr0_abs_le (m := 2^64 - 1) (gr_intCast (m * 2^(63 - μ))) (by
      rw [← Int.cast_abs]
      have hc : ((|m * 2^(63 - μ)| : ℤ) : ℚ) < ((2^64 : ℤ) : ℚ) := by
        exact_mod_cast hzhi
      push_cast at hc ⊢
      linarith)
    push_cast at h2
    norm_num at h2 ⊢
    linarith
  · rw [hq]
    have h1 : ((m * 2^(63 - μ) : ℤ) : ℚ) = (m:ℚ) * 2^(((63 - μ : ℕ)):ℤ) := by
      push_cast
      rw [zpow_natCast]
    have hc : (((63 - μ : ℕ)):ℤ) = 63 - (μ:ℤ) := by omega
    rw [h1, hc, mul_comm ((2:ℚ)^(e - (63 - (μ:ℤ)))), mul_assoc,
      ← zpow_add₀ two_ne_zero]
    rw [show (63 - (μ:ℤ)) + (e - (63 - (μ:ℤ))) = e by ring]

theorem split_zero (ρ : RMode) : split ρ 0 = (0, 0) := by
  simp [split, fl_zero]

theorem a_mul_zero_left (ρ : RMode) (v : ℚ) : a_mul ρ 0 v = (0, 0) := by
  simp [a_mul, split_zero, fl_zero]

theorem a_mul_zero_right (ρ : RMode) (u : ℚ) : a_mul ρ u 0 = (0, 0) := by
  simp [a_mul, split_zero, fl_zero]

/-- Dekker's product on long doubles is exact for all representable
operands, in every rounding mode. -/
theorem a_mul_exact (ρ : RMode) (u v : ℚ) (hu : LDRep u) (hv : LDRep v) :
    (a_mul ρ u v).1 + (a_mul ρ u v).2 = u * v := by
  rcases rep_normalize hu with h0 | ⟨s, x, hs1, hs2, hgx, hx1, hx2, hux⟩
  · subst h0
    rw [a_mul_zero_left]
    norm_num
  rcases rep_normalize hv with h0 | ⟨t, y, ht1, ht2, hgy, hy1, hy2, hvy⟩
  · subst h0
    rw [a_mul_zero_right]
    norm_num
  subst hux
  subst hvy
  obtain ⟨e1, e2⟩ := a_mul_scale ρ x y s t hgx hgy hx1 hx2 hy1 hy2 hs1 hs2 ht1 ht2
  rw [e1, e2]
  have hcore := a_mul_core ρ x y hgx hgy hx1 hx2 hy1 hy2
  calc 2^(s+t) * (a_mul ρ x y).1 + 2^(s+t) * (a_mul ρ x y).2
      = 2^(s+t) * ((a_mul ρ x y).1 + (a_mul ρ x y).2) := by ring
    _ = 2^(s+t) * (x * y) := by rw [hcore]
    _ = 2^s * x * (2^t * y) := by rw [zpow_add₀ two_ne_zero]; ring

/-- The double-precision fast two-product is exact for all representable
double operands: the product's low half fits in 53 bits. -/
theorem a_mul_double_exact (ρ : RMode) (a b : ℚ) (ha : DRep a) (hb : DRep b) :
    (a_mul_double ρ a b).1 + (a_mul_double ρ a b).2 = a * b := by
  have hfst : (a_mul_double ρ a b).1 = fl ρ 53 (a * b) := rfl
  have hsnd : (a_mul_double ρ a b).2 = fl ρ 53 (a * b - fl ρ 53 (a * b)) := rfl
  rw [hfst, hsnd]
  by_cases h0 : a * b = 0
  · rw [h0]
    simp [fl_zero]
  obtain ⟨ma, ea, hae, ham, hae1, hae2⟩ := ha
  obtain ⟨mb, eb, hbe, hbm, hbe1, hbe2⟩ := hb
  have hgab : Gr (ea + eb) (a * b) := by
    rw [hae, hbe]
    exact ⟨ma * mb, by push_cast; rw [zpow_add₀ two_ne_zero]; ring⟩
  have hma : |(ma:ℚ)| < 2^(53:ℤ) := by
    rw [← Int.cast_abs]
    have hz : |ma| < 2^53 := by
      rw [Int.abs_eq_natAbs]
      exact_mod_cast ham
    calc ((|ma| : ℤ) : ℚ) < ((2^53 : ℤ) : ℚ) := by exact_mod_cast hz
      _ = 2^(53:ℤ) := by norm_num
  have hmb : |(mb:ℚ)| < 2^(53:ℤ) := by
    rw [← Int.cast_abs]
    have hz : |mb| < 2^53 := by
      rw [Int.abs_eq_natAbs]
      exact_mod_cast hbm
    calc ((|mb| : ℤ) : ℚ) < ((2^53 : ℤ) : ℚ) := by exact_mod_cast hz
      _ = 2^(53:ℤ) := by norm_num
  have habs_hi : |a * b| < 2^(ea + eb + 106) := by
    rw [hae, hbe]
    calc |(ma:ℚ) * 2^ea * ((mb:ℚ) * 2^eb)|
        = |(ma:ℚ)| * |(mb:ℚ)| * (2^ea * 2^eb) := by
          rw [abs_mul, abs_mul, abs_mul, abs_of_pos (two_zpow_pos ea),
            abs_of_pos (two_zpow_pos eb)]
          ring
      _ < 2^(53:ℤ) * 2^(53:ℤ) * (2^ea * 2^eb) := by
          apply mul_lt_mul_of_pos_right _ (by positivity)
          exact mul_lt_mul'' hma hmb (abs_nonneg _) (abs_nonneg _)
      _ = 2^(ea + eb + 106) := by
          rw [← zpow_add₀ two_ne_zero, ← zpow_add₀ two_ne_zero,
            ← zpow_add₀ two_ne_zero]
          congr 1
          omega
  have hGab : Good (a * b) := good_of_gr hgab
    (le_trans (le_of_lt habs_hi) (two_zpow_le (by omega))) (by omega) (by omega)
  have hq_hi : qexp (a * b) < ea + eb + 106 := qexp_lt h0 hGab habs_hi
  have hgerr : Gr (ea + eb) (a * b - fl ρ 53 (a * b)) :=
    gr_sub hgab (fl_gr_preserve hgab)
  have herr : |a * b - fl ρ 53 (a * b)| < 2^(ea + eb + 53) := by
    rw [abs_sub_comm]
    exact lt_of_lt_of_le (fl_err ρ 53 (a * b)) (two_zpow_le (by omega))
  have hrep : Rep 53 (a * b - fl ρ 53 (a * b)) := by
    apply rep_of_gr (by norm_num) hgerr
    rw [show ea + eb + ((53:ℕ):ℤ) = ea + eb + 53 by norm_num]
    exact le_of_lt herr
  have hGerr : Good (a * b - fl ρ 53 (a * b)) := good_of_gr hgerr
    (le_trans (le_of_lt herr) (two_zpow_le (by omega))) (by omega) (by omega)
  rw [fl_exact hrep hGerr]
  ring

/-- C8: for all representable long double operands `u, v` (and double
operands `a, b`) — overflow and underflow being absent in the embedding's
unbounded-exponent arithmetic — the Dekker product `a_mul` (resp. the fast
two-product `a_mul_double`) returns a pair `(rh, rl)` with
`rh + rl = u * v` exactly, with zero residual error, under each of the
four IEEE rounding modes. -/
theorem C8_dekker_product_exact :
    (∀ (ρ : RMode) (u v : ℚ), LDRep u → LDRep v →
      (a_mul ρ u v).1 + (a_mul ρ u v).2 = u * v) ∧
    (∀ (ρ : RMode) (a b : ℚ), DRep a → DRep b →
      (a_mul_double ρ a b).1 + (a_mul_double ρ a b).2 = a * b) :=
  ⟨fun ρ u v hu hv => a_mul_exact ρ u v hu hv,
   fun ρ a b ha hb => a_mul_double_exact ρ a b ha hb⟩

end CM
